import Mathlib

/-! # ht_malloc: a binary-twin (buddy) allocator over a bitmap free list

A shallow embedding of `ht_malloc-pedantic.c` for the default build
(`DATAWIDTH = 16`, so `uint` is a 16 bit unsigned word), followed by
theorems about it.

Conventions of the embedding.

* The two bookkeeping arrays that `mem_init` lays out at the start of the
  region are kept as two lists: `pool` (the descriptor table, sentinel
  included) and `freelist` (the bitmap words).
* A pointer is its byte offset from `heapstart` (an `Int`, since
  `heapstart + size * (buddy - 1)` is below `heapstart` when `buddy = 0`);
  the null pointer is `none`.
* Every function that reads or writes memory returns an `Option`; `none`
  stands for behaviour the C standard leaves undefined (an access outside
  the two arrays, two arrays that do not fit in the `heapsize` bytes of the
  region, a shift by a negative amount) or for a loop that does not end
  within the fuel it was given.
* `uint` values are natural numbers, reduced `% 65536` wherever the C code
  stores into a `uint`.
-/

namespace HtMalloc

/-! ## Constants and data types -/

/-- Width of a bitmap word: `#define DATAWIDTH 16`. -/
def DATAWIDTH : Nat := 16

/-- `2 ^ DATAWIDTH_EXPONENT = DATAWIDTH`. -/
def DATAWIDTH_EXPONENT : Nat := 4

/-- Mask of the even-indexed bits of a word. -/
def MASK55 : Nat := 0x5555

/-- Mask of the odd-indexed bits of a word. -/
def MASKaa : Nat := 0xaaaa

/-- Number of values of the type `uint` (`uint16`). -/
def UINT : Nat := 65536

/-- Bytes of one `struct pd`: five `uint` fields. -/
def SIZEOF_POOLDESC : Nat := 10

/-- Bytes of one `uint`. -/
def SIZEOF_UINT : Nat := 2

/-- The heap memory pool descriptor `struct pd`. -/
structure pooldesc where
  size : Nat
  offset : Nat
  avail : Nat
  alloccou : Nat
  fbcou : Nat
deriving DecidableEq

/-- The global variables `pool` and `freelist` (as the arrays they point to). -/
structure State where
  pool : List pooldesc
  freelist : List Nat
deriving DecidableEq

/-- A pointer into the region: `none` is the null pointer, `some d` is
`heapstart + d`. -/
abbrev Ptr := Option Int

/-- The globals before any successful `mem_init`: no table, no bitmap. -/
def State.unset : State := ⟨[], []⟩

/-! ## Utility functions -/

/-- The C function `power_of_two`: `0x1 << number`, or 0 when `number > DATAWIDTH`. -/
def power_of_two (number : Nat) : Nat :=
  if number > DATAWIDTH then 0 else (1 <<< number) % UINT

/-- The loop of `exp_of_2`: `for (base = 2, exponent = 1; base < number; base*=2, exponent++);`
followed by the test `base != number`. -/
def exp_of_2_loop : Nat → Nat → Nat → Nat → Option Nat
  | 0, _, _, _ => none
  | fuel + 1, base, exponent, number =>
    if base < number then
      exp_of_2_loop fuel ((base * 2) % UINT) ((exponent + 1) % UINT) number
    else if base ≠ number then some 0
    else some exponent

/-- The C function `exp_of_2`; `none` when the loop has not ended within `fuel` tests. -/
def exp_of_2 (fuel number : Nat) : Option Nat :=
  exp_of_2_loop fuel 2 1 number

/-- The loop of `fill_bits_in_array`, writing at `mem[array + i]`. Returns the
memory and the final `i`. -/
def fill_bits_in_array_loop : Nat → List Nat → Nat → Nat → Nat → Nat → Option (List Nat × Nat)
  | 0, _, _, _, _, _ => none
  | fuel + 1, mem, array, i, number_bits, state =>
    if number_bits > 0 then
      if array + i < mem.length then
        if number_bits ≥ DATAWIDTH then
          fill_bits_in_array_loop fuel (mem.set (array + i) ((UINT - state) % UINT)) array
            ((i + 1) % UINT) (number_bits - DATAWIDTH) state
        else if number_bits > 0 then
          let v := (power_of_two number_bits + (UINT - 1)) % UINT
          let v := if state = 0 then UINT - 1 - v else v
          fill_bits_in_array_loop fuel (mem.set (array + i) v) array ((i + 1) % UINT) 0 state
        else
          fill_bits_in_array_loop fuel (mem.set (array + i) (UINT - 1 - (UINT - state) % UINT))
            array ((i + 1) % UINT) number_bits state
      else none
    else some (mem, i)

/-- The C function `fill_bits_in_array` on the array starting at `mem[array]`.
Every pass of the loop lowers `number_bits`, so `number_bits + 1` tests suffice. -/
def fill_bits_in_array (mem : List Nat) (array number_bits state : Nat) : Option (List Nat × Nat) :=
  fill_bits_in_array_loop (number_bits + 1) mem array 0 number_bits state

/-- The C function `inverse`: swap every even bit with its odd neighbour. -/
def inverse (org : Nat) : Nat :=
  (((org &&& MASK55) <<< 1) ||| ((org &&& MASKaa) >>> 1)) % UINT

/-- The C function `freebinary`: `inverse(org) & ~org`. -/
def freebinary (org : Nat) : Nat :=
  ((((org &&& MASK55) <<< 1) ||| ((org &&& MASKaa) >>> 1)) &&& (UINT - 1 - org)) % UINT

/-- The C function `fl_bit_set` on the array starting at `mem[fl]`. -/
def fl_bit_set (mem : List Nat) (fl bitnr : Nat) : Option (List Nat) :=
  let i := bitnr >>> DATAWIDTH_EXPONENT
  if bitnr = 0 then none
  else
    match mem[fl + i]? with
    | none => none
    | some w => some (mem.set (fl + i) ((w ||| (1 <<< ((bitnr - 1) % DATAWIDTH))) % UINT))

/-- The C function `fl_bit_reset` on the array starting at `mem[fl]`. -/
def fl_bit_reset (mem : List Nat) (fl bitnr : Nat) : Option (List Nat) :=
  let i := bitnr >>> DATAWIDTH_EXPONENT
  if bitnr = 0 then none
  else
    match mem[fl + i]? with
    | none => none
    | some w =>
      some (mem.set (fl + i) ((w &&& (UINT - 1 - (1 <<< ((bitnr - 1) % DATAWIDTH)))) % UINT))

/-- The C function `fl_bit_state` on the array starting at `mem[fl]`. -/
def fl_bit_state (mem : List Nat) (fl bitnr : Nat) : Option Nat :=
  let i := bitnr >>> DATAWIDTH_EXPONENT
  match mem[fl + i]? with
  | none => none
  | some w => some ((w &&& (1 <<< (bitnr % DATAWIDTH))) % UINT)

/-- The search for the first set bit of `mask` in `fl_find_buddy`:
`for (i = DATAWIDTH>>1; i != 0; i = i>>1)`. Returns `bitnr`. -/
def first_bit_loop : Nat → Nat → Nat → Nat → Nat
  | 0, _, bitnr, _ => bitnr
  | fuel + 1, i, bitnr, mask =>
    if i ≠ 0 then
      if ((1 <<< i) - 1) &&& mask = 0 then
        first_bit_loop fuel (i >>> 1) ((bitnr + i) % UINT) (mask >>> i)
      else
        first_bit_loop fuel (i >>> 1) bitnr mask
    else bitnr

/-- The `do { cnt--; ... } while (cnt > 0)` loop of `fl_find_buddy`; the
argument is the value of `cnt` before the decrement, counted so that a
`cnt` of 0 is entered as 65536. -/
def fl_find_buddy_loop (mem : List Nat) (fl : Nat) : Nat → Option (List Nat × Nat)
  | 0 => some (mem, 0)
  | cnt + 1 =>
    match mem[fl + cnt]? with
    | none => none
    | some w =>
      let mask := ((((w &&& MASK55) <<< 1) ||| ((w &&& MASKaa) >>> 1)) &&& (UINT - 1 - w)) % UINT
      if mask ≠ 0 then
        let bitnr := first_bit_loop (DATAWIDTH_EXPONENT + 1) (DATAWIDTH >>> 1) 1 mask
        some (mem.set (fl + cnt) ((w ||| (1 <<< (bitnr - 1))) % UINT), bitnr + cnt * DATAWIDTH)
      else fl_find_buddy_loop mem fl cnt

/-- The C function `fl_find_buddy` on the array starting at `mem[fl]`. -/
def fl_find_buddy (mem : List Nat) (fl avail : Nat) : Option (List Nat × Nat) :=
  let cnt := avail / DATAWIDTH
  let cnt := if avail % DATAWIDTH ≠ 0 then (cnt + 1) % UINT else cnt
  fl_find_buddy_loop mem fl ((cnt + (UINT - 1)) % UINT + 1)

/-- The C function `fl_free_buddy` on the array starting at `mem[fl]`:
clears the bit and returns the masked word of the sibling bit. -/
def fl_free_buddy (mem : List Nat) (fl bitnr : Nat) : Option (List Nat × Nat) :=
  let member := bitnr >>> DATAWIDTH_EXPONENT
  let bitnr := bitnr % DATAWIDTH
  let bitnr := (bitnr + 1) % UINT
  match mem[fl + member]? with
  | none => none
  | some w =>
    let w1 := (w &&& (UINT - 1 - (1 <<< (bitnr - 1)))) % UINT
    let bitnr := if bitnr % 2 ≠ 0 then (bitnr + 1) % UINT else (bitnr + (UINT - 1)) % UINT
    some (mem.set (fl + member) w1, (w1 &&& (1 <<< (bitnr - 1))) % UINT)

/-! ## mem_init -/

/-- The sentinel descriptor written after the class loop of `mem_init`. -/
def sentinel : pooldesc := ⟨0, 0, 0, 0, 1⟩

/-- Step 1 of `mem_init`: `for (i = 0, offsetcou = 0; minsize*2 <= heapsize; i++, minsize*=2)`,
then the sentinel. Returns the table and the final `offsetcou`. The field
`alloccou` is not written by the loop: it keeps what the region held, `heap`
read at the word index of `pool[i].alloccou`. -/
def mem_init_pool : Nat → Nat → Nat → Nat → Nat → (Nat → Nat) → Option (List pooldesc × Nat)
  | 0, _, _, _, _, _ => none
  | fuel + 1, heapsize, minsize, i, offsetcou, heap =>
    if minsize * 2 ≤ heapsize then
      let avail := heapsize / minsize
      let fbcou := if avail % 2 ≠ 0 then 1 else 0
      let d : pooldesc := ⟨minsize, offsetcou, avail, heap (5 * i + 3) % UINT, fbcou⟩
      let offsetcou := (offsetcou + avail / DATAWIDTH) % UINT
      let offsetcou := if avail % DATAWIDTH ≠ 0 then (offsetcou + 1) % UINT else offsetcou
      match mem_init_pool fuel heapsize ((minsize * 2) % UINT) (i + 1) offsetcou heap with
      | none => none
      | some (rest, oc) => some (d :: rest, oc)
    else some ([sentinel], offsetcou)

/-- The bitmap filling loop of `mem_init`:
`for (i = 0; pool[i].size != 0; i++) j = fill_bits_in_array(&freelist[pool[i].offset], pool[i].avail, 0);`
Returns the memory, the final `i` and the last `j`. -/
def mem_init_fill : List pooldesc → List Nat → Nat → Nat → Option (List Nat × Nat × Nat)
  | [], _, _, _ => none
  | d :: rest, mem, i, j =>
    if d.size ≠ 0 then
      match fill_bits_in_array mem d.offset d.avail 0 with
      | none => none
      | some (mem1, j1) => mem_init_fill rest mem1 (i + 1) j1
    else some (mem, i, j)

/-- The reservation loop of `mem_init`:
`for (i = 1, j = 0; pool[j].size != 0; j++) if (offsetcou <= pool[j].size) { ... }`. -/
def mem_init_reserve : List pooldesc → List Nat → Nat → Nat → Option (List pooldesc × List Nat)
  | [], _, _, _ => none
  | d :: rest, mem, offsetcou, i =>
    if d.size ≠ 0 then
      if offsetcou ≤ d.size then
        match mem[d.offset]? with
        | none => none
        | some w =>
          match mem_init_reserve rest (mem.set d.offset ((w ||| 1) % UINT)) offsetcou 0 with
          | none => none
          | some (rest1, mem1) =>
            some ({ d with fbcou := (d.fbcou + 1) % UINT, alloccou := i } :: rest1, mem1)
      else
        match mem_init_reserve rest mem offsetcou i with
        | none => none
        | some (rest1, mem1) => some (d :: rest1, mem1)
    else some (d :: rest, mem)

/-- The C function `mem_init(heapsize, heap, minsize)`. `heap` is what the
region held before the call, as `uint` words. Returns the value returned and
the globals after the call. The region is the `heapsize` bytes at `heap`: the
call writes the table and the bitmap from the start of the region on, so it is
undefined (`none`) when they take more than `heapsize` bytes. -/
def mem_init (fuel heapsize minsize : Nat) (heap : Nat → Nat) : Option (Nat × State) :=
  if heapsize < minsize then some (0, State.unset)
  else
    match exp_of_2 fuel minsize with
    | none => none
    | some e =>
      if e = 0 then some (0, State.unset)
      else
        match mem_init_pool fuel heapsize minsize 0 0 heap with
        | none => none
        | some (pool, nwords) =>
          if heapsize < SIZEOF_POOLDESC * pool.length + SIZEOF_UINT * nwords then none
          else
            let mem := (List.range nwords).map (fun w => heap (5 * pool.length + w) % UINT)
            match mem_init_fill pool mem 0 0 with
            | none => none
            | some (mem1, i, j) =>
              let offsetcou := (SIZEOF_POOLDESC * (i + 1)) % UINT
              if i = 0 then none
              else
                match pool[i - 1]? with
                | none => none
                | some last =>
                  let offsetcou :=
                    (offsetcou + last.offset * SIZEOF_UINT + j * SIZEOF_UINT) % UINT
                  match mem_init_reserve pool mem1 offsetcou 1 with
                  | none => none
                  | some (pool1, mem2) => some (offsetcou, ⟨pool1, mem2⟩)

/-! ## mem_alloc -/

/-- The class selection loop of `mem_alloc`:
`for (size_match = 0; pool[size_match].size < size & pool[size_match].size != 0; size_match++);`
run on the table from index `size_match` on. -/
def size_match_loop : List pooldesc → Nat → Nat → Option Nat
  | [], _, _ => none
  | d :: rest, size, size_match =>
    if d.size < size ∧ d.size ≠ 0 then size_match_loop rest size (size_match + 1)
    else some size_match

/-- The loop `for (i = size_match + 1; pool[i].fbcou == 0; i++);` of `mem_alloc`,
run on the table from index `i` on. -/
def fbcou_loop : List pooldesc → Nat → Option Nat
  | [], _ => none
  | d :: rest, i => if d.fbcou = 0 then fbcou_loop rest (i + 1) else some i

/-- One pass of the splitting loop of `mem_alloc`, at index `i`: `none` is
undefined behaviour, `some none` says the loop condition
`pool[i].size >= pool[size_match].size` failed, otherwise the state and `buddy`
after the body. -/
def split_step (size_match i : Nat) (st : State) (buddy : Nat) : Option (Option (State × Nat)) :=
  match st.pool[i]?, st.pool[size_match]? with
  | some d, some m =>
    if d.size ≥ m.size then
      let buddy := (buddy <<< 1) % UINT
      let buddy := (buddy + (UINT - 1)) % UINT
      match fl_bit_set st.freelist d.offset buddy with
      | none => none
      | some mem =>
        some (some (⟨st.pool.set i { d with fbcou := (d.fbcou + 1) % UINT }, mem⟩, buddy))
    else some none
  | _, _ => none

/-- The splitting loop of `mem_alloc`:
`for (i--; pool[i].size >= pool[size_match].size; i--) { ...; if (i == 0) break; }`,
entered with `i` already decremented. Returns the state and `buddy`. -/
def split_loop (size_match : Nat) : Nat → State → Nat → Option (State × Nat)
  | 0, st, buddy =>
    match split_step size_match 0 st buddy with
    | none => none
    | some none => some (st, buddy)
    | some (some r) => some r
  | i + 1, st, buddy =>
    match split_step size_match (i + 1) st buddy with
    | none => none
    | some none => some (st, buddy)
    | some (some (st1, buddy1)) => split_loop size_match i st1 buddy1

/-- The C function `mem_alloc(size)`. Returns the pointer and the globals
after the call. -/
def mem_alloc (st : State) (size : Nat) : Option (Ptr × State) :=
  match size_match_loop st.pool size 0 with
  | none => none
  | some size_match =>
    match st.pool[size_match]? with
    | none => none
    | some m =>
      if m.size = 0 then some (none, st)
      else if m.fbcou > 0 then
        match fl_find_buddy st.freelist m.offset m.avail with
        | none => none
        | some (mem, r) =>
          let buddy := r % UINT
          let m1 := { m with fbcou := (m.fbcou + (UINT - 1)) % UINT,
                             alloccou := (m.alloccou + 1) % UINT }
          some (some ((m.size : Int) * ((buddy : Int) - 1)), ⟨st.pool.set size_match m1, mem⟩)
      else
        match fbcou_loop (st.pool.drop (size_match + 1)) (size_match + 1) with
        | none => none
        | some i =>
          match st.pool[i]? with
          | none => none
          | some t =>
            if t.size = 0 then some (none, st)
            else
              match fl_find_buddy st.freelist t.offset t.avail with
              | none => none
              | some (mem, r) =>
                let buddy := r % UINT
                let st1 : State :=
                  ⟨st.pool.set i { t with fbcou := (t.fbcou + (UINT - 1)) % UINT }, mem⟩
                match split_loop size_match (i - 1) st1 buddy with
                | none => none
                | some (st2, buddy2) =>
                  match st2.pool[size_match]? with
                  | none => none
                  | some m2 =>
                    some (some ((m2.size : Int) * ((buddy2 : Int) - 1)),
                      ⟨st2.pool.set size_match { m2 with alloccou := (m2.alloccou + 1) % UINT },
                       st2.freelist⟩)

/-! ## mem_free -/

/-- The block number `(poi - heapstart) / pool[i].size` stored into the `uint`
`bitnr`. -/
def block_number (poi : Int) (size : Nat) : Nat :=
  (Int.tdiv poi (size : Int) % (UINT : Int)).toNat

/-- The class discovery loop of `mem_free`, run on the table from index `i` on:
returns the index at which the loop is left and whether it was left by `break`. -/
def mem_free_find : List pooldesc → List Nat → Int → Nat → Option (Nat × Bool)
  | [], _, _, _ => none
  | d :: rest, mem, poi, i =>
    if d.size ≠ 0 then
      match fl_bit_state mem d.offset (block_number poi d.size) with
      | none => none
      | some j => if j ≠ 0 then some (i, true) else mem_free_find rest mem poi (i + 1)
    else some (i, false)

/-- The coalescing loop of `mem_free`, run on the table from the current index on. -/
def mem_free_up : List pooldesc → List Nat → Int → Option (List pooldesc × List Nat)
  | [], _, _ => none
  | d :: rest, mem, poi =>
    if d.size ≠ 0 then
      match fl_free_buddy mem d.offset (block_number poi d.size) with
      | none => none
      | some (mem1, r) =>
        if r ≠ 0 then some ({ d with fbcou := (d.fbcou + 1) % UINT } :: rest, mem1)
        else
          match mem_free_up rest mem1 poi with
          | none => none
          | some (rest1, mem2) =>
            some ({ d with fbcou := (d.fbcou + (UINT - 1)) % UINT } :: rest1, mem2)
    else some (d :: rest, mem)

/-- The C function `mem_free(poi)`. -/
def mem_free (st : State) (poi : Int) : Option State :=
  match mem_free_find st.pool st.freelist poi 0 with
  | none => none
  | some (i, found) =>
    let pool1 :=
      if found then
        match st.pool[i]? with
        | some d => st.pool.set i { d with alloccou := (d.alloccou + (UINT - 1)) % UINT }
        | none => st.pool
      else st.pool
    match mem_free_up (pool1.drop i) st.freelist poi with
    | none => none
    | some (rest, mem) => some ⟨pool1.take i ++ rest, mem⟩

/-! ## Notions used to state the properties -/

/-- The sibling (twin) of a bit index: the index with its lowest bit flipped. -/
def sibling (i : Nat) : Nat := if i % 2 = 0 then i + 1 else i - 1

/-- `p` is the position of the lowest set bit of `mask`. -/
def IsLowest (mask p : Nat) : Prop :=
  mask.testBit p = true ∧ ∀ q, q < p → mask.testBit q = false

/-- Bit `g` of the bitmap, counted from bit 0 of word 0 (bit `g % 16` of word `g / 16`). -/
def mem_bit (mem : List Nat) (g : Nat) : Bool := (mem.getD (g / 16) 0).testBit (g % 16)

/-- The bit array that starts at word `fl` of the bitmap. -/
def class_bits (mem : List Nat) (fl : Nat) : Nat → Bool := fun i => mem_bit mem (16 * fl + i)

/-- Every word of the bitmap is a `uint` value. -/
def WordsOK (mem : List Nat) : Prop := ∀ w, w ∈ mem → w < UINT

/-- A free buddy: the bit is 0 and its sibling is 1. This is what the mask of
`fl_find_buddy` selects. -/
def is_free_buddy (bits : Nat → Bool) (i : Nat) : Bool := !bits i && bits (sibling i)

/-- Number of free buddies among the first `n` bits: positions that are 0 while
their sibling is 1. -/
def free_buddies (bits : Nat → Bool) (n : Nat) : Nat :=
  (List.range n).countP (fun i => is_free_buddy bits i)

/-- The bitmap `mem1` is `mem` with bit `g` set to 1. -/
def IsSet (mem mem1 : List Nat) (g : Nat) : Prop :=
  mem1.length = mem.length ∧ WordsOK mem1 ∧ ∀ x, mem_bit mem1 x = (mem_bit mem x || decide (x = g))

/-- The bitmap `mem1` is `mem` with bit `g` set to 0. -/
def IsClear (mem mem1 : List Nat) (g : Nat) : Prop :=
  mem1.length = mem.length ∧ WordsOK mem1 ∧ ∀ x, mem_bit mem1 x = (mem_bit mem x && !decide (x = g))

/-- Number of bitmap words of a class with `a` blocks: `a / DATAWIDTH`, plus one
when `a % DATAWIDTH != 0`. -/
def words_for (a : Nat) : Nat := a / DATAWIDTH + (if a % DATAWIDTH ≠ 0 then 1 else 0)

/-- What `fl_find_buddy` found: nothing (`r = 0`, bitmap unchanged, no free
buddy among the first `16 * cnt` bits), or the 1-indexed number `r` of a free
buddy, which is now set; the buddy found is the lowest one of the last word
that has any. -/
def FoundBuddy (mem : List Nat) (fl cnt : Nat) (mem1 : List Nat) (r : Nat) : Prop :=
  (r = 0 ∧ mem1 = mem ∧ ∀ i, i < 16 * cnt → is_free_buddy (class_bits mem fl) i = false) ∨
  (∃ i, i < 16 * cnt ∧ r = i + 1 ∧ is_free_buddy (class_bits mem fl) i = true ∧
    IsSet mem mem1 (16 * fl + i) ∧
    (∀ j, j < 16 * cnt → i / 16 < j / 16 → is_free_buddy (class_bits mem fl) j = false) ∧
    (∀ j, j / 16 = i / 16 → j < i → is_free_buddy (class_bits mem fl) j = false))

/-! ## Geometry of the size classes -/

/-- Block size of class `k` for minimum size `m`. -/
def class_size (m k : Nat) : Nat := m * 2 ^ k

/-- Number of blocks of class `k` in a region of `R` bytes. -/
def class_avail (R m k : Nat) : Nat := R / (m * 2 ^ k)

/-- Bitmap word at which the bit array of class `k` starts: the words of all
smaller classes. -/
def class_offset (R m : Nat) : Nat → Nat
  | 0 => 0
  | k + 1 => class_offset R m k + words_for (class_avail R m k)

/-- The descriptor of class `k` with the given counters. -/
def class_desc (R m : Nat) (al fb : Nat → Nat) (k : Nat) : pooldesc :=
  ⟨class_size m k, class_offset R m k, class_avail R m k, al k, fb k⟩

/-- The descriptor table from class `i` on: `n` classes, then the sentinel. -/
def pool_from (R m : Nat) (al fb : Nat → Nat) : Nat → Nat → List pooldesc
  | 0, _ => [sentinel]
  | n + 1, i => class_desc R m al fb i :: pool_from R m al fb n (i + 1)

/-- The free-buddy counter of class `k` after the class loop of `mem_init`. -/
def init_fbcou0 (R m k : Nat) : Nat := if class_avail R m k % 2 ≠ 0 then 1 else 0

/-- The allocation counter of class `k` after the class loop of `mem_init`: what
the region held. -/
def init_alloccou0 (heap : Nat → Nat) (k : Nat) : Nat := heap (5 * k + 3) % UINT

/-- Bytes of the descriptor table (sentinel included) and of the bitmap. -/
def init_bytes (R m K : Nat) : Nat :=
  SIZEOF_POOLDESC * (K + 1) + SIZEOF_UINT * class_offset R m K

/-- The free-buddy counter of class `k` after `mem_init` with `B` bytes of bookkeeping. -/
def init_fbcou (R m B k : Nat) : Nat :=
  (if class_avail R m k % 2 ≠ 0 then 1 else 0) + (if B ≤ class_size m k then 1 else 0)

/-- The allocation counter of class `k` after `mem_init`: 1 at the first class
whose block holds the bookkeeping, 0 at the larger ones, untouched below. -/
def init_alloccou (heap : Nat → Nat) (m B k : Nat) : Nat :=
  if B ≤ class_size m k then (if k = 0 ∨ class_size m (k - 1) < B then 1 else 0)
  else heap (5 * k + 3) % UINT

/-- A block: its class and its 0-indexed number within the class. -/
abbrev Block := Nat × Nat

/-- Block `b` lies inside (or is) block `x` of class `c`. -/
def covers (b : Block) (c x : Nat) : Prop := b.1 ≤ c ∧ b.2 / 2 ^ (c - b.1) = x

/-- Some block of `A` lies inside (or is) block `x` of class `c`. -/
def covered (A : List Block) (c x : Nat) : Prop := ∃ b, b ∈ A ∧ covers b c x

/-- Two blocks share bytes: one lies inside the other. -/
def overlaps (a b : Block) : Prop := covers a b.1 b.2 ∨ covers b a.1 a.2

/-- Block `x` of class `c` is not free: it does not exist, or holds an allocated block. -/
def full (R m : Nat) (A : List Block) (c x : Nat) : Prop :=
  class_avail R m c ≤ x ∨ covered A c x

/-- The parameters of a successful `mem_init`: `K` classes fit. -/
structure Geom (R m K : Nat) : Prop where
  m_ge : 2 ≤ m
  R_lt : R < 65536
  fits : ∀ k, k < K → 2 * (m * 2 ^ k) ≤ R

/-! ## Reading a state -/

/-- The field `pool[k].size`. -/
def size_at (st : State) (k : Nat) : Nat :=
  match st.pool[k]? with
  | some d => d.size
  | none => 0

/-- The field `pool[k].offset`. -/
def offset_at (st : State) (k : Nat) : Nat :=
  match st.pool[k]? with
  | some d => d.offset
  | none => 0

/-- The field `pool[k].avail`. -/
def avail_at (st : State) (k : Nat) : Nat :=
  match st.pool[k]? with
  | some d => d.avail
  | none => 0

/-- The field `pool[k].alloccou`. -/
def alloccou_at (st : State) (k : Nat) : Nat :=
  match st.pool[k]? with
  | some d => d.alloccou
  | none => 0

/-- The field `pool[k].fbcou`. -/
def fbcou_at (st : State) (k : Nat) : Nat :=
  match st.pool[k]? with
  | some d => d.fbcou
  | none => 0

/-- Bit `i` of the bit array of class `k`: bit `i % 16` of word
`freelist[pool[k].offset + i / 16]`. -/
def class_bit (st : State) (k i : Nat) : Bool :=
  class_bits st.freelist (offset_at st k) i

/-! ## The invariant of the allocator -/

/-- The block that holds the bookkeeping: block 0 of the first class, from
class `k` on, whose size is at least `B` (none when no class is that large). -/
def ghost_from (m B : Nat) : Nat → Nat → List Block
  | 0, _ => []
  | n + 1, k => if B ≤ class_size m k then [(k, 0)] else ghost_from m B n (k + 1)

/-- The state `st` is the one determined by the list `A` of blocks held by the
user and the list `G` of blocks held by the allocator itself: the table is the
table of `mem_init`, a bit is 1 exactly when its block does not exist or holds
a block of `A ++ G`, `fbcou` counts the free buddies, `alloccou` counts the
blocks of `A` over its initial value `a0`, and the blocks are real and
pairwise disjoint. -/
structure Inv (R m K : Nat) (a0 : Nat → Nat) (G : List Block) (st : State) (A : List Block) :
    Prop where
  geom : Geom R m K
  pool_eq : st.pool = pool_from R m (alloccou_at st) (fbcou_at st) K 0
  len : st.freelist.length = class_offset R m K
  words : WordsOK st.freelist
  bits : ∀ k t, k < K → t < 16 * words_for (class_avail R m k) →
    (class_bits st.freelist (class_offset R m k) t = true ↔ full R m (A ++ G) k t)
  fb : ∀ k, k < K → fbcou_at st k =
    free_buddies (class_bits st.freelist (class_offset R m k)) (16 * words_for (class_avail R m k))
  al : ∀ k, k < K → alloccou_at st k = (a0 k + A.countP (fun b => decide (b.1 = k))) % UINT
  real : ∀ b, b ∈ A ++ G → b.1 < K ∧ b.2 < class_avail R m b.1
  excl : (A ++ G).Pairwise (fun a b => ¬ overlaps a b)

/-- The coalescing walk of `mem_free` that starts at class `k` reaches class
`c`: the sibling bit was 0 at every class before (`sb c1` is the sibling bit
met at class `c1`). -/
def Reached (sb : Nat → Bool) (k c : Nat) : Prop :=
  k ≤ c ∧ ∀ c1, c1 < c → k ≤ c1 → sb c1 = false

instance (sb : Nat → Bool) (k c : Nat) : Decidable (Reached sb k c) := by
  unfold Reached; exact inferInstance

/-- The pointer to a block and the class it was served from. -/
def block_ptr (m : Nat) (b : Block) : Int × Nat := (((b.2 * class_size m b.1 : Nat) : Int), b.1)

/-- The states reached from a successful `mem_init(heapsize, heap, minsize)` by
calls of `mem_alloc` and by calls of `mem_free` on live pointers, together with
the live allocations: each pointer returned by `mem_alloc` and not freed since,
with the class `size_match` it was served from. -/
inductive Reach (fuel heapsize minsize : Nat) (heap : Nat → Nat) : State → List (Int × Nat) → Prop
  | init {B : Nat} {st : State} :
      mem_init fuel heapsize minsize heap = some (B, st) → B ≠ 0 →
      Reach fuel heapsize minsize heap st []
  | alloc {st st1 : State} {live : List (Int × Nat)} {size k : Nat} {p : Int} :
      Reach fuel heapsize minsize heap st live →
      mem_alloc st size = some (some p, st1) →
      size_match_loop st.pool size 0 = some k →
      Reach fuel heapsize minsize heap st1 ((p, k) :: live)
  | alloc_null {st st1 : State} {live : List (Int × Nat)} {size : Nat} :
      Reach fuel heapsize minsize heap st live →
      mem_alloc st size = some (none, st1) →
      Reach fuel heapsize minsize heap st1 live
  | free {st st1 : State} {l1 l2 : List (Int × Nat)} {p : Int} {k : Nat} :
      Reach fuel heapsize minsize heap st (l1 ++ (p, k) :: l2) →
      mem_free st p = some st1 →
      Reach fuel heapsize minsize heap st1 (l1 ++ l2)

/-! ## Worked examples -/

/-- A region that holds only zero words before `mem_init`. -/
def heap0 : Nat → Nat := fun _ => 0

/-- The globals after `mem_init(2000, heap, 16)`: the example of the header
comment of `ht_malloc-pedantic.c`. -/
def ex2000 : State :=
  ⟨[⟨16, 0, 125, 0, 1⟩, ⟨32, 8, 62, 0, 0⟩, ⟨64, 12, 31, 0, 1⟩, ⟨128, 14, 15, 1, 2⟩,
    ⟨256, 15, 7, 0, 2⟩, ⟨512, 16, 3, 0, 2⟩, ⟨0, 0, 0, 0, 1⟩],
   [0, 0, 0, 0, 0, 0, 0, 0xe000, 0, 0, 0, 0xc000, 0, 0x8000, 0x8001, 0xff81, 0xfff9]⟩

/-- The globals after `mem_alloc(16)` in `ex2000`, which returns `heapstart + 1984`. -/
def ex2000_one : State :=
  ⟨[⟨16, 0, 125, 1, 0⟩, ⟨32, 8, 62, 0, 0⟩, ⟨64, 12, 31, 0, 1⟩, ⟨128, 14, 15, 1, 2⟩,
    ⟨256, 15, 7, 0, 2⟩, ⟨512, 16, 3, 0, 2⟩, ⟨0, 0, 0, 0, 1⟩],
   [0, 0, 0, 0, 0, 0, 0, 0xf000, 0, 0, 0, 0xc000, 0, 0x8000, 0x8001, 0xff81, 0xfff9]⟩

/-- The globals after a second `mem_alloc(16)`, which returns `heapstart + 1920`. -/
def ex2000_two : State :=
  ⟨[⟨16, 0, 125, 2, 1⟩, ⟨32, 8, 62, 0, 1⟩, ⟨64, 12, 31, 0, 0⟩, ⟨128, 14, 15, 1, 2⟩,
    ⟨256, 15, 7, 0, 2⟩, ⟨512, 16, 3, 0, 2⟩, ⟨0, 0, 0, 0, 1⟩],
   [0, 0, 0, 0, 0, 0, 0, 0xf100, 0, 0, 0, 0xd000, 0, 0xc000, 0x8001, 0xff81, 0xfff9]⟩

/-- The globals after `mem_init(100, heap, 2)`: no class is as large as the 78
bytes of bookkeeping, so no block is reserved. -/
def ex100 : State :=
  ⟨[⟨2, 0, 50, 0, 0⟩, ⟨4, 4, 25, 0, 1⟩, ⟨8, 6, 12, 0, 0⟩, ⟨16, 7, 6, 0, 0⟩,
    ⟨32, 8, 3, 0, 1⟩, ⟨0, 0, 0, 0, 1⟩],
   [0, 0, 0, 0xfffc, 0, 0xfe00, 0xf000, 0xffc0, 0xfff8]⟩

/-- The globals after `mem_alloc(32)` in `ex100`, which returns `heapstart + 64`. -/
def ex100_one : State :=
  ⟨[⟨2, 0, 50, 0, 0⟩, ⟨4, 4, 25, 0, 1⟩, ⟨8, 6, 12, 0, 0⟩, ⟨16, 7, 6, 0, 0⟩,
    ⟨32, 8, 3, 1, 0⟩, ⟨0, 0, 0, 0, 1⟩],
   [0, 0, 0, 0xfffc, 0, 0xfe00, 0xf000, 0xffc0, 0xfffc]⟩

/-! ## Notions used to state the behaviour of mem_free -/

/-- The bit that `mem_free(poi)` tests at class `c`: the sibling of the bit of
the block of class `c` that holds `poi`, as it is in `st`. -/
def sibling_bit (st : State) (poi : Int) (c : Nat) : Bool :=
  class_bit st c (sibling (block_number poi (size_at st c)))

/-- The coalescing walk of `mem_free(poi)` that starts at class `k` visits class
`c`: `c` is a class (not the sentinel) and the sibling bit was 0 at every class
from `k` up to `c - 1`. -/
def Visited (st : State) (poi : Int) (k c : Nat) : Prop :=
  c + 1 < st.pool.length ∧ Reached (sibling_bit st poi) k c

/-! ## A region that is not zeroed -/

/-- A region that holds the word 7 everywhere before `mem_init`, as a buffer
from `malloc` may. -/
def heap7 : Nat → Nat := fun _ => 7

/-! ## A corrupted state -/

/-- The state `ex2000_one` with `pool[0].fbcou` overwritten by 1: the counter
claims a free buddy of 16 bytes, the bitmap of the class has none. -/
def ex_corrupt : State :=
  ⟨[⟨16, 0, 125, 1, 1⟩, ⟨32, 8, 62, 0, 0⟩, ⟨64, 12, 31, 0, 1⟩, ⟨128, 14, 15, 1, 2⟩,
    ⟨256, 15, 7, 0, 2⟩, ⟨512, 16, 3, 0, 2⟩, ⟨0, 0, 0, 0, 1⟩],
   [0, 0, 0, 0, 0, 0, 0, 0xf000, 0, 0, 0, 0xc000, 0, 0x8000, 0x8001, 0xff81, 0xfff9]⟩

/-- The globals after `mem_alloc(16)` in `ex_corrupt`. -/
def ex_corrupt_one : State :=
  ⟨[⟨16, 0, 125, 2, 0⟩, ⟨32, 8, 62, 0, 0⟩, ⟨64, 12, 31, 0, 1⟩, ⟨128, 14, 15, 1, 2⟩,
    ⟨256, 15, 7, 0, 2⟩, ⟨512, 16, 3, 0, 2⟩, ⟨0, 0, 0, 0, 1⟩],
   [0, 0, 0, 0, 0, 0, 0, 0xf000, 0, 0, 0, 0xc000, 0, 0x8000, 0x8001, 0xff81, 0xfff9]⟩

end HtMalloc

namespace HtMalloc

/-! ## Bits of a 16 bit word -/

theorem sibling_lt_16 {i : Nat} (h : i < 16) : sibling i < 16 := by
  unfold sibling; split <;> omega

theorem sibling_sibling (i : Nat) : sibling (sibling i) = i := by
  unfold sibling; split <;> split <;> omega

theorem sibling_div_two (i : Nat) : sibling i / 2 = i / 2 := by
  unfold sibling; split <;> omega

theorem sibling_ne (i : Nat) : sibling i ≠ i := by
  unfold sibling; split <;> omega

theorem testBit_MASK55 {i : Nat} (h : i < 16) : MASK55.testBit i = decide (i % 2 = 0) := by
  unfold MASK55; interval_cases i <;> decide

theorem testBit_MASKaa {i : Nat} (h : i < 16) : MASKaa.testBit i = decide (i % 2 = 1) := by
  unfold MASKaa; interval_cases i <;> decide

theorem testBit_ge_16 {w i : Nat} (hw : w < 65536) (hi : 16 ≤ i) : w.testBit i = false := by
  apply Nat.testBit_lt_two_pow
  calc w < 2 ^ 16 := by norm_num; exact hw
    _ ≤ 2 ^ i := Nat.pow_le_pow_right (by norm_num) hi

theorem testBit_not16 {w : Nat} (hw : w < 65536) (i : Nat) :
    (UINT - 1 - w).testBit i = (decide (i < 16) && !w.testBit i) := by
  have h : UINT - 1 - w = 2 ^ 16 - (w + 1) := by unfold UINT; norm_num; omega
  rw [h]
  exact Nat.testBit_two_pow_sub_succ (by norm_num; exact hw) i

/-- The twin mask of `fl_find_buddy` and `freebinary`, before the store into a `uint`. -/
theorem twin_mask_testBit {w : Nat} (hw : w < 65536) {i : Nat} (hi : i < 16) :
    ((((w &&& MASK55) <<< 1) ||| ((w &&& MASKaa) >>> 1)) &&& (UINT - 1 - w)).testBit i
      = (!w.testBit i && w.testBit (sibling i)) := by
  rw [Nat.testBit_and, Nat.testBit_or, Nat.testBit_shiftLeft, Nat.testBit_shiftRight,
    Nat.testBit_and, Nat.testBit_and, testBit_not16 hw]
  by_cases hpar : i % 2 = 0
  · have hs : sibling i = i + 1 := by unfold sibling; simp [hpar]
    have h1 : (1 + i) % 2 = 1 := by omega
    by_cases hi1 : 1 + i < 16
    · rw [testBit_MASKaa hi1, hs]
      by_cases h0 : i = 0
      · subst h0; simp; exact Bool.and_comm _ _
      · have : MASK55.testBit (i - 1) = false := by
          rw [testBit_MASK55 (by omega)]; simp; omega
        have h1b : (i + 1) % 2 = 1 := by omega
        simp [this, h1, h1b, hi, Nat.add_comm]; exact Bool.and_comm _ _
    · omega
  · have hs : sibling i = i - 1 := by unfold sibling; simp [hpar]
    have h1 : (i - 1) % 2 = 0 := by omega
    have hge : i ≥ 1 := by omega
    rw [testBit_MASK55 (by omega : i - 1 < 16), hs]
    by_cases hi1 : 1 + i < 16
    · rw [testBit_MASKaa hi1]
      have : ¬ ((1 + i) % 2 = 1) := by omega
      simp [this, h1, hi, hge]; exact Bool.and_comm _ _
    · have : w.testBit (1 + i) = false := testBit_ge_16 hw (by omega)
      simp [this, h1, hi, hge]; exact Bool.and_comm _ _

theorem twin_mask_lt {w : Nat} (hw : w < 65536) :
    ((((w &&& MASK55) <<< 1) ||| ((w &&& MASKaa) >>> 1)) &&& (UINT - 1 - w)) < 65536 := by
  have : UINT - 1 - w < 2 ^ 16 := by unfold UINT; norm_num; omega
  have := Nat.and_lt_two_pow (((w &&& MASK55) <<< 1) ||| ((w &&& MASKaa) >>> 1)) this
  norm_num at this; exact this

theorem set_bit_testBit (w b i : Nat) :
    (w ||| (1 <<< b)).testBit i = (w.testBit i || decide (b = i)) := by
  rw [Nat.testBit_or, Nat.one_shiftLeft, Nat.testBit_two_pow]

theorem set_bit_lt {w b : Nat} (hw : w < 65536) (hb : b < 16) : (w ||| (1 <<< b)) < 65536 := by
  have h1 : (1 <<< b) < 2 ^ 16 := by
    rw [Nat.one_shiftLeft]; exact Nat.pow_lt_pow_right (by norm_num) hb
  have := Nat.or_lt_two_pow (by norm_num; exact hw : w < 2 ^ 16) h1
  norm_num at this; exact this

theorem clear_bit_testBit {w b : Nat} (hw : w < 65536) (hb : b < 16) (i : Nat) :
    (w &&& (UINT - 1 - (1 <<< b))).testBit i = (w.testBit i && !decide (b = i)) := by
  have h1 : (1 <<< b) < 65536 := by
    rw [Nat.one_shiftLeft]
    calc 2 ^ b < 2 ^ 16 := Nat.pow_lt_pow_right (by norm_num) hb
      _ = 65536 := by norm_num
  rw [Nat.testBit_and, testBit_not16 h1, Nat.one_shiftLeft, Nat.testBit_two_pow]
  by_cases hi : i < 16
  · simp [hi]
  · have : w.testBit i = false := testBit_ge_16 hw (by omega)
    simp [this]

theorem clear_bit_lt {w : Nat} (hw : w < 65536) (x : Nat) : (w &&& x) < 65536 :=
  Nat.lt_of_le_of_lt Nat.and_le_left hw

theorem and_bit_ne_zero (w b : Nat) : (w &&& (1 <<< b)) ≠ 0 ↔ w.testBit b = true := by
  constructor
  · intro h
    obtain ⟨i, hi⟩ := Nat.ne_zero_implies_bit_true h
    rw [Nat.testBit_and, Nat.one_shiftLeft, Nat.testBit_two_pow] at hi
    simp at hi
    obtain ⟨h1, h2⟩ := hi
    subst h2; exact h1
  · intro h h0
    have : (w &&& (1 <<< b)).testBit b = true := by
      rw [Nat.testBit_and, Nat.one_shiftLeft, Nat.testBit_two_pow]; simp [h]
    rw [h0] at this; simp at this

theorem and_bit_lt {w : Nat} (hw : w < 65536) (x : Nat) : (w &&& x) % UINT = w &&& x :=
  Nat.mod_eq_of_lt (clear_bit_lt hw x)

theorem exists_isLowest {mask : Nat} (h : mask ≠ 0) : ∃ p, IsLowest mask p := by
  classical
  have hex := Nat.ne_zero_implies_bit_true h
  refine ⟨Nat.find hex, Nat.find_spec hex, ?_⟩
  intro q hq
  have := Nat.find_min hex hq
  simpa using this

theorem isLowest_lt_16 {mask p : Nat} (hm : mask < 65536) (h : IsLowest mask p) : p < 16 := by
  by_contra hp
  have := testBit_ge_16 hm (by omega : 16 ≤ p)
  rw [h.1] at this; simp at this

theorem low_bits_zero_iff (mask i : Nat) :
    ((1 <<< i) - 1) &&& mask = 0 ↔ ∀ q, q < i → mask.testBit q = false := by
  rw [Nat.one_shiftLeft, Nat.and_comm, Nat.and_pow_two_sub_one_eq_mod]
  constructor
  · intro h q hq
    have := Nat.testBit_mod_two_pow mask i q
    rw [h] at this; simp [hq] at this; exact this
  · intro h
    apply Nat.eq_of_testBit_eq
    intro q
    rw [Nat.testBit_mod_two_pow]
    by_cases hq : q < i
    · simp [hq, h q hq]
    · simp [hq]

/-- One pass of the binary search for the lowest set bit. -/
theorem first_bit_step {mask p : Nat} (i : Nat) (h : IsLowest mask p) :
    (((1 <<< i) - 1) &&& mask = 0 → i ≤ p ∧ IsLowest (mask >>> i) (p - i)) ∧
    (((1 <<< i) - 1) &&& mask ≠ 0 → p < i) := by
  constructor
  · intro h0
    rw [low_bits_zero_iff] at h0
    have hip : i ≤ p := by
      by_contra hlt
      have := h0 p (by omega)
      rw [h.1] at this; simp at this
    refine ⟨hip, ?_, ?_⟩
    · rw [Nat.testBit_shiftRight]
      have : i + (p - i) = p := by omega
      rw [this]; exact h.1
    · intro q hq
      rw [Nat.testBit_shiftRight]
      exact h.2 _ (by omega)
  · intro h0
    by_contra hlt
    apply h0
    rw [low_bits_zero_iff]
    intro q hq
    exact h.2 q (by omega)

/-- The search of `fl_find_buddy` returns the 1-indexed position of the lowest
set bit of a nonzero 16 bit mask. -/
theorem first_bit_loop_spec {mask p : Nat} (hm : mask < 65536) (h : IsLowest mask p) :
    first_bit_loop (DATAWIDTH_EXPONENT + 1) (DATAWIDTH >>> 1) 1 mask = p + 1 := by
  have hp := isLowest_lt_16 hm h
  have e8 : DATAWIDTH >>> 1 = 8 := by decide
  have e4 : 8 >>> 1 = 4 := by decide
  have e2 : 4 >>> 1 = 2 := by decide
  have e1 : 2 >>> 1 = 1 := by decide
  have e0 : 1 >>> 1 = 0 := by decide
  have key : ∀ (i : Nat) (b m q : Nat), IsLowest m q → q < 2 * i → b + 2 * i < 65536 →
      (if ((1 <<< i) - 1) &&& m = 0 then
        (∃ q1, IsLowest (m >>> i) q1 ∧ q1 < i ∧ (b + i) % UINT + q1 = b + q)
       else (IsLowest m q ∧ q < i)) := by
    intro i b m q hl hq hb
    have hs := first_bit_step i hl
    split
    · rename_i h0
      obtain ⟨h1, h2⟩ := hs.1 h0
      refine ⟨q - i, h2, by omega, ?_⟩
      rw [Nat.mod_eq_of_lt (by unfold UINT; omega)]; omega
    · rename_i h0
      exact ⟨hl, hs.2 h0⟩
  have fin : ∀ (b m q : Nat), IsLowest m q → q < 1 →
      first_bit_loop 1 0 b m = b + q := by
    intro b m q _ hq
    simp [first_bit_loop]; omega
  have s1 : ∀ (b m q : Nat), IsLowest m q → q < 2 → b + 2 < 65536 →
      first_bit_loop 2 1 b m = b + q := by
    intro b m q hl hq hb
    have k := key 1 b m q hl (by omega) (by omega)
    rw [first_bit_loop]
    simp only [e0, ne_eq, one_ne_zero, not_false_eq_true, if_true]
    split
    · rename_i h0
      rw [if_pos h0] at k
      obtain ⟨q1, hl1, hq1, he⟩ := k
      rw [fin _ _ _ hl1 hq1]; exact he
    · rename_i h0
      rw [if_neg h0] at k
      rw [fin _ _ _ k.1 k.2]
  have s2 : ∀ (b m q : Nat), IsLowest m q → q < 4 → b + 4 < 65536 →
      first_bit_loop 3 2 b m = b + q := by
    intro b m q hl hq hb
    have k := key 2 b m q hl (by omega) (by omega)
    rw [first_bit_loop]
    simp only [e1, ne_eq, OfNat.ofNat_ne_zero, not_false_eq_true, if_true]
    split
    · rename_i h0
      rw [if_pos h0] at k
      obtain ⟨q1, hl1, hq1, he⟩ := k
      have hb2 : (b + 2) % UINT = b + 2 := Nat.mod_eq_of_lt (by unfold UINT; omega)
      rw [s1 _ _ _ hl1 hq1 (by rw [hb2]; omega)]; exact he
    · rename_i h0
      rw [if_neg h0] at k
      rw [s1 _ _ _ k.1 k.2 (by omega)]
  have s4 : ∀ (b m q : Nat), IsLowest m q → q < 8 → b + 8 < 65536 →
      first_bit_loop 4 4 b m = b + q := by
    intro b m q hl hq hb
    have k := key 4 b m q hl (by omega) (by omega)
    rw [first_bit_loop]
    simp only [e2, ne_eq, OfNat.ofNat_ne_zero, not_false_eq_true, if_true]
    split
    · rename_i h0
      rw [if_pos h0] at k
      obtain ⟨q1, hl1, hq1, he⟩ := k
      have hb2 : (b + 4) % UINT = b + 4 := Nat.mod_eq_of_lt (by unfold UINT; omega)
      rw [s2 _ _ _ hl1 hq1 (by rw [hb2]; omega)]; exact he
    · rename_i h0
      rw [if_neg h0] at k
      rw [s2 _ _ _ k.1 k.2 (by omega)]
  have k := key 8 1 mask p h (by omega) (by omega)
  show first_bit_loop 5 (DATAWIDTH >>> 1) 1 mask = p + 1
  rw [e8, first_bit_loop]
  simp only [e4, ne_eq, OfNat.ofNat_ne_zero, not_false_eq_true, if_true]
  split
  · rename_i h0
    rw [if_pos h0] at k
    obtain ⟨q1, hl1, hq1, he⟩ := k
    have hb2 : (1 + 8) % UINT = 1 + 8 := Nat.mod_eq_of_lt (by unfold UINT; omega)
    rw [s4 _ _ _ hl1 hq1 (by rw [hb2]; omega)]; omega
  · rename_i h0
    rw [if_neg h0] at k
    rw [s4 _ _ _ k.1 k.2 (by omega)]; omega

end HtMalloc

namespace HtMalloc

/-! ## The bitmap primitives -/

theorem mem_bit_set {mem : List Nat} {idx : Nat} (h : idx < mem.length) (v g : Nat) :
    mem_bit (mem.set idx v) g = if g / 16 = idx then v.testBit (g % 16) else mem_bit mem g := by
  unfold mem_bit
  rw [List.getD_eq_getElem?_getD, List.getD_eq_getElem?_getD, List.getElem?_set]
  by_cases hg : g / 16 = idx
  · subst hg; simp [h]
  · have : ¬ idx = g / 16 := fun e => hg e.symm
    simp [hg, this]

theorem mem_bit_word {mem : List Nat} {idx w : Nat} (h : mem[idx]? = some w) (b : Nat)
    (hb : b < 16) : mem_bit mem (16 * idx + b) = w.testBit b := by
  unfold mem_bit
  have h1 : (16 * idx + b) / 16 = idx := by omega
  have h2 : (16 * idx + b) % 16 = b := by omega
  rw [h1, h2, List.getD_eq_getElem?_getD, h]; rfl

theorem WordsOK_set {mem : List Nat} (h : WordsOK mem) (idx : Nat) {v : Nat} (hv : v < UINT) :
    WordsOK (mem.set idx v) := by
  intro w hw
  rcases List.mem_or_eq_of_mem_set hw with h1 | h1
  · exact h w h1
  · rw [h1]; exact hv

theorem WordsOK_get {mem : List Nat} (h : WordsOK mem) {idx w : Nat} (hw : mem[idx]? = some w) :
    w < 65536 := by
  have := List.getElem?_eq_some.1 hw
  obtain ⟨hl, he⟩ := this
  have := h w (by rw [← he]; exact List.getElem_mem hl)
  exact this

theorem get_of_lt {mem : List Nat} {idx : Nat} (h : idx < mem.length) :
    ∃ w, mem[idx]? = some w := ⟨mem[idx], List.getElem?_eq_getElem h⟩

/-- Setting bit `b` of word `idx`. -/
theorem isSet_of_word {mem : List Nat} (hok : WordsOK mem) {idx w b : Nat}
    (hw : mem[idx]? = some w) (hb : b < 16) :
    IsSet mem (mem.set idx ((w ||| (1 <<< b)) % UINT)) (16 * idx + b) := by
  have hlt := WordsOK_get hok hw
  have hidx : idx < mem.length := (List.getElem?_eq_some.1 hw).1
  have hv : (w ||| (1 <<< b)) % UINT = w ||| (1 <<< b) :=
    Nat.mod_eq_of_lt (set_bit_lt hlt hb)
  refine ⟨by simp, WordsOK_set hok _ (by rw [hv]; exact set_bit_lt hlt hb), ?_⟩
  intro x
  rw [mem_bit_set hidx, hv]
  by_cases hx : x / 16 = idx
  · rw [if_pos hx, set_bit_testBit]
    have : mem_bit mem x = w.testBit (x % 16) := by
      have := mem_bit_word hw (x % 16) (Nat.mod_lt _ (by norm_num))
      rw [← this]; congr 1; omega
    rw [this]
    congr 1
    apply decide_eq_decide.2
    constructor <;> intro h <;> omega
  · rw [if_neg hx]
    have : ¬ x = 16 * idx + b := by omega
    simp [this]

/-- Clearing bit `b` of word `idx`. -/
theorem isClear_of_word {mem : List Nat} (hok : WordsOK mem) {idx w b : Nat}
    (hw : mem[idx]? = some w) (hb : b < 16) :
    IsClear mem (mem.set idx ((w &&& (UINT - 1 - (1 <<< b))) % UINT)) (16 * idx + b) := by
  have hlt := WordsOK_get hok hw
  have hidx : idx < mem.length := (List.getElem?_eq_some.1 hw).1
  have hv : (w &&& (UINT - 1 - (1 <<< b))) % UINT = w &&& (UINT - 1 - (1 <<< b)) :=
    and_bit_lt hlt _
  refine ⟨by simp, WordsOK_set hok _ (by rw [hv]; exact clear_bit_lt hlt _), ?_⟩
  intro x
  rw [mem_bit_set hidx, hv]
  by_cases hx : x / 16 = idx
  · rw [if_pos hx, clear_bit_testBit hlt hb]
    have : mem_bit mem x = w.testBit (x % 16) := by
      have := mem_bit_word hw (x % 16) (Nat.mod_lt _ (by norm_num))
      rw [← this]; congr 1; omega
    rw [this]
    congr 2
    apply decide_eq_decide.2
    constructor <;> intro h <;> omega
  · rw [if_neg hx]
    have : ¬ x = 16 * idx + b := by omega
    simp [this]

theorem fl_bit_set_spec {mem : List Nat} (hok : WordsOK mem) {fl bitnr : Nat}
    (h1 : bitnr % 16 ≠ 0) (hlen : fl + bitnr / 16 < mem.length) :
    ∃ mem1, fl_bit_set mem fl bitnr = some mem1 ∧ IsSet mem mem1 (16 * fl + (bitnr - 1)) := by
  obtain ⟨w, hw⟩ := get_of_lt hlen
  have hne : bitnr ≠ 0 := by intro h; rw [h] at h1; simp at h1
  have hsh : bitnr >>> DATAWIDTH_EXPONENT = bitnr / 16 := by
    rw [Nat.shiftRight_eq_div_pow]; rfl
  refine ⟨mem.set (fl + bitnr / 16) ((w ||| (1 <<< ((bitnr - 1) % 16))) % UINT), ?_, ?_⟩
  · unfold fl_bit_set
    simp only [hsh, hne, if_false, hw, DATAWIDTH]
  · have := isSet_of_word hok hw (Nat.mod_lt (bitnr - 1) (by norm_num : 0 < 16))
    have e : 16 * (fl + bitnr / 16) + (bitnr - 1) % 16 = 16 * fl + (bitnr - 1) := by omega
    rw [e] at this; exact this

theorem fl_bit_state_spec {mem : List Nat} (hok : WordsOK mem) {fl bitnr : Nat}
    (hlen : fl + bitnr / 16 < mem.length) :
    ∃ r, fl_bit_state mem fl bitnr = some r ∧ (r ≠ 0 ↔ class_bits mem fl bitnr = true) := by
  obtain ⟨w, hw⟩ := get_of_lt hlen
  have hsh : bitnr >>> DATAWIDTH_EXPONENT = bitnr / 16 := by
    rw [Nat.shiftRight_eq_div_pow]; rfl
  refine ⟨(w &&& (1 <<< (bitnr % 16))) % UINT, ?_, ?_⟩
  · unfold fl_bit_state
    simp only [hsh, hw, DATAWIDTH]
  · rw [and_bit_lt (WordsOK_get hok hw), and_bit_ne_zero]
    have := mem_bit_word hw (bitnr % 16) (Nat.mod_lt _ (by norm_num))
    have e : 16 * (fl + bitnr / 16) + bitnr % 16 = 16 * fl + bitnr := by omega
    rw [e] at this
    unfold class_bits
    rw [this]

theorem sibling_mod_16 (n : Nat) : sibling n % 16 = sibling (n % 16) := by
  unfold sibling; split <;> split <;> omega

theorem sibling_div_16 (n : Nat) : sibling n / 16 = n / 16 := by
  unfold sibling; split <;> omega

theorem fl_free_buddy_spec {mem : List Nat} (hok : WordsOK mem) {fl bitnr : Nat}
    (hlen : fl + bitnr / 16 < mem.length) :
    ∃ mem1 r, fl_free_buddy mem fl bitnr = some (mem1, r) ∧ IsClear mem mem1 (16 * fl + bitnr) ∧
      (r ≠ 0 ↔ class_bits mem fl (sibling bitnr) = true) := by
  obtain ⟨w, hw⟩ := get_of_lt hlen
  have hlt := WordsOK_get hok hw
  have hsh : bitnr >>> DATAWIDTH_EXPONENT = bitnr / 16 := by
    rw [Nat.shiftRight_eq_div_pow]; rfl
  have hb : bitnr % 16 < 16 := Nat.mod_lt _ (by norm_num)
  have e1 : (bitnr % 16 + 1) % UINT = bitnr % 16 + 1 := Nat.mod_eq_of_lt (by unfold UINT; omega)
  have e2 : (if (bitnr % 16 + 1) % 2 ≠ 0 then (bitnr % 16 + 1 + 1) % UINT
      else (bitnr % 16 + 1 + (UINT - 1)) % UINT) - 1 = sibling (bitnr % 16) := by
    unfold sibling UINT
    split <;> split <;> omega
  have hs16 := sibling_lt_16 hb
  refine ⟨mem.set (fl + bitnr / 16) ((w &&& (UINT - 1 - (1 <<< (bitnr % 16)))) % UINT),
    ((w &&& (UINT - 1 - (1 <<< (bitnr % 16)))) % UINT &&& (1 <<< sibling (bitnr % 16))) % UINT,
    ?_, ?_, ?_⟩
  · unfold fl_free_buddy
    simp only [hsh, hw, DATAWIDTH, e1, e2, Nat.add_sub_cancel]
  · have := isClear_of_word hok hw hb
    have e : 16 * (fl + bitnr / 16) + bitnr % 16 = 16 * fl + bitnr := by omega
    rw [e] at this; exact this
  · rw [and_bit_lt hlt, and_bit_lt (clear_bit_lt hlt _), and_bit_ne_zero,
      clear_bit_testBit hlt hb]
    have := mem_bit_word hw (sibling (bitnr % 16)) hs16
    have e : 16 * (fl + bitnr / 16) + sibling (bitnr % 16) = 16 * fl + sibling bitnr := by
      have := sibling_mod_16 bitnr
      have := sibling_div_16 bitnr
      omega
    rw [e] at this
    unfold class_bits
    rw [this]
    have hne : ¬ bitnr % 16 = sibling (bitnr % 16) := fun h => sibling_ne _ h.symm
    simp [hne]

end HtMalloc

namespace HtMalloc

/-! ## The within-class search -/

theorem sibling_add_16 (c b : Nat) : sibling (16 * c + b) = 16 * c + sibling b := by
  unfold sibling; split <;> split <;> omega

theorem class_bits_word {mem : List Nat} {fl c w : Nat} (hw : mem[fl + c]? = some w) {b : Nat}
    (hb : b < 16) : class_bits mem fl (16 * c + b) = w.testBit b := by
  unfold class_bits
  have := mem_bit_word hw b hb
  have e : 16 * (fl + c) + b = 16 * fl + (16 * c + b) := by omega
  rw [e] at this; exact this

theorem free_buddy_word {mem : List Nat} (hok : WordsOK mem) {fl c w : Nat}
    (hw : mem[fl + c]? = some w) {b : Nat} (hb : b < 16) :
    is_free_buddy (class_bits mem fl) (16 * c + b) =
      ((((w &&& MASK55) <<< 1) ||| ((w &&& MASKaa) >>> 1)) &&& (UINT - 1 - w)).testBit b := by
  unfold is_free_buddy
  rw [twin_mask_testBit (WordsOK_get hok hw) hb, sibling_add_16, class_bits_word hw hb,
    class_bits_word hw (sibling_lt_16 hb)]

theorem fl_find_buddy_loop_spec {mem : List Nat} (hok : WordsOK mem) (fl : Nat) :
    ∀ cnt, fl + cnt ≤ mem.length →
      ∃ mem1 r, fl_find_buddy_loop mem fl cnt = some (mem1, r) ∧ FoundBuddy mem fl cnt mem1 r := by
  intro cnt
  induction cnt with
  | zero =>
    intro _
    refine ⟨mem, 0, rfl, Or.inl ⟨rfl, rfl, ?_⟩⟩
    intro i hi; omega
  | succ cnt ih =>
    intro hlen
    obtain ⟨w, hw⟩ := get_of_lt (by omega : fl + cnt < mem.length)
    have hlt := WordsOK_get hok hw
    have hmask : ((((w &&& MASK55) <<< 1) ||| ((w &&& MASKaa) >>> 1)) &&& (UINT - 1 - w)) % UINT
        = ((((w &&& MASK55) <<< 1) ||| ((w &&& MASKaa) >>> 1)) &&& (UINT - 1 - w)) :=
      Nat.mod_eq_of_lt (twin_mask_lt hlt)
    by_cases hm : ((((w &&& MASK55) <<< 1) ||| ((w &&& MASKaa) >>> 1)) &&& (UINT - 1 - w)) = 0
    · obtain ⟨mem1, r, hr, hf⟩ := ih (by omega)
      refine ⟨mem1, r, ?_, ?_⟩
      · rw [fl_find_buddy_loop]
        simp only [hw, hmask, hm, ne_eq, not_true_eq_false, if_false]
        exact hr
      · have hword : ∀ j, j / 16 = cnt → is_free_buddy (class_bits mem fl) j = false := by
          intro j hj
          have e : j = 16 * cnt + j % 16 := by omega
          rw [e, free_buddy_word hok hw (Nat.mod_lt _ (by norm_num)), hm]; simp
        rcases hf with ⟨h0, h1, h2⟩ | ⟨i, hi, hri, hfb, hset, hhi, hlo⟩
        · refine Or.inl ⟨h0, h1, ?_⟩
          intro i hi
          by_cases hc : i < 16 * cnt
          · exact h2 i hc
          · exact hword i (by omega)
        · refine Or.inr ⟨i, by omega, hri, hfb, hset, ?_, hlo⟩
          intro j hj hij
          by_cases hc : j < 16 * cnt
          · exact hhi j hc hij
          · exact hword j (by omega)
    · obtain ⟨p, hp⟩ := exists_isLowest hm
      have hp16 := isLowest_lt_16 (twin_mask_lt hlt) hp
      have hfirst := first_bit_loop_spec (twin_mask_lt hlt) hp
      refine ⟨mem.set (fl + cnt) ((w ||| (1 <<< p)) % UINT), p + 1 + cnt * DATAWIDTH, ?_, ?_⟩
      · rw [fl_find_buddy_loop]
        simp only [hw, hmask, hm, ne_eq, not_false_eq_true, if_true, hfirst, Nat.add_sub_cancel]
      · refine Or.inr ⟨16 * cnt + p, by omega, by unfold DATAWIDTH; omega, ?_, ?_, ?_, ?_⟩
        · rw [free_buddy_word hok hw hp16]; exact hp.1
        · have := isSet_of_word hok hw hp16
          have e : 16 * (fl + cnt) + p = 16 * fl + (16 * cnt + p) := by omega
          rw [e] at this; exact this
        · intro j hj hij; omega
        · intro j hj hji
          have e : j = 16 * cnt + j % 16 := by omega
          rw [e, free_buddy_word hok hw (Nat.mod_lt _ (by norm_num))]
          exact hp.2 _ (by omega)

theorem words_for_pos {a : Nat} (h : 0 < a) : 0 < words_for a := by
  unfold words_for DATAWIDTH; split <;> omega

theorem words_for_le (a : Nat) : a ≤ 16 * words_for a := by
  unfold words_for DATAWIDTH; split <;> omega

theorem words_for_lt (a : Nat) : 16 * words_for a < a + 16 := by
  unfold words_for DATAWIDTH; split <;> omega

theorem fl_find_buddy_spec {mem : List Nat} (hok : WordsOK mem) {fl avail : Nat}
    (ha : 0 < avail) (ha2 : avail < 65536) (hlen : fl + words_for avail ≤ mem.length) :
    ∃ mem1 r, fl_find_buddy mem fl avail = some (mem1, r) ∧
      FoundBuddy mem fl (words_for avail) mem1 r := by
  have h1 := words_for_pos ha
  have h2 := words_for_lt avail
  have e : ((if avail % DATAWIDTH ≠ 0 then (avail / DATAWIDTH + 1) % UINT else avail / DATAWIDTH)
      + (UINT - 1)) % UINT + 1 = words_for avail := by
    unfold words_for at *
    unfold DATAWIDTH UINT at *
    split <;> omega
  unfold fl_find_buddy
  simp only [e]
  exact fl_find_buddy_loop_spec hok fl _ hlen

end HtMalloc

namespace HtMalloc

/-! ## Size classes -/

theorem class_avail_succ (R m k : Nat) : class_avail R m (k + 1) = class_avail R m k / 2 := by
  unfold class_avail
  rw [Nat.pow_succ, ← Nat.mul_assoc, Nat.div_div_eq_div_mul]

theorem class_avail_add (R m k d : Nat) :
    class_avail R m (k + d) = class_avail R m k / 2 ^ d := by
  unfold class_avail
  rw [Nat.pow_add, ← Nat.mul_assoc, Nat.div_div_eq_div_mul]

theorem class_size_pos {m : Nat} (hm : 0 < m) (k : Nat) : 0 < class_size m k :=
  Nat.mul_pos hm (Nat.two_pow_pos _)

theorem class_size_succ (m k : Nat) : class_size m (k + 1) = 2 * class_size m k := by
  unfold class_size; rw [Nat.pow_succ]; ring

theorem class_size_add (m k d : Nat) : class_size m (k + d) = class_size m k * 2 ^ d := by
  unfold class_size; rw [Nat.pow_add]; ring

theorem class_size_mono (m : Nat) {k j : Nat} (h : k ≤ j) : class_size m k ≤ class_size m j := by
  unfold class_size
  exact Nat.mul_le_mul_left _ (Nat.pow_le_pow_right (by norm_num) h)

theorem class_size_strict {m : Nat} (hm : 0 < m) {k j : Nat} (h : k < j) :
    class_size m k < class_size m j := by
  unfold class_size
  exact Nat.mul_lt_mul_of_pos_left (Nat.pow_lt_pow_right (by norm_num) h) hm

theorem class_offset_succ (R m k : Nat) :
    class_offset R m (k + 1) = class_offset R m k + words_for (class_avail R m k) := rfl

namespace Geom

variable {R m K : Nat}

theorem m_pos (g : Geom R m K) : 0 < m := by have := g.m_ge; omega

theorem avail_ge_two (g : Geom R m K) {k : Nat} (hk : k < K) : 2 ≤ class_avail R m k := by
  unfold class_avail
  have h := g.fits k hk
  have hp : 0 < m * 2 ^ k := Nat.mul_pos g.m_pos (Nat.two_pow_pos _)
  rw [Nat.le_div_iff_mul_le hp]
  exact h

theorem avail_lt (g : Geom R m K) (k : Nat) : class_avail R m k < 32768 := by
  unfold class_avail
  have h1 : 2 ≤ m * 2 ^ k := Nat.le_trans g.m_ge (Nat.le_mul_of_pos_right _ (Nat.two_pow_pos _))
  have h2 : R / (m * 2 ^ k) ≤ R / 2 := Nat.div_le_div_left h1 (by norm_num)
  have := g.R_lt
  omega

theorem size_le (g : Geom R m K) {k : Nat} (hk : k < K) : 2 * class_size m k ≤ R := g.fits k hk

theorem size_lt (g : Geom R m K) {k : Nat} (hk : k < K) : class_size m k < 65536 := by
  have := g.size_le hk
  have := g.R_lt
  omega

theorem size_pos (g : Geom R m K) (k : Nat) : 0 < class_size m k := class_size_pos g.m_pos k

theorem K_le (g : Geom R m K) : K ≤ 14 := by
  by_contra h
  have h1 := g.fits 14 (by omega)
  have h2 := g.R_lt
  have h3 := g.m_ge
  have : 2 * 2 ^ 14 ≤ m * 2 ^ 14 := Nat.mul_le_mul_right _ h3
  norm_num at this h1
  omega

theorem words_pos (g : Geom R m K) {k : Nat} (hk : k < K) :
    0 < words_for (class_avail R m k) :=
  words_for_pos (by have := g.avail_ge_two hk; omega)

theorem offset_add_avail (_g : Geom R m K) (k : Nat) :
    class_offset R m k + class_avail R m k ≤ class_avail R m 0 + k := by
  induction k with
  | zero => simp [class_offset]
  | succ k ih =>
    rw [class_offset_succ, class_avail_succ]
    have := words_for_lt (class_avail R m k)
    omega

theorem offset_lt (g : Geom R m K) {k : Nat} (hk : k ≤ K) : class_offset R m k < 32800 := by
  have h1 := g.offset_add_avail k
  have h2 := g.K_le
  have h3 := g.avail_lt 0
  omega

theorem offset_words_lt (g : Geom R m K) {k : Nat} (hk : k ≤ K) :
    class_offset R m k + words_for (class_avail R m k) < 32800 := by
  have h1 := g.offset_add_avail (k + 1)
  rw [class_offset_succ] at h1
  have h2 := g.K_le
  have h3 := g.avail_lt 0
  omega

theorem offset_tight (_g : Geom R m K) (k : Nat) :
    16 * class_offset R m k + 2 * class_avail R m k ≤ 2 * class_avail R m 0 + 16 * k := by
  induction k with
  | zero => simp [class_offset]
  | succ k ih =>
    rw [class_offset_succ, class_avail_succ]
    have := words_for_lt (class_avail R m k)
    omega

theorem offset_le_small (g : Geom R m K) {k : Nat} (hk : k ≤ K + 1) :
    class_offset R m k ≤ 4200 := by
  have h1 := g.offset_tight k
  have h2 := g.K_le
  have h3 := g.avail_lt 0
  omega

theorem offset_mono (_g : Geom R m K) {k j : Nat} (h : k ≤ j) :
    class_offset R m k ≤ class_offset R m j := by
  induction j with
  | zero =>
    have : k = 0 := by omega
    subst this; exact Nat.le_refl _
  | succ j ih =>
    by_cases hk : k = j + 1
    · subst hk; exact Nat.le_refl _
    · have := ih (by omega)
      rw [class_offset_succ]; omega

theorem offset_succ_le (g : Geom R m K) {k j : Nat} (h : k < j) :
    class_offset R m k + words_for (class_avail R m k) ≤ class_offset R m j := by
  have := g.offset_mono (Nat.succ_le_of_lt h)
  rw [class_offset_succ] at this
  exact this

end Geom

end HtMalloc

namespace HtMalloc

/-! ## The descriptor table -/

section pool
variable (R m : Nat) (al fb : Nat → Nat)

theorem pool_from_length (n i : Nat) : (pool_from R m al fb n i).length = n + 1 := by
  induction n generalizing i with
  | zero => rfl
  | succ n ih => simp [pool_from, ih]

theorem pool_from_get {n t : Nat} (h : t < n) (i : Nat) :
    (pool_from R m al fb n i)[t]? = some (class_desc R m al fb (i + t)) := by
  induction n generalizing i t with
  | zero => omega
  | succ n ih =>
    cases t with
    | zero => simp [pool_from]
    | succ t =>
      simp only [pool_from, List.getElem?_cons_succ]
      rw [ih (by omega)]
      congr 2; omega

theorem pool_from_get_last (n i : Nat) : (pool_from R m al fb n i)[n]? = some sentinel := by
  induction n generalizing i with
  | zero => rfl
  | succ n ih => simp only [pool_from, List.getElem?_cons_succ]; exact ih _

theorem pool_from_drop {n t : Nat} (h : t ≤ n) (i : Nat) :
    (pool_from R m al fb n i).drop t = pool_from R m al fb (n - t) (i + t) := by
  induction t generalizing n i with
  | zero => rfl
  | succ t ih =>
    cases n with
    | zero => omega
    | succ n =>
      simp only [pool_from, List.drop_succ_cons]
      rw [ih (by omega)]
      congr 1 <;> omega

theorem pool_from_congr {al1 fb1 : Nat → Nat} (n i : Nat)
    (hal : ∀ k, i ≤ k → k < i + n → al k = al1 k)
    (hfb : ∀ k, i ≤ k → k < i + n → fb k = fb1 k) :
    pool_from R m al fb n i = pool_from R m al1 fb1 n i := by
  induction n generalizing i with
  | zero => rfl
  | succ n ih =>
    simp only [pool_from]
    rw [ih (i + 1) (fun k h1 h2 => hal k (by omega) (by omega))
      (fun k h1 h2 => hfb k (by omega) (by omega))]
    unfold class_desc
    rw [hal i (by omega) (by omega), hfb i (by omega) (by omega)]

theorem pool_from_set {n t : Nat} (h : t < n) (i a f : Nat) :
    (pool_from R m al fb n i).set t
        ⟨class_size m (i + t), class_offset R m (i + t), class_avail R m (i + t), a, f⟩
      = pool_from R m (Function.update al (i + t) a) (Function.update fb (i + t) f) n i := by
  induction n generalizing i t with
  | zero => omega
  | succ n ih =>
    cases t with
    | zero =>
      simp only [pool_from, List.set_cons_zero, Nat.add_zero]
      congr 1
      · unfold class_desc; simp
      · apply pool_from_congr
        · intro k h1 h2
          rw [Function.update_noteq (by omega)]
        · intro k h1 h2
          rw [Function.update_noteq (by omega)]
    | succ t =>
      simp only [pool_from, List.set_cons_succ]
      have e : i + (t + 1) = i + 1 + t := by omega
      rw [e, ih (by omega)]
      congr 1
      unfold class_desc
      rw [Function.update_noteq (by omega), Function.update_noteq (by omega)]

theorem pool_from_take_congr {fb1 : Nat → Nat} {n t : Nat} (i : Nat)
    (hfb : ∀ k, i ≤ k → k < i + t → fb k = fb1 k) :
    (pool_from R m al fb n i).take t = (pool_from R m al fb1 n i).take t := by
  induction t generalizing n i with
  | zero => rfl
  | succ t ih =>
    cases n with
    | zero =>
      simp [pool_from]
    | succ n =>
      simp only [pool_from, List.take_succ_cons]
      rw [ih (i + 1) (fun k h1 h2 => hfb k (by omega) (by omega))]
      unfold class_desc
      rw [hfb i (by omega) (by omega)]

theorem pool_from_take_append {fb1 : Nat → Nat} {n t : Nat} (h : t ≤ n)
    (hfb : ∀ k, k < t → fb k = fb1 k) :
    (pool_from R m al fb n 0).take t ++ pool_from R m al fb1 (n - t) t
      = pool_from R m al fb1 n 0 := by
  rw [pool_from_take_congr R m al fb 0 (fun k _ h2 => hfb k (by omega))]
  have := pool_from_drop R m al fb1 h 0
  rw [Nat.zero_add] at this
  rw [← this]
  exact List.take_append_drop _ _

end pool

/-! ## The two scans of `mem_alloc` -/

theorem size_match_loop_spec (R m : Nat) (hm : 0 < m) (al fb : Nat → Nat) (size : Nat) (n i : Nat) :
    ∃ k, size_match_loop (pool_from R m al fb n i) size i = some k ∧ i ≤ k ∧ k ≤ i + n ∧
      (k < i + n → size ≤ class_size m k) ∧ (∀ j, i ≤ j → j < k → class_size m j < size) := by
  induction n generalizing i with
  | zero =>
    refine ⟨i, ?_, by omega, by omega, by omega, by intro j h1 h2; omega⟩
    simp [pool_from, size_match_loop, sentinel]
  | succ n ih =>
    have hpos := class_size_pos hm i
    by_cases hlt : class_size m i < size
    · obtain ⟨k, hk, h1, h2, h3, h4⟩ := ih (i + 1)
      refine ⟨k, ?_, by omega, by omega, by intro h; exact h3 (by omega), ?_⟩
      · simp only [pool_from, size_match_loop, class_desc]
        rw [if_pos ⟨hlt, by omega⟩]
        exact hk
      · intro j hj1 hj2
        by_cases hji : j = i
        · subst hji; exact hlt
        · exact h4 j (by omega) hj2
    · refine ⟨i, ?_, by omega, by omega, by intro _; omega, by intro j h1 h2; omega⟩
      simp only [pool_from, size_match_loop, class_desc]
      rw [if_neg (by intro h; exact hlt h.1)]

theorem fbcou_loop_spec (R m : Nat) (al fb : Nat → Nat) (n i : Nat) :
    ∃ j, fbcou_loop (pool_from R m al fb n i) i = some j ∧ i ≤ j ∧ j ≤ i + n ∧
      (j < i + n → fb j ≠ 0) ∧ (∀ c, i ≤ c → c < j → fb c = 0) := by
  induction n generalizing i with
  | zero =>
    refine ⟨i, ?_, by omega, by omega, by omega, by intro j h1 h2; omega⟩
    simp [pool_from, fbcou_loop, sentinel]
  | succ n ih =>
    by_cases h0 : fb i = 0
    · obtain ⟨j, hj, h1, h2, h3, h4⟩ := ih (i + 1)
      refine ⟨j, ?_, by omega, by omega, by intro h; exact h3 (by omega), ?_⟩
      · simp only [pool_from, fbcou_loop, class_desc]
        rw [if_pos h0]
        exact hj
      · intro c hc1 hc2
        by_cases hci : c = i
        · subst hci; exact h0
        · exact h4 c (by omega) hc2
    · refine ⟨i, ?_, by omega, by omega, by intro _; exact h0, by intro j h1 h2; omega⟩
      simp only [pool_from, fbcou_loop, class_desc]
      rw [if_neg h0]

end HtMalloc

namespace HtMalloc

/-! ## mem_init: the class loop and the bitmap filling -/

/-- Once `base` has wrapped to 0 the loop of `exp_of_2` never ends. -/
theorem exp_of_2_loop_zero (fuel exponent number : Nat) (h : 0 < number) :
    exp_of_2_loop fuel 0 exponent number = none := by
  induction fuel generalizing exponent with
  | zero => rfl
  | succ n ih => simp [exp_of_2_loop, h, ih]

theorem exp_of_2_loop_big (number : Nat) (h : 32768 < number) :
    ∀ (d t fuel exponent : Nat), t + d = 15 →
      exp_of_2_loop fuel (2 ^ t) exponent number = none := by
  intro d
  induction d with
  | zero =>
    intro t fuel exponent ht
    have ht : t = 15 := by omega
    subst ht
    cases fuel with
    | zero => rfl
    | succ fuel =>
      have h1 : (2 : Nat) ^ 15 < number := by norm_num; omega
      simp only [exp_of_2_loop, h1, if_true, UINT]
      exact exp_of_2_loop_zero _ _ _ (by omega)
  | succ d ih =>
    intro t fuel exponent ht
    cases fuel with
    | zero => rfl
    | succ fuel =>
      have h2 : (2 : Nat) ^ t ≤ 2 ^ 14 := Nat.pow_le_pow_right (by norm_num) (by omega)
      have h1 : (2 : Nat) ^ t < number := by
        have : (2 : Nat) ^ 14 = 16384 := by norm_num
        omega
      have h3 : (2 ^ t * 2) % UINT = 2 ^ (t + 1) := by
        have : (2 : Nat) ^ 14 = 16384 := by norm_num
        rw [Nat.pow_succ]
        exact Nat.mod_eq_of_lt (by unfold UINT; omega)
      simp only [exp_of_2_loop, h1, if_true, h3]
      exact ih (t + 1) fuel _ (by omega)

/-- For a number above half the word range `exp_of_2` does not return. -/
theorem exp_of_2_big (fuel number : Nat) (h : 32768 < number) : exp_of_2 fuel number = none :=
  exp_of_2_loop_big number h 14 1 fuel 1 (by norm_num)

theorem exp_of_2_loop_pow (e : Nat) (he : e ≤ 15) :
    ∀ (d t fuel : Nat), t + d = e → 1 ≤ t → d < fuel →
      exp_of_2_loop fuel (2 ^ t) t (2 ^ e) = some e := by
  intro d
  induction d with
  | zero =>
    intro t fuel ht _ hf
    have : t = e := by omega
    subst this
    cases fuel with
    | zero => omega
    | succ fuel => simp [exp_of_2_loop]
  | succ d ih =>
    intro t fuel ht h1 hf
    cases fuel with
    | zero => omega
    | succ fuel =>
      have hlt : (2 : Nat) ^ t < 2 ^ e := Nat.pow_lt_pow_right (by norm_num) (by omega)
      have hle : (2 : Nat) ^ (t + 1) ≤ 2 ^ 15 := Nat.pow_le_pow_right (by norm_num) (by omega)
      have h3 : (2 ^ t * 2) % UINT = 2 ^ (t + 1) := by
        rw [← Nat.pow_succ]
        apply Nat.mod_eq_of_lt
        unfold UINT; norm_num at hle; omega
      have h4 : (t + 1) % UINT = t + 1 := Nat.mod_eq_of_lt (by unfold UINT; omega)
      rw [exp_of_2_loop, if_pos hlt, h3, h4]
      exact ih (t + 1) fuel (by omega) (by omega) (by omega)

theorem exp_of_2_pow {e : Nat} (h1 : 1 ≤ e) (he : e ≤ 15) {fuel : Nat} (hf : e ≤ fuel) :
    exp_of_2 fuel (2 ^ e) = some e := by
  unfold exp_of_2
  have := exp_of_2_loop_pow e he (e - 1) 1 fuel (by omega) (by omega) (by omega)
  simpa using this

theorem mem_init_pool_spec {R m K : Nat} (g : Geom R m K) (hmax : R < 2 * (m * 2 ^ K))
    (heap : Nat → Nat) :
    ∀ n i fuel, i + n = K → n < fuel →
      mem_init_pool fuel R (m * 2 ^ i) i (class_offset R m i) heap
        = some (pool_from R m (init_alloccou0 heap) (init_fbcou0 R m) n i, class_offset R m K) := by
  intro n
  induction n with
  | zero =>
    intro i fuel hi hf
    have : i = K := by omega
    subst this
    cases fuel with
    | zero => omega
    | succ fuel =>
      rw [mem_init_pool, if_neg (by omega)]
      rfl
  | succ n ih =>
    intro i fuel hi hf
    cases fuel with
    | zero => omega
    | succ fuel =>
      have hfit := g.fits i (by omega)
      have hR := g.R_lt
      have hoff := g.offset_words_lt (by omega : i ≤ K)
      have hw := words_for_lt (class_avail R m i)
      have e1 : (m * 2 ^ i * 2) % UINT = m * 2 ^ (i + 1) := by
        rw [Nat.pow_succ, ← Nat.mul_assoc]
        exact Nat.mod_eq_of_lt (by unfold UINT; omega)
      have e2 : (if R / (m * 2 ^ i) % DATAWIDTH ≠ 0
            then ((class_offset R m i + R / (m * 2 ^ i) / DATAWIDTH) % UINT + 1) % UINT
            else (class_offset R m i + R / (m * 2 ^ i) / DATAWIDTH) % UINT)
          = class_offset R m (i + 1) := by
        rw [class_offset_succ]
        unfold words_for class_avail at *
        unfold UINT DATAWIDTH at *
        split <;> omega
      rw [mem_init_pool, if_pos (by omega)]
      simp only [e1, e2]
      rw [ih (i + 1) fuel (by omega) (by omega)]
      rfl

theorem words_for_zero : words_for 0 = 0 := by decide

theorem words_for_sub_16 {nb : Nat} (h : 16 ≤ nb) : words_for nb = words_for (nb - 16) + 1 := by
  unfold words_for DATAWIDTH
  have : (nb - 16) % 16 = nb % 16 := by omega
  rw [this]
  split <;> omega

theorem words_for_small {nb : Nat} (h0 : 0 < nb) (h : nb < 16) : words_for nb = 1 := by
  unfold words_for DATAWIDTH
  split <;> omega

theorem fill_word_testBit {nb : Nat} (h : nb < 16) {t : Nat} (ht : t < 16) :
    (UINT - 1 - (power_of_two nb + (UINT - 1)) % UINT).testBit t = decide (nb ≤ t) := by
  have hp : power_of_two nb = 2 ^ nb := by
    unfold power_of_two DATAWIDTH
    rw [if_neg (by omega), Nat.one_shiftLeft]
    apply Nat.mod_eq_of_lt
    calc 2 ^ nb < 2 ^ 16 := Nat.pow_lt_pow_right (by norm_num) h
      _ = UINT := by unfold UINT; norm_num
  have hlt : 2 ^ nb < 65536 := by
    calc 2 ^ nb < 2 ^ 16 := Nat.pow_lt_pow_right (by norm_num) h
      _ = 65536 := by norm_num
  have hpos : 0 < 2 ^ nb := Nat.two_pow_pos _
  have e : (power_of_two nb + (UINT - 1)) % UINT = 2 ^ nb - 1 := by
    rw [hp]; unfold UINT; omega
  rw [e, testBit_not16 (by omega), Nat.testBit_two_pow_sub_one]
  by_cases h1 : t < nb
  · simp [h1, ht]
  · simp [h1, ht]; omega

theorem fill_loop_spec (base : Nat) :
    ∀ fuel mem i nb, nb < fuel → WordsOK mem → base + i + words_for nb ≤ mem.length →
      i + words_for nb < 65536 →
      ∃ mem1, fill_bits_in_array_loop fuel mem base i nb 0 = some (mem1, i + words_for nb) ∧
        mem1.length = mem.length ∧ WordsOK mem1 ∧
        (∀ t, t < 16 * words_for nb → mem_bit mem1 (16 * (base + i) + t) = decide (nb ≤ t)) ∧
        (∀ x, (x < 16 * (base + i) ∨ 16 * (base + i + words_for nb) ≤ x) →
          mem_bit mem1 x = mem_bit mem x) := by
  intro fuel
  induction fuel with
  | zero => intro mem i nb h; omega
  | succ fuel ih =>
    intro mem i nb hf hok hlen hi
    by_cases h0 : nb = 0
    · subst h0
      refine ⟨mem, ?_, rfl, hok, ?_, fun x _ => rfl⟩
      · simp [fill_bits_in_array_loop, words_for_zero]
      · intro t ht; rw [words_for_zero] at ht; omega
    · have hpos : nb > 0 := by omega
      by_cases h16 : 16 ≤ nb
      · have hw := words_for_sub_16 h16
        have hlt : base + i < mem.length := by omega
        have hi1 : (i + 1) % UINT = i + 1 := Nat.mod_eq_of_lt (by unfold UINT; omega)
        obtain ⟨mem1, h1, h2, h3, h4, h5⟩ := ih (mem.set (base + i) 0) (i + 1) (nb - 16)
          (by omega) (WordsOK_set hok _ (by unfold UINT; omega)) (by simp; omega) (by omega)
        refine ⟨mem1, ?_, by simpa using h2, h3, ?_, ?_⟩
        · rw [fill_bits_in_array_loop, if_pos hpos, if_pos hlt, if_pos (by unfold DATAWIDTH; omega)]
          simp only [hi1, DATAWIDTH]
          have : (UINT - 0) % UINT = 0 := by decide
          rw [this, h1, hw]
          congr 2; omega
        · intro t ht
          by_cases ht16 : t < 16
          · rw [h5 _ (Or.inl (by omega)), mem_bit_set hlt]
            have : (16 * (base + i) + t) / 16 = base + i := by omega
            rw [if_pos this]
            have : ¬ nb ≤ t := by omega
            simp [this]
          · have := h4 (t - 16) (by omega)
            have e : 16 * (base + (i + 1)) + (t - 16) = 16 * (base + i) + t := by omega
            rw [e] at this
            rw [this]
            apply decide_eq_decide.2
            constructor <;> intro h <;> omega
        · intro x hx
          rw [h5 x (by omega), mem_bit_set hlt]
          have : ¬ x / 16 = base + i := by omega
          rw [if_neg this]
      · have hw := words_for_small hpos (by omega : nb < 16)
        have hlt : base + i < mem.length := by omega
        have hi1 : (i + 1) % UINT = i + 1 := Nat.mod_eq_of_lt (by unfold UINT; omega)
        have hv : UINT - 1 - (power_of_two nb + (UINT - 1)) % UINT < UINT := by
          unfold UINT; omega
        cases fuel with
        | zero => omega
        | succ fuel =>
          refine ⟨mem.set (base + i) (UINT - 1 - (power_of_two nb + (UINT - 1)) % UINT), ?_,
            by simp, WordsOK_set hok _ hv, ?_, ?_⟩
          · rw [fill_bits_in_array_loop, if_pos hpos, if_pos hlt,
              if_neg (by unfold DATAWIDTH; omega), if_pos hpos]
            simp only [hi1, if_true]
            rw [fill_bits_in_array_loop, if_neg (by omega), hw]
          · intro t ht
            rw [mem_bit_set hlt]
            have : (16 * (base + i) + t) / 16 = base + i := by omega
            rw [if_pos this]
            have e : (16 * (base + i) + t) % 16 = t := by omega
            rw [e]
            exact fill_word_testBit (by omega) (by omega)
          · intro x hx
            rw [mem_bit_set hlt]
            have : ¬ x / 16 = base + i := by omega
            rw [if_neg this]

theorem fill_bits_in_array_spec {mem : List Nat} (hok : WordsOK mem) {base nb : Nat}
    (hlen : base + words_for nb ≤ mem.length) (hnb : nb < 65536) :
    ∃ mem1, fill_bits_in_array mem base nb 0 = some (mem1, words_for nb) ∧
      mem1.length = mem.length ∧ WordsOK mem1 ∧
      (∀ t, t < 16 * words_for nb → class_bits mem1 base t = decide (nb ≤ t)) ∧
      (∀ x, (x < 16 * base ∨ 16 * (base + words_for nb) ≤ x) →
          mem_bit mem1 x = mem_bit mem x) := by
  have hw := words_for_lt nb
  obtain ⟨mem1, h1, h2, h3, h4, h5⟩ := fill_loop_spec base (nb + 1) mem 0 nb (by omega) hok
    (by omega) (by omega)
  refine ⟨mem1, ?_, h2, h3, ?_, ?_⟩
  · unfold fill_bits_in_array
    rw [h1]; simp
  · intro t ht
    exact h4 t ht
  · intro x hx
    exact h5 x (by simpa using hx)

end HtMalloc

namespace HtMalloc

/-! ## mem_init: filling all classes, reserving the bookkeeping, the whole function -/

theorem mem_init_fill_spec {R m K : Nat} (g : Geom R m K) (al fb : Nat → Nat) :
    ∀ n i mem j, i + n = K → WordsOK mem → mem.length = class_offset R m K →
      ∃ mem1 j1, mem_init_fill (pool_from R m al fb n i) mem i j = some (mem1, K, j1) ∧
        (0 < n → j1 = words_for (class_avail R m (K - 1))) ∧
        mem1.length = mem.length ∧ WordsOK mem1 ∧
        (∀ k, i ≤ k → k < K → ∀ t, t < 16 * words_for (class_avail R m k) →
          class_bits mem1 (class_offset R m k) t = decide (class_avail R m k ≤ t)) ∧
        (∀ x, x < 16 * class_offset R m i → mem_bit mem1 x = mem_bit mem x) := by
  intro n
  induction n with
  | zero =>
    intro i mem j hi hok hlen
    have : i = K := by omega
    subst this
    refine ⟨mem, j, ?_, by omega, rfl, hok, ?_, fun _ _ => rfl⟩
    · simp [pool_from, mem_init_fill, sentinel]
    · intro k h1 h2; omega
  | succ n ih =>
    intro i mem j hi hok hlen
    have hiK : i < K := by omega
    have hlen1 : class_offset R m i + words_for (class_avail R m i) ≤ mem.length := by
      rw [hlen]; exact g.offset_succ_le hiK
    have hav := g.avail_lt i
    obtain ⟨mem1, h1, h2, h3, h4, h5⟩ :=
      fill_bits_in_array_spec hok hlen1 (by omega : class_avail R m i < 65536)
    obtain ⟨mem2, j2, k1, k2, k3, k4, k5, k6⟩ :=
      ih (i + 1) mem1 (words_for (class_avail R m i)) (by omega) h3 (by rw [h2, hlen])
    refine ⟨mem2, j2, ?_, ?_, by rw [k3, h2], k4, ?_, ?_⟩
    · simp only [pool_from, mem_init_fill, class_desc]
      rw [if_pos (by have := g.size_pos i; omega), h1]
      exact k1
    · intro _
      by_cases hn : 0 < n
      · exact k2 hn
      · have hn0 : n = 0 := by omega
        subst hn0
        simp [pool_from, mem_init_fill, sentinel] at k1
        have : K - 1 = i := by omega
        rw [this]; exact k1.2.2.symm
    · intro k hk1 hk2 t ht
      by_cases hki : k = i
      · subst hki
        unfold class_bits
        rw [k6 _ (by rw [class_offset_succ]; omega)]
        exact h4 t ht
      · exact k5 k (by omega) hk2 t ht
    · intro x hx
      rw [k6 x (by rw [class_offset_succ]; omega), h5 x (Or.inl hx)]

theorem mem_init_reserve_spec {R m K : Nat} (g : Geom R m K) (al fb : Nat → Nat) (B : Nat) :
    ∀ n k mem iv, k + n = K → WordsOK mem → mem.length = class_offset R m K →
      iv = (if k = 0 ∨ class_size m (k - 1) < B then 1 else 0) →
      ∃ mem1, mem_init_reserve (pool_from R m al fb n k) mem B iv
          = some (pool_from R m
              (fun c => if B ≤ class_size m c then
                (if c = 0 ∨ class_size m (c - 1) < B then 1 else 0) else al c)
              (fun c => if B ≤ class_size m c then (fb c + 1) % UINT else fb c) n k, mem1) ∧
        mem1.length = mem.length ∧ WordsOK mem1 ∧
        (∀ x, mem_bit mem1 x = true ↔ (mem_bit mem x = true ∨
          ∃ c, k ≤ c ∧ c < K ∧ B ≤ class_size m c ∧ x = 16 * class_offset R m c)) := by
  intro n
  induction n with
  | zero =>
    intro k mem iv hk hok hlen _
    refine ⟨mem, ?_, rfl, hok, ?_⟩
    · simp [pool_from, mem_init_reserve, sentinel]
    · intro x
      constructor
      · intro h; exact Or.inl h
      · rintro (h | ⟨c, h1, h2, _⟩)
        · exact h
        · omega
  | succ n ih =>
    intro k mem iv hk hok hlen hiv
    have hkK : k < K := by omega
    have hpos := g.size_pos k
    by_cases hB : B ≤ class_size m k
    · have hw := g.words_pos hkK
      have hlt : class_offset R m k < mem.length := by
        rw [hlen]
        have := g.offset_succ_le hkK
        omega
      obtain ⟨w, hw1⟩ := get_of_lt hlt
      have hset := isSet_of_word hok hw1 (by norm_num : 0 < 16)
      simp only [Nat.add_zero, Nat.shiftLeft_zero] at hset
      obtain ⟨hs1, hs2, hs3⟩ := hset
      obtain ⟨mem1, h1, h2, h3, h4⟩ := ih (k + 1) _ 0 (by omega) hs2 (by rw [hs1, hlen])
        (by
          have : ¬ (k + 1 = 0 ∨ class_size m (k + 1 - 1) < B) := by
            simp only [Nat.add_sub_cancel]; omega
          rw [if_neg this])
      refine ⟨mem1, ?_, by rw [h2, hs1], h3, ?_⟩
      · simp only [pool_from, mem_init_reserve, class_desc]
        rw [if_pos (by omega), if_pos hB, hw1]
        simp only [h1]
        rw [if_pos hB, if_pos hB, hiv]
      · intro x
        rw [h4 x, hs3 x]
        constructor
        · rintro (h | ⟨c, c1, c2, c3, c4⟩)
          · simp at h
            rcases h with h | h
            · exact Or.inl h
            · exact Or.inr ⟨k, by omega, hkK, hB, h⟩
          · exact Or.inr ⟨c, by omega, c2, c3, c4⟩
        · rintro (h | ⟨c, c1, c2, c3, c4⟩)
          · left; simp [h]
          · by_cases hck : c = k
            · subst hck; left; simp [c4]
            · exact Or.inr ⟨c, by omega, c2, c3, c4⟩
    · have hiv1 : iv = 1 := by
        rw [hiv]
        by_cases hk0 : k = 0
        · simp [hk0]
        · have : class_size m (k - 1) ≤ class_size m k := class_size_mono m (by omega)
          rw [if_pos (Or.inr (by omega))]
      obtain ⟨mem1, h1, h2, h3, h4⟩ := ih (k + 1) mem iv (by omega) hok hlen
        (by
          have : (k + 1 = 0 ∨ class_size m (k + 1 - 1) < B) := by
            simp only [Nat.add_sub_cancel]; right; omega
          rw [if_pos this, hiv1])
      refine ⟨mem1, ?_, h2, h3, ?_⟩
      · simp only [pool_from, mem_init_reserve, class_desc]
        rw [if_pos (by omega), if_neg hB]
        simp only [h1]
        rw [if_neg hB, if_neg hB]
      · intro x
        rw [h4 x]
        constructor
        · rintro (h | ⟨c, c1, c2, c3, c4⟩)
          · exact Or.inl h
          · exact Or.inr ⟨c, by omega, c2, c3, c4⟩
        · rintro (h | ⟨c, c1, c2, c3, c4⟩)
          · exact Or.inl h
          · by_cases hck : c = k
            · subst hck; omega
            · exact Or.inr ⟨c, by omega, c2, c3, c4⟩

end HtMalloc

namespace HtMalloc

theorem class_bit_position {R m K : Nat} (g : Geom R m K) {k c t : Nat} (hk : k < K) (hc : c < K)
    (ht : t < 16 * words_for (class_avail R m k))
    (h : 16 * class_offset R m k + t = 16 * class_offset R m c) : c = k ∧ t = 0 := by
  rcases Nat.lt_trichotomy c k with h1 | h1 | h1
  · have := g.offset_succ_le h1
    have := g.words_pos hc
    omega
  · subst h1; exact ⟨rfl, by omega⟩
  · have := g.offset_succ_le h1
    omega

/-- The state that `mem_init` leaves when the bookkeeping fits in the region, in
closed form. -/
theorem mem_init_spec {R m K e : Nat} (g : Geom R m K) (hK : 1 ≤ K)
    (hmax : R < 2 * (m * 2 ^ K)) (he : m = 2 ^ e) (heap : Nat → Nat) {fuel : Nat}
    (hf : 16 ≤ fuel) (hroom : init_bytes R m K ≤ R) :
    ∃ mem, mem_init fuel R m heap = some (init_bytes R m K,
        ⟨pool_from R m (init_alloccou heap m (init_bytes R m K))
          (init_fbcou R m (init_bytes R m K)) K 0, mem⟩) ∧
      mem.length = class_offset R m K ∧ WordsOK mem ∧
      ∀ k, k < K → ∀ t, t < 16 * words_for (class_avail R m k) →
        (class_bits mem (class_offset R m k) t = true ↔
          (class_avail R m k ≤ t ∨ (t = 0 ∧ init_bytes R m K ≤ class_size m k))) := by
  have hR := g.R_lt
  have hfit0 := g.fits 0 (by omega)
  simp only [pow_zero, mul_one] at hfit0
  have hm2 := g.m_ge
  have he1 : 1 ≤ e := by
    by_contra h
    have : e = 0 := by omega
    subst this; simp at he; omega
  have he15 : e ≤ 15 := by
    by_contra h
    have : (2 : Nat) ^ 16 ≤ 2 ^ e := Nat.pow_le_pow_right (by norm_num) (by omega)
    norm_num at this; omega
  have hexp : exp_of_2 fuel m = some e := by rw [he]; exact exp_of_2_pow he1 he15 (by omega)
  have hKle := g.K_le
  have hpool := mem_init_pool_spec g hmax heap K 0 fuel (by omega) (by omega)
  simp only [pow_zero, mul_one] at hpool
  have hoff0 : class_offset R m 0 = 0 := rfl
  rw [hoff0] at hpool
  -- the bitmap before the filling loop
  have hok0 : WordsOK ((List.range (class_offset R m K)).map
      (fun w => heap (5 * (K + 1) + w) % UINT)) := by
    intro w hw
    simp only [List.mem_map] at hw
    obtain ⟨a, _, ha⟩ := hw
    rw [← ha]; exact Nat.mod_lt _ (by unfold UINT; norm_num)
  obtain ⟨mem1, j1, f1, f2, f3, f4, f5, _⟩ := mem_init_fill_spec g (init_alloccou0 heap)
    (init_fbcou0 R m) K 0 _ 0 (by omega) hok0 (by simp)
  have hj1 := f2 (by omega)
  have hlen1 : mem1.length = class_offset R m K := by rw [f3]; simp
  have hlast : (pool_from R m (init_alloccou0 heap) (init_fbcou0 R m) K 0)[K - 1]?
      = some (class_desc R m (init_alloccou0 heap) (init_fbcou0 R m) (K - 1)) := by
    rw [pool_from_get _ _ _ _ (by omega : K - 1 < K)]; simp
  have hoffK : class_offset R m K
      = class_offset R m (K - 1) + words_for (class_avail R m (K - 1)) := by
    have : K = (K - 1) + 1 := by omega
    conv_lhs => rw [this]
    rfl
  have hsmall := g.offset_le_small (by omega : K ≤ K + 1)
  have hB : ((SIZEOF_POOLDESC * (K + 1)) % UINT + class_offset R m (K - 1) * SIZEOF_UINT
      + j1 * SIZEOF_UINT) % UINT = init_bytes R m K := by
    unfold init_bytes
    rw [hj1, hoffK]
    unfold SIZEOF_POOLDESC SIZEOF_UINT UINT at *
    omega
  obtain ⟨mem2, r1, r2, r3, r4⟩ := mem_init_reserve_spec g (init_alloccou0 heap)
    (init_fbcou0 R m) (init_bytes R m K) K 0 mem1 1 (by omega) f4 hlen1 (by simp)
  refine ⟨mem2, ?_, by rw [r2, hlen1], r3, ?_⟩
  · unfold mem_init
    rw [if_neg (by omega), hexp]
    simp only
    rw [if_neg (by omega), hpool]
    simp only [pool_from_length]
    rw [if_neg (by unfold init_bytes at hroom; omega), f1]
    simp only
    rw [if_neg (by omega), hlast]
    simp only [class_desc]
    rw [hB, r1]
    simp only
    congr 4
    funext k
    unfold init_fbcou init_fbcou0
    unfold UINT
    split <;> split <;> omega
  · intro k hk t ht
    unfold class_bits
    rw [r4]
    have hfill := f5 k (by omega) hk t ht
    unfold class_bits at hfill
    rw [hfill]
    constructor
    · rintro (h | ⟨c, _, c2, c3, c4⟩)
      · left; simpa using h
      · obtain ⟨h1, h2⟩ := class_bit_position g hk c2 ht c4
        subst h1
        exact Or.inr ⟨h2, c3⟩
    · rintro (h | ⟨h1, h2⟩)
      · left; simpa using h
      · right
        exact ⟨k, by omega, hk, h2, by omega⟩

end HtMalloc

namespace HtMalloc

/-! ## Blocks and the buddy tree -/

theorem div_two_pow_add (x a b : Nat) : x / 2 ^ a / 2 ^ b = x / 2 ^ (a + b) := by
  rw [Nat.div_div_eq_div_mul, Nat.pow_add]

theorem mul_two_pow_div {a d : Nat} (b0 : Nat) (h : d ≤ a) :
    b0 * 2 ^ a / 2 ^ d = b0 * 2 ^ (a - d) := by
  have e : 2 ^ a = 2 ^ (a - d) * 2 ^ d := by
    rw [← Nat.pow_add]; congr 1; omega
  rw [e, ← Nat.mul_assoc, Nat.mul_div_cancel _ (Nat.two_pow_pos d)]

theorem mul_two_pow_div_add (b0 a d : Nat) : b0 * 2 ^ a / 2 ^ (a + d) = b0 / 2 ^ d := by
  rw [← div_two_pow_add, Nat.mul_div_cancel _ (Nat.two_pow_pos a)]

theorem sibling_div_two_pow {d : Nat} (hd : 1 ≤ d) (x : Nat) : sibling x / 2 ^ d = x / 2 ^ d := by
  have e : d = 1 + (d - 1) := by omega
  rw [e, ← div_two_pow_add, ← div_two_pow_add]
  simp only [pow_one]
  rw [sibling_div_two]

theorem covers_self (b : Block) : covers b b.1 b.2 := by
  unfold covers; simp

theorem covers_up {b : Block} {c x : Nat} (d : Nat) (h : covers b c x) :
    covers b (c + d) (x / 2 ^ d) := by
  obtain ⟨h1, h2⟩ := h
  refine ⟨by omega, ?_⟩
  have e : c + d - b.1 = (c - b.1) + d := by omega
  rw [e, ← div_two_pow_add, h2]

theorem covers_trans {a b : Block} {c x : Nat} (h1 : covers a b.1 b.2) (h2 : covers b c x) :
    covers a c x := by
  have := covers_up (c - b.1) h1
  have e : b.1 + (c - b.1) = c := by have := h2.1; omega
  rw [e, h2.2] at this
  exact this

theorem covers_fun {b : Block} {c x y : Nat} (h1 : covers b c x) (h2 : covers b c y) : x = y := by
  rw [← h1.2, ← h2.2]

theorem covered_up {A : List Block} {c x : Nat} (d : Nat) (h : covered A c x) :
    covered A (c + d) (x / 2 ^ d) := by
  obtain ⟨b, hb, hc⟩ := h
  exact ⟨b, hb, covers_up d hc⟩

theorem full_up {R m : Nat} {A : List Block} {c x : Nat} (d : Nat) (h : full R m A c x) :
    full R m A (c + d) (x / 2 ^ d) := by
  rcases h with h | h
  · left
    rw [class_avail_add]
    exact Nat.div_le_div_right h
  · right; exact covered_up d h

theorem full_mono {R m : Nat} {A B : List Block} (hsub : ∀ b, b ∈ A → b ∈ B) {c x : Nat}
    (h : full R m A c x) : full R m B c x := by
  rcases h with h | ⟨b, hb, hc⟩
  · exact Or.inl h
  · exact Or.inr ⟨b, hsub b hb, hc⟩

theorem overlaps_symm {a b : Block} (h : overlaps a b) : overlaps b a := Or.symm h

theorem overlaps_self (a : Block) : overlaps a a := Or.inl (covers_self a)

/-- In a list of pairwise non-overlapping blocks, two members that overlap are equal. -/
theorem eq_of_overlaps {A : List Block} (hpw : A.Pairwise (fun a b => ¬ overlaps a b))
    {a b : Block} (ha : a ∈ A) (hb : b ∈ A) (h : overlaps a b) : a = b := by
  by_contra hne
  have hsym : Symmetric (fun a b : Block => ¬ overlaps a b) :=
    fun x y hxy hyx => hxy (overlaps_symm hyx)
  exact (hpw.forall hsym ha hb hne) h

/-- A real block of class `k` has real descendants: `b0 < avail j` gives
`b0 * 2 ^ (j - k) + (2 ^ (j - k) - 1) < avail k`. -/
theorem descendant_real (R m : Nat) {k j b0 : Nat} (hkj : k ≤ j)
    (h : b0 < class_avail R m j) {y : Nat} (hy : y / 2 ^ (j - k) = b0) :
    y < class_avail R m k := by
  have e : class_avail R m j = class_avail R m k / 2 ^ (j - k) := by
    rw [← class_avail_add]; congr 1; omega
  rw [e, ← hy] at h
  by_contra hge
  have := Nat.div_le_div_right (c := 2 ^ (j - k)) (Nat.le_of_not_lt hge)
  omega

/-- Allocating: a free block `b0` of class `j` whose sibling is not free, and
its left-most descendant at class `k`. -/
theorem alloc_block {R m : Nat} {A : List Block}
    (hpw : A.Pairwise (fun a b => ¬ overlaps a b))
    (hreal : ∀ b, b ∈ A → b.2 < class_avail R m b.1)
    {j b0 k : Nat} (hkj : k ≤ j) (hfree : ¬ full R m A j b0)
    (hsib : full R m A j (sibling b0)) :
    (∀ a, a ∈ A → ¬ overlaps (k, b0 * 2 ^ (j - k)) a) ∧
    b0 * 2 ^ (j - k) < class_avail R m k ∧
    ∀ c x, full R m ((k, b0 * 2 ^ (j - k)) :: A) c x ↔
      (full R m A c x ∨ (k ≤ c ∧ c ≤ j ∧ x = b0 * 2 ^ (j - c))) := by
  have hb0 : b0 < class_avail R m j := by
    by_contra h; exact hfree (Or.inl (Nat.le_of_not_lt h))
  have hnc : ¬ covered A j b0 := fun h => hfree (Or.inr h)
  -- ancestors of the found block above class `j` are full
  have habove : ∀ c, j < c → full R m A c (b0 / 2 ^ (c - j)) := by
    intro c hc
    have := full_up (c - j) hsib
    rw [sibling_div_two_pow (by omega)] at this
    have e : j + (c - j) = c := by omega
    rw [e] at this; exact this
  have hnew_j : covers (k, b0 * 2 ^ (j - k)) j b0 := by
    refine ⟨hkj, ?_⟩
    show b0 * 2 ^ (j - k) / 2 ^ (j - k) = b0
    exact Nat.mul_div_cancel _ (Nat.two_pow_pos _)
  refine ⟨?_, ?_, ?_⟩
  · intro a ha hov
    rcases hov with h | h
    · -- `a` is the new block or one of its ancestors
      obtain ⟨h1, h2⟩ := h
      simp only at h1 h2
      by_cases hle : a.1 ≤ j
      · apply hnc
        refine ⟨a, ha, hle, ?_⟩
        rw [← h2, mul_two_pow_div b0 (by omega : a.1 - k ≤ j - k)]
        have e : j - k - (a.1 - k) = j - a.1 := by omega
        rw [e]
        exact Nat.mul_div_cancel _ (Nat.two_pow_pos _)
      · have hgt : j < a.1 := by omega
        have e : a.1 - k = (j - k) + (a.1 - j) := by omega
        rw [e, mul_two_pow_div_add] at h2
        rcases habove a.1 hgt with h3 | ⟨a1, ha1, hc1⟩
        · have := hreal a ha
          omega
        · rw [h2] at hc1
          have hov : overlaps a1 a := Or.inl hc1
          have := eq_of_overlaps hpw ha1 ha hov
          -- the block covering the sibling lies at or below class `j`
          rcases hsib with h4 | ⟨a2, ha2, hc2⟩
          · have h5 := hreal a ha
            have h6 : class_avail R m a.1 = class_avail R m j / 2 ^ (a.1 - j) := by
              rw [← class_avail_add]; congr 1; omega
            have h7 := Nat.div_le_div_right (c := 2 ^ (a.1 - j)) h4
            rw [sibling_div_two_pow (by omega)] at h7
            omega
          · have h8 : covers a2 a.1 a.2 := by
              have := covers_up (a.1 - j) hc2
              rw [sibling_div_two_pow (by omega), h2] at this
              have e2 : j + (a.1 - j) = a.1 := by omega
              rw [e2] at this; exact this
            have h9 := eq_of_overlaps hpw ha2 ha (Or.inl h8)
            have := hc2.1
            rw [h9] at this
            omega
    · -- `a` lies inside the new block
      apply hnc
      exact ⟨a, ha, covers_trans h hnew_j⟩
  · exact descendant_real R m hkj hb0 (Nat.mul_div_cancel _ (Nat.two_pow_pos _))
  · intro c x
    constructor
    · rintro (h | ⟨b, hb, hc⟩)
      · exact Or.inl (Or.inl h)
      · rcases List.mem_cons.1 hb with h1 | h1
        · subst h1
          obtain ⟨h2, h3⟩ := hc
          simp only at h2 h3
          by_cases hle : c ≤ j
          · right
            refine ⟨h2, hle, ?_⟩
            rw [← h3, mul_two_pow_div b0 (by omega : c - k ≤ j - k)]
            congr 2; omega
          · left
            have e : c - k = (j - k) + (c - j) := by omega
            rw [e, mul_two_pow_div_add] at h3
            rw [← h3]
            exact habove c (by omega)
        · exact Or.inl (Or.inr ⟨b, h1, hc⟩)
    · rintro (h | ⟨h1, h2, h3⟩)
      · exact full_mono (fun b hb => List.mem_cons_of_mem _ hb) h
      · right
        refine ⟨(k, b0 * 2 ^ (j - k)), List.mem_cons_self _ _, h1, ?_⟩
        show b0 * 2 ^ (j - k) / 2 ^ (c - k) = x
        rw [h3, mul_two_pow_div b0 (by omega : c - k ≤ j - k)]
        congr 2; omega

end HtMalloc

namespace HtMalloc

theorem eq_or_sibling_of_half {z x : Nat} (h : z / 2 = x / 2) : z = x ∨ z = sibling x := by
  unfold sibling; split <;> omega

/-- A block is not free exactly when one of its two halves is not free, or it is
itself allocated. -/
theorem full_parent_iff {R m : Nat} {A : List Block} {c x : Nat} :
    full R m A (c + 1) (x / 2) ↔
      (full R m A c x ∨ full R m A c (sibling x) ∨ (c + 1, x / 2) ∈ A) := by
  constructor
  · rintro (h | ⟨b, hb, h1, h2⟩)
    · rw [class_avail_succ] at h
      by_cases hx : class_avail R m c ≤ x
      · exact Or.inl (Or.inl hx)
      · right; left; left
        unfold sibling; split <;> omega
    · by_cases hb1 : b.1 = c + 1
      · right; right
        have : b = (c + 1, x / 2) := by
          rw [hb1] at h2
          simp at h2
          exact Prod.ext hb1 h2
        rw [← this]; exact hb
      · have hle : b.1 ≤ c := by omega
        have e : c + 1 - b.1 = (c - b.1) + 1 := by omega
        rw [e, ← div_two_pow_add] at h2
        simp only [pow_one] at h2
        rcases eq_or_sibling_of_half h2 with h3 | h3
        · exact Or.inl (Or.inr ⟨b, hb, hle, h3⟩)
        · exact Or.inr (Or.inl (Or.inr ⟨b, hb, hle, h3⟩))
  · rintro (h | h | h)
    · have := full_up 1 h
      simpa using this
    · have := full_up 1 h
      simp only [pow_one] at this
      rw [sibling_div_two] at this
      exact this
    · exact Or.inr ⟨_, h, covers_self _⟩

/-- Freeing: the bits of the freed block and of its ancestors, after the block
has left the list of allocated blocks. -/
theorem free_block {R m : Nat} {A1 A2 : List Block} {k i : Nat}
    (hpw : (A1 ++ (k, i) :: A2).Pairwise (fun a b => ¬ overlaps a b))
    (hi : i < class_avail R m k) :
    (∀ c x, ¬ (k ≤ c ∧ x = i / 2 ^ (c - k)) →
      (full R m (A1 ++ A2) c x ↔ full R m (A1 ++ (k, i) :: A2) c x)) ∧
    (∀ c, k ≤ c → (full R m (A1 ++ A2) c (i / 2 ^ (c - k)) ↔
      ∃ c1, k ≤ c1 ∧ c1 < c ∧ full R m (A1 ++ (k, i) :: A2) c1 (sibling (i / 2 ^ (c1 - k))))) := by
  have hsub : ∀ b, b ∈ A1 ++ A2 → b ∈ A1 ++ (k, i) :: A2 := by
    intro b hb
    rcases List.mem_append.1 hb with h | h
    · exact List.mem_append.2 (Or.inl h)
    · exact List.mem_append.2 (Or.inr (List.mem_cons_of_mem _ h))
  have hmem : (k, i) ∈ A1 ++ (k, i) :: A2 :=
    List.mem_append.2 (Or.inr (List.mem_cons_self _ _))
  have hnot : (k, i) ∉ A1 ++ A2 := by
    intro h
    rw [List.pairwise_append] at hpw
    obtain ⟨_, h2, h3⟩ := hpw
    rcases List.mem_append.1 h with h4 | h4
    · exact h3 _ h4 _ (List.mem_cons_self _ _) (overlaps_self _)
    · exact (List.pairwise_cons.1 h2).1 _ h4 (overlaps_self _)
  have hrest : ∀ b, b ∈ A1 ++ (k, i) :: A2 → b ≠ (k, i) → b ∈ A1 ++ A2 := by
    intro b hb hne
    rcases List.mem_append.1 hb with h | h
    · exact List.mem_append.2 (Or.inl h)
    · rcases List.mem_cons.1 h with h1 | h1
      · exact absurd h1 hne
      · exact List.mem_append.2 (Or.inr h1)
  have ha : ∀ c x, ¬ (k ≤ c ∧ x = i / 2 ^ (c - k)) →
      (full R m (A1 ++ A2) c x ↔ full R m (A1 ++ (k, i) :: A2) c x) := by
    intro c x hx
    constructor
    · exact full_mono hsub
    · rintro (h | ⟨b, hb, hc⟩)
      · exact Or.inl h
      · right
        refine ⟨b, hrest b hb ?_, hc⟩
        intro hbe
        subst hbe
        exact hx ⟨hc.1, hc.2.symm⟩
  refine ⟨ha, ?_⟩
  have hb : ∀ d, (full R m (A1 ++ A2) (k + d) (i / 2 ^ d) ↔
      ∃ c1, k ≤ c1 ∧ c1 < k + d ∧
        full R m (A1 ++ (k, i) :: A2) c1 (sibling (i / 2 ^ (c1 - k)))) := by
    intro d
    induction d with
    | zero =>
      constructor
      · rintro (h | ⟨b, hb, hc⟩)
        · simp at h; omega
        · exfalso
          simp only [Nat.add_zero, pow_zero, Nat.div_one] at hc
          have := eq_of_overlaps hpw (hsub b hb) hmem (Or.inl hc)
          rw [this] at hb
          exact hnot hb
      · rintro ⟨c1, h1, h2, _⟩; omega
    | succ d ih =>
      have e1 : i / 2 ^ (d + 1) = i / 2 ^ d / 2 := by
        rw [← div_two_pow_add]; simp
      have e2 : k + (d + 1) = (k + d) + 1 := by omega
      rw [e1, e2, full_parent_iff, ih]
      have hsibne : ¬ (k ≤ k + d ∧ sibling (i / 2 ^ d) = i / 2 ^ (k + d - k)) := by
        rintro ⟨_, h⟩
        rw [Nat.add_sub_cancel_left] at h
        exact sibling_ne _ h
      rw [ha _ _ hsibne]
      constructor
      · rintro (⟨c1, h1, h2, h3⟩ | h | h)
        · exact ⟨c1, h1, by omega, h3⟩
        · refine ⟨k + d, by omega, by omega, ?_⟩
          rw [Nat.add_sub_cancel_left]; exact h
        · exfalso
          have hc : covers (k, i) (k + d + 1) (i / 2 ^ d / 2) := by
            refine ⟨by simp; omega, ?_⟩
            show i / 2 ^ (k + d + 1 - k) = i / 2 ^ d / 2
            have : k + d + 1 - k = d + 1 := by omega
            rw [this, e1]
          have := eq_of_overlaps hpw hmem (hsub _ h) (Or.inl hc)
          have := congrArg Prod.fst this
          simp only at this
          omega
      · rintro ⟨c1, h1, h2, h3⟩
        by_cases hc : c1 = k + d
        · subst hc
          rw [Nat.add_sub_cancel_left] at h3
          exact Or.inr (Or.inl h3)
        · exact Or.inl ⟨c1, h1, by omega, h3⟩
  intro c hc
  have := hb (c - k)
  have e : k + (c - k) = c := by omega
  rw [e] at this
  exact this

end HtMalloc

namespace HtMalloc

/-! ## Counting free buddies -/

theorem countP_range_congr {P Q : Nat → Bool} (n : Nat) (h : ∀ x, x < n → P x = Q x) :
    (List.range n).countP P = (List.range n).countP Q := by
  apply List.countP_congr
  intro x hx
  rw [h x (List.mem_range.1 hx)]

/-- Changing a predicate at one point changes its count over a range by that point. -/
theorem countP_range_update {P Q : Nat → Bool} {n p : Nat} (hp : p < n)
    (h : ∀ x, x < n → x ≠ p → Q x = P x) :
    (List.range n).countP Q + (if P p then 1 else 0)
      = (List.range n).countP P + (if Q p then 1 else 0) := by
  induction n with
  | zero => omega
  | succ n ih =>
    rw [List.range_succ, List.countP_append, List.countP_append, List.countP_singleton,
      List.countP_singleton]
    by_cases hpn : p = n
    · subst hpn
      rw [countP_range_congr p (fun x hx => h x (by omega) (by omega))]
      omega
    · have := ih (by omega) (fun x hx hne => h x (by omega) hne)
      rw [h n (by omega) (fun e => hpn e.symm)]
      omega

theorem free_buddies_congr {bits bits1 : Nat → Bool} {n : Nat} (hn : n % 2 = 0)
    (h : ∀ x, x < n → bits1 x = bits x) : free_buddies bits1 n = free_buddies bits n := by
  unfold free_buddies
  apply countP_range_congr
  intro x hx
  unfold is_free_buddy
  have hs : sibling x < n := by unfold sibling; split <;> omega
  rw [h x hx, h _ hs]

theorem free_buddies_le (bits : Nat → Bool) (n : Nat) : free_buddies bits n ≤ n := by
  unfold free_buddies
  have := List.countP_le_length (p := fun i => is_free_buddy bits i) (l := List.range n)
  simpa using this

theorem free_buddies_pos {bits : Nat → Bool} {n : Nat} (h : 0 < free_buddies bits n) :
    ∃ i, i < n ∧ is_free_buddy bits i = true := by
  unfold free_buddies at h
  rw [List.countP_pos_iff] at h
  obtain ⟨a, ha, hp⟩ := h
  exact ⟨a, List.mem_range.1 ha, hp⟩

theorem free_buddies_ne_zero {bits : Nat → Bool} {n i : Nat} (hi : i < n)
    (h : is_free_buddy bits i = true) : 0 < free_buddies bits n := by
  unfold free_buddies
  rw [List.countP_pos_iff]
  exact ⟨i, List.mem_range.2 hi, h⟩

/-- The count after one bit `p` changed: only `p` and its sibling count differently. -/
theorem free_buddies_update {bits bits1 : Nat → Bool} {n p : Nat} (hn : n % 2 = 0) (hp : p < n)
    (h : ∀ x, x < n → x ≠ p → bits1 x = bits x) :
    free_buddies bits1 n + (if is_free_buddy bits p then 1 else 0)
        + (if is_free_buddy bits (sibling p) then 1 else 0)
      = free_buddies bits n + (if is_free_buddy bits1 p then 1 else 0)
        + (if is_free_buddy bits1 (sibling p) then 1 else 0) := by
  have hs : sibling p < n := by unfold sibling; split <;> omega
  have hsp := sibling_ne p
  -- an intermediate predicate: the new one, except at `p`
  have h1 := countP_range_update (P := fun i => is_free_buddy bits i)
    (Q := fun i => if i = p then is_free_buddy bits i else is_free_buddy bits1 i) (p := sibling p)
    (n := n) hs (by
      intro x hxn hx
      by_cases hxp : x = p
      · simp [hxp]
      · simp only [if_neg hxp]
        unfold is_free_buddy
        have : sibling x ≠ p := by
          intro e; apply hx; rw [← e, sibling_sibling]
        have hsx : sibling x < n := by unfold sibling; split <;> omega
        rw [h x hxn hxp, h _ hsx this])
  have h2 := countP_range_update
    (P := fun i => if i = p then is_free_buddy bits i else is_free_buddy bits1 i)
    (Q := fun i => is_free_buddy bits1 i) (p := p) (n := n) hp (by
      intro x _ hx
      simp [hx])
  simp only [if_neg hsp, if_true] at h1 h2
  unfold free_buddies
  omega

theorem free_buddies_set {bits bits1 : Nat → Bool} {n p : Nat} (hn : n % 2 = 0) (hp : p < n)
    (hb : bits p = false) (h : ∀ x, x < n → bits1 x = (bits x || decide (x = p))) :
    (bits (sibling p) = true → free_buddies bits1 n + 1 = free_buddies bits n) ∧
    (bits (sibling p) = false → free_buddies bits1 n = free_buddies bits n + 1) := by
  have hu := @free_buddies_update bits bits1 _ _ hn hp
    (by intro x hxn hx; rw [h x hxn]; simp [hx])
  have hsp := sibling_ne p
  have hs : sibling p < n := by unfold sibling; split <;> omega
  have e1 : bits1 p = true := by rw [h p hp]; simp
  have e2 : bits1 (sibling p) = bits (sibling p) := by rw [h _ hs]; simp [hsp]
  unfold is_free_buddy at hu
  rw [sibling_sibling, e1, e2, hb] at hu
  constructor
  · intro hs; rw [hs] at hu; simp at hu; omega
  · intro hs; rw [hs] at hu; simp at hu; omega

theorem free_buddies_clear {bits bits1 : Nat → Bool} {n p : Nat} (hn : n % 2 = 0) (hp : p < n)
    (hb : bits p = true) (h : ∀ x, x < n → bits1 x = (bits x && !decide (x = p))) :
    (bits (sibling p) = true → free_buddies bits1 n = free_buddies bits n + 1) ∧
    (bits (sibling p) = false → free_buddies bits1 n + 1 = free_buddies bits n) := by
  have hu := @free_buddies_update bits bits1 _ _ hn hp
    (by intro x hxn hx; rw [h x hxn]; simp [hx])
  have hsp := sibling_ne p
  have hs : sibling p < n := by unfold sibling; split <;> omega
  have e1 : bits1 p = false := by rw [h p hp]; simp
  have e2 : bits1 (sibling p) = bits (sibling p) := by rw [h _ hs]; simp [hsp]
  unfold is_free_buddy at hu
  rw [sibling_sibling, e1, e2, hb] at hu
  constructor
  · intro hs; rw [hs] at hu; simp at hu; omega
  · intro hs; rw [hs] at hu; simp at hu; omega

/-- With only the bits from `a` on set, the last block is a free buddy exactly
when `a` is odd. -/
theorem free_buddies_trailing {a n : Nat} (hn : n % 2 = 0) (han : a ≤ n) :
    free_buddies (fun t => decide (a ≤ t)) n = if a % 2 ≠ 0 then 1 else 0 := by
  by_cases hodd : a % 2 ≠ 0
  · rw [if_pos hodd]
    have hp : a - 1 < n := by omega
    have h1 := countP_range_update (P := fun _ => false)
      (Q := fun i => is_free_buddy (fun t => decide (a ≤ t)) i) (p := a - 1) (n := n) hp (by
        intro x _ hx
        unfold is_free_buddy sibling
        simp only [Bool.and_eq_false_imp, Bool.not_eq_true', decide_eq_false_iff_not,
          decide_eq_true_eq, not_le]
        intro h2
        split <;> omega)
    have h2 : is_free_buddy (fun t => decide (a ≤ t)) (a - 1) = true := by
      unfold is_free_buddy sibling
      have : (a - 1) % 2 = 0 := by omega
      simp only [this, if_true, Bool.and_eq_true, Bool.not_eq_true', decide_eq_false_iff_not,
        decide_eq_true_eq]
      omega
    beta_reduce at h1
    rw [h2] at h1
    have h3 : (List.range n).countP (fun _ => false) = 0 := by simp
    rw [h3] at h1
    unfold free_buddies
    simpa using h1
  · rw [if_neg hodd]
    unfold free_buddies
    rw [List.countP_eq_zero]
    intro i _
    unfold is_free_buddy sibling
    simp only [Bool.and_eq_true, Bool.not_eq_true', decide_eq_false_iff_not, decide_eq_true_eq,
      not_and, not_le]
    intro h2
    split <;> omega

end HtMalloc

namespace HtMalloc

/-! ## The splitting loop of mem_alloc -/

theorem class_pos_inj {R m K : Nat} (g : Geom R m K) {c c1 t t1 : Nat} (hc1 : c1 < K)
    (ht : t < 16 * words_for (class_avail R m c))
    (ht1 : t1 < 16 * words_for (class_avail R m c1))
    (h : 16 * class_offset R m c + t = 16 * class_offset R m c1 + t1) : c = c1 ∧ t = t1 := by
  rcases Nat.lt_trichotomy c c1 with h1 | h1 | h1
  · have := g.offset_succ_le h1
    omega
  · subst h1; exact ⟨rfl, by omega⟩
  · have := g.offset_succ_le h1
    omega

theorem child_real {R m : Nat} {c b0 : Nat} (h : b0 < class_avail R m (c + 1)) :
    2 * b0 + 1 < class_avail R m c := by
  rw [class_avail_succ] at h
  omega

theorem class_word_lt {R m K : Nat} (g : Geom R m K) {c t : Nat} (hc : c < K)
    (ht : t < class_avail R m c) {mem : List Nat} (hlen : mem.length = class_offset R m K) :
    class_offset R m c + t / 16 < mem.length := by
  have h1 := words_for_le (class_avail R m c)
  have h2 := g.offset_succ_le hc
  rw [hlen]
  omega

theorem split_step_eq {st : State} {i k buddy : Nat} {d mk : pooldesc}
    (h1 : st.pool[i]? = some d) (h2 : st.pool[k]? = some mk) :
    split_step k i st buddy =
      if d.size ≥ mk.size then
        match fl_bit_set st.freelist d.offset (((buddy <<< 1) % UINT + (UINT - 1)) % UINT) with
        | none => none
        | some mem =>
          some (some (⟨st.pool.set i { d with fbcou := (d.fbcou + 1) % UINT }, mem⟩,
            ((buddy <<< 1) % UINT + (UINT - 1)) % UINT))
      else some none := by
  unfold split_step
  rw [h1, h2] <;> (dsimp only; split <;> [(split <;> simp_all); rfl])

theorem split_loop_spec {R m K : Nat} (g : Geom R m K) (k : Nat) :
    ∀ d i al fb mem b0, i + 1 = k + d → i + 1 < K → b0 < class_avail R m (i + 1) →
      WordsOK mem → mem.length = class_offset R m K →
      ∃ mem1, split_loop k i ⟨pool_from R m al fb K 0, mem⟩ (b0 + 1)
          = some (⟨pool_from R m al
              (fun c => if k ≤ c ∧ c ≤ i then (fb c + 1) % UINT else fb c) K 0, mem1⟩,
            b0 * 2 ^ d + 1) ∧
        mem1.length = mem.length ∧ WordsOK mem1 ∧
        ∀ x, (mem_bit mem1 x = true ↔ (mem_bit mem x = true ∨
          ∃ c, k ≤ c ∧ c ≤ i ∧ x = 16 * class_offset R m c + b0 * 2 ^ (i + 1 - c))) := by
  intro d
  induction d with
  | zero =>
    intro i al fb mem b0 hi hiK hb0 hok hlen
    have hk : k = i + 1 := by omega
    have hstep : split_step k i ⟨pool_from R m al fb K 0, mem⟩ (b0 + 1) = some none := by
      have h1 := pool_from_get R m al fb (by omega : i < K) 0
      have h2 := pool_from_get R m al fb (by omega : k < K) 0
      rw [Nat.zero_add] at h1 h2
      rw [@split_step_eq ⟨pool_from R m al fb K 0, mem⟩ _ _ _ _ _ h1 h2]
      have := class_size_strict g.m_pos (by omega : i < k)
      rw [if_neg (by show ¬ class_size m i ≥ class_size m k; omega)]
    refine ⟨mem, ?_, rfl, hok, ?_⟩
    · have hfb : pool_from R m al (fun c => if k ≤ c ∧ c ≤ i then (fb c + 1) % UINT else fb c) K 0
          = pool_from R m al fb K 0 := by
        apply pool_from_congr
        · intros; rfl
        · intro c _ _
          rw [if_neg (by omega)]
      rw [hfb]
      cases i with
      | zero => rw [split_loop, hstep]; simp
      | succ i => rw [split_loop, hstep]; simp
    · intro x
      constructor
      · intro h; exact Or.inl h
      · rintro (h | ⟨c, h1, h2, _⟩)
        · exact h
        · omega
  | succ d ih =>
    intro i al fb mem b0 hi hiK hb0 hok hlen
    have hki : k ≤ i := by omega
    have hchild := child_real hb0
    have hav := g.avail_lt i
    have e1 : (((b0 + 1) <<< 1) % UINT + (UINT - 1)) % UINT = 2 * b0 + 1 := by
      rw [Nat.shiftLeft_eq]
      unfold UINT
      omega
    obtain ⟨mem1, hset1, hset2⟩ := @fl_bit_set_spec _ hok (class_offset R m i)
      (2 * b0 + 1) (by omega)
      (by
        have := class_word_lt g (by omega : i < K) hchild hlen
        exact this)
    have e2 : 2 * b0 + 1 - 1 = 2 * b0 := by omega
    rw [e2] at hset2
    obtain ⟨hs1, hs2, hs3⟩ := hset2
    have hpool : (pool_from R m al fb K 0).set i
        ⟨class_size m i, class_offset R m i, class_avail R m i, al i, (fb i + 1) % UINT⟩
        = pool_from R m al (Function.update fb i ((fb i + 1) % UINT)) K 0 := by
      have := pool_from_set R m al fb (by omega : i < K) 0 (al i) ((fb i + 1) % UINT)
      simp only [Nat.zero_add] at this
      rw [this, Function.update_eq_self]
    have hstep : split_step k i ⟨pool_from R m al fb K 0, mem⟩ (b0 + 1)
        = some (some (⟨pool_from R m al (Function.update fb i ((fb i + 1) % UINT)) K 0, mem1⟩,
            2 * b0 + 1)) := by
      have h1 := pool_from_get R m al fb (by omega : i < K) 0
      have h2 := pool_from_get R m al fb (by omega : k < K) 0
      rw [Nat.zero_add] at h1 h2
      rw [@split_step_eq ⟨pool_from R m al fb K 0, mem⟩ _ _ _ _ _ h1 h2]
      have := class_size_mono m hki
      rw [if_pos (by show class_size m i ≥ class_size m k; omega), e1]
      show (match fl_bit_set mem (class_offset R m i) (2 * b0 + 1) with
        | none => none
        | some mem2 => some (some ((⟨(pool_from R m al fb K 0).set i
            ⟨class_size m i, class_offset R m i, class_avail R m i, al i, (fb i + 1) % UINT⟩,
            mem2⟩ : State), 2 * b0 + 1))) = _
      rw [hset1, hpool]
    have hfbeq : ∀ (n : Nat), (n + 1 = i ∨ (i = 0 ∧ n = 0)) →
        pool_from R m al (fun c => if k ≤ c ∧ c ≤ n ∧ n + 1 = i then
            (Function.update fb i ((fb i + 1) % UINT) c + 1) % UINT
          else Function.update fb i ((fb i + 1) % UINT) c) K 0
        = pool_from R m al (fun c => if k ≤ c ∧ c ≤ i then (fb c + 1) % UINT else fb c) K 0 := by
      intro n hn
      apply pool_from_congr
      · intros; rfl
      · intro c _ _
        by_cases hci : c = i
        · subst hci
          rw [if_neg (by omega), if_pos (by omega)]
          simp
        · rw [Function.update_noteq hci]
          by_cases hc : k ≤ c ∧ c ≤ i
          · rw [if_pos hc, if_pos (by omega)]
          · rw [if_neg hc, if_neg (by omega)]
    cases i with
    | zero =>
      have hk0 : k = 0 := by omega
      have hd0 : d = 0 := by omega
      subst hd0
      subst hk0
      refine ⟨mem1, ?_, hs1, hs2, ?_⟩
      · rw [split_loop, hstep]
        dsimp only
        have hp : pool_from R m al (Function.update fb 0 ((fb 0 + 1) % UINT)) K 0
            = pool_from R m al (fun c => if 0 ≤ c ∧ c ≤ 0 then (fb c + 1) % UINT else fb c) K 0 := by
          rw [← hfbeq 0 (Or.inr ⟨rfl, rfl⟩)]
          apply pool_from_congr
          · intros; rfl
          · intro c _ _
            rw [if_neg (by omega)]
        have hb : 2 * b0 + 1 = b0 * 2 ^ (0 + 1) + 1 := by simp; omega
        rw [hp, hb]
      · intro x
        rw [hs3]
        constructor
        · intro h
          simp at h
          rcases h with h | h
          · exact Or.inl h
          · exact Or.inr ⟨0, by omega, by omega, by rw [h]; simp; omega⟩
        · rintro (h | ⟨c, h1, h2, h3⟩)
          · simp [h]
          · have : c = 0 := by omega
            subst this
            simp at h3
            simp
            right; omega
    | succ n =>
      obtain ⟨mem2, r1, r2, r3, r4⟩ := ih n al (Function.update fb (n + 1) ((fb (n + 1) + 1) % UINT))
        mem1 (2 * b0) (by omega) (by omega) (by omega) hs2 (by rw [hs1, hlen])
      refine ⟨mem2, ?_, by rw [r2, hs1], r3, ?_⟩
      · rw [split_loop, hstep]
        dsimp only
        rw [r1]
        have hp : pool_from R m al (fun c => if k ≤ c ∧ c ≤ n then
              (Function.update fb (n + 1) ((fb (n + 1) + 1) % UINT) c + 1) % UINT
            else Function.update fb (n + 1) ((fb (n + 1) + 1) % UINT) c) K 0
            = pool_from R m al
              (fun c => if k ≤ c ∧ c ≤ n + 1 then (fb c + 1) % UINT else fb c) K 0 := by
          rw [← hfbeq n (Or.inl rfl)]
          apply pool_from_congr
          · intros; rfl
          · intro c _ _
            by_cases hc : k ≤ c ∧ c ≤ n
            · rw [if_pos hc, if_pos ⟨hc.1, hc.2, rfl⟩]
            · rw [if_neg hc, if_neg (by omega)]
        have hb : 2 * b0 * 2 ^ d + 1 = b0 * 2 ^ (d + 1) + 1 := by rw [Nat.pow_succ]; ring
        rw [hp, hb]
      · intro x
        rw [r4, hs3]
        constructor
        · rintro (h | ⟨c, h1, h2, h3⟩)
          · simp at h
            rcases h with h | h
            · exact Or.inl h
            · refine Or.inr ⟨n + 1, by omega, by omega, ?_⟩
              rw [h]; simp; omega
          · refine Or.inr ⟨c, h1, by omega, ?_⟩
            rw [h3]
            have e : n + 1 + 1 - c = (n + 1 - c) + 1 := by omega
            rw [e, Nat.pow_succ]; ring
        · rintro (h | ⟨c, h1, h2, h3⟩)
          · left; simp [h]
          · by_cases hc : c = n + 1
            · subst hc
              left
              simp at h3
              simp
              right; omega
            · right
              refine ⟨c, h1, by omega, ?_⟩
              rw [h3]
              have e : n + 1 + 1 - c = (n + 1 - c) + 1 := by omega
              rw [e, Nat.pow_succ]; ring

end HtMalloc

namespace HtMalloc

/-! ## Reading the canonical table -/

section canon
variable (R m K : Nat) (al fb : Nat → Nat) (mem : List Nat)

theorem fbcou_at_pool {k : Nat} (hk : k < K) :
    fbcou_at ⟨pool_from R m al fb K 0, mem⟩ k = fb k := by
  unfold fbcou_at
  simp only [pool_from_get R m al fb hk 0, Nat.zero_add, class_desc]

theorem alloccou_at_pool {k : Nat} (hk : k < K) :
    alloccou_at ⟨pool_from R m al fb K 0, mem⟩ k = al k := by
  unfold alloccou_at
  simp only [pool_from_get R m al fb hk 0, Nat.zero_add, class_desc]

theorem size_at_pool {k : Nat} (hk : k < K) :
    size_at ⟨pool_from R m al fb K 0, mem⟩ k = class_size m k := by
  unfold size_at
  simp only [pool_from_get R m al fb hk 0, Nat.zero_add, class_desc]

theorem avail_at_pool {k : Nat} (hk : k < K) :
    avail_at ⟨pool_from R m al fb K 0, mem⟩ k = class_avail R m k := by
  unfold avail_at
  simp only [pool_from_get R m al fb hk 0, Nat.zero_add, class_desc]

theorem offset_at_pool {k : Nat} (hk : k < K) :
    offset_at ⟨pool_from R m al fb K 0, mem⟩ k = class_offset R m k := by
  unfold offset_at
  simp only [pool_from_get R m al fb hk 0, Nat.zero_add, class_desc]

theorem pool_from_canon :
    pool_from R m al fb K 0 = pool_from R m (alloccou_at ⟨pool_from R m al fb K 0, mem⟩)
      (fbcou_at ⟨pool_from R m al fb K 0, mem⟩) K 0 := by
  apply pool_from_congr
  · intro k _ hk
    rw [alloccou_at_pool R m K al fb mem (by omega)]
  · intro k _ hk
    rw [fbcou_at_pool R m K al fb mem (by omega)]

end canon

/-- Building the invariant for a state given by its counters and its bitmap. -/
theorem inv_of {R m K : Nat} {a0 : Nat → Nat} {G A : List Block} (g : Geom R m K)
    {al fb : Nat → Nat} {mem : List Nat} (hlen : mem.length = class_offset R m K)
    (hok : WordsOK mem)
    (hbits : ∀ k t, k < K → t < 16 * words_for (class_avail R m k) →
      (class_bits mem (class_offset R m k) t = true ↔ full R m (A ++ G) k t))
    (hfb : ∀ k, k < K → fb k =
      free_buddies (class_bits mem (class_offset R m k)) (16 * words_for (class_avail R m k)))
    (hal : ∀ k, k < K → al k = (a0 k + A.countP (fun b => decide (b.1 = k))) % UINT)
    (hreal : ∀ b, b ∈ A ++ G → b.1 < K ∧ b.2 < class_avail R m b.1)
    (hexcl : (A ++ G).Pairwise (fun a b => ¬ overlaps a b)) :
    Inv R m K a0 G ⟨pool_from R m al fb K 0, mem⟩ A where
  geom := g
  pool_eq := pool_from_canon R m K al fb mem
  len := hlen
  words := hok
  bits := hbits
  fb := by
    intro k hk
    rw [fbcou_at_pool R m K al fb mem hk]
    exact hfb k hk
  al := by
    intro k hk
    rw [alloccou_at_pool R m K al fb mem hk]
    exact hal k hk
  real := hreal
  excl := hexcl

theorem Inv.state_eq {R m K : Nat} {a0 : Nat → Nat} {G A : List Block} {st : State}
    (h : Inv R m K a0 G st A) :
    st = ⟨pool_from R m (alloccou_at st) (fbcou_at st) K 0, st.freelist⟩ := by
  cases st with
  | mk pool freelist =>
    have := h.pool_eq
    simp only at this
    congr

theorem bit_true_iff {a b : Bool} {p : Prop} [Decidable p] (h : a = (b || decide p)) :
    a = true ↔ (b = true ∨ p) := by
  rw [h]; simp

theorem bool_eq_or_of_iff {a b : Bool} {p : Prop} [Decidable p] (h : a = true ↔ (b = true ∨ p)) :
    a = (b || decide p) := by
  by_cases hp : p
  · simp only [hp, or_true, iff_true] at h
    simp [h, hp]
  · simp only [hp, or_false] at h
    simp only [hp, decide_False, Bool.or_false]
    cases a <;> cases b <;> simp_all

theorem bool_eq_and_of_iff {a b : Bool} {p : Prop} [Decidable p]
    (h : a = true ↔ (b = true ∧ ¬ p)) : a = (b && !decide p) := by
  by_cases hp : p
  · simp only [hp, not_true_eq_false, and_false, iff_false] at h
    simp [hp]; simpa using h
  · simp only [hp, not_false_eq_true, and_true] at h
    simp only [hp, decide_False, Bool.not_false, Bool.and_true]
    cases a <;> cases b <;> simp_all

theorem class_bits_in_range {R m K : Nat} (_g : Geom R m K) {c t : Nat} (_hc : c < K)
    (ht : t < class_avail R m c) : t < 16 * words_for (class_avail R m c) :=
  Nat.lt_of_lt_of_le ht (words_for_le _)

theorem words_even (a : Nat) : (16 * words_for a) % 2 = 0 := by omega

theorem sibling_in_range {t n : Nat} (hn : n % 2 = 0) (ht : t < n) : sibling t < n := by
  unfold sibling; split <;> omega

/-- The invariant after an allocation: the free buddy `b0` of class `j` was
taken and split down to class `k`. -/
theorem alloc_inv {R m K : Nat} {a0 : Nat → Nat} {G A : List Block} {st : State}
    (hinv : Inv R m K a0 G st A) {j k b0 : Nat} (hkj : k ≤ j) (hj : j < K)
    (hb0 : b0 < 16 * words_for (class_avail R m j))
    (hfree : is_free_buddy (class_bits st.freelist (class_offset R m j)) b0 = true)
    {mem2 : List Nat} (hlen : mem2.length = st.freelist.length) (hok : WordsOK mem2)
    (hmem : ∀ x, (mem_bit mem2 x = true ↔ (mem_bit st.freelist x = true ∨
      ∃ c, k ≤ c ∧ c ≤ j ∧ x = 16 * class_offset R m c + b0 * 2 ^ (j - c))))
    {al2 fb2 : Nat → Nat}
    (hfb2 : ∀ c, c < K → fb2 c = if c = j then (fbcou_at st c + (UINT - 1)) % UINT
      else if k ≤ c ∧ c < j then (fbcou_at st c + 1) % UINT else fbcou_at st c)
    (hal2 : ∀ c, c < K → al2 c = if c = k then (alloccou_at st c + 1) % UINT
      else alloccou_at st c) :
    Inv R m K a0 G ⟨pool_from R m al2 fb2 K 0, mem2⟩ ((k, b0 * 2 ^ (j - k)) :: A) := by
  have g := hinv.geom
  have hn := words_even (class_avail R m j)
  have hsr := sibling_in_range hn hb0
  unfold is_free_buddy at hfree
  simp only [Bool.and_eq_true, Bool.not_eq_true'] at hfree
  obtain ⟨hf1, hf2⟩ := hfree
  have hnf : ¬ full R m (A ++ G) j b0 := by
    rw [← hinv.bits j b0 hj hb0, hf1]; simp
  have hsf : full R m (A ++ G) j (sibling b0) := (hinv.bits j _ hj hsr).1 hf2
  obtain ⟨hov, hnew, hfull⟩ := alloc_block hinv.excl (fun b hb => (hinv.real b hb).2) hkj hnf hsf
  have hb0r : b0 < class_avail R m j := by
    by_contra h; exact hnf (Or.inl (Nat.le_of_not_lt h))
  -- the positions of the bits that were set
  have hpos : ∀ c, k ≤ c → c ≤ j → b0 * 2 ^ (j - c) < class_avail R m c := by
    intro c _ hc2
    exact descendant_real R m hc2 hb0r (Nat.mul_div_cancel _ (Nat.two_pow_pos _))
  have hbit : ∀ c t, c < K → t < 16 * words_for (class_avail R m c) →
      (class_bits mem2 (class_offset R m c) t = true ↔
        (class_bits st.freelist (class_offset R m c) t = true ∨
          (k ≤ c ∧ c ≤ j ∧ t = b0 * 2 ^ (j - c)))) := by
    intro c t hc ht
    unfold class_bits
    rw [hmem]
    constructor
    · rintro (h | ⟨c1, h1, h2, h3⟩)
      · exact Or.inl h
      · right
        have := class_pos_inj g (by omega : c1 < K) ht
          (class_bits_in_range g (by omega) (hpos c1 h1 h2)) h3
        obtain ⟨e1, e2⟩ := this
        subst e1
        exact ⟨h1, h2, e2⟩
    · rintro (h | ⟨h1, h2, h3⟩)
      · exact Or.inl h
      · exact Or.inr ⟨c, h1, h2, by rw [h3]⟩
  have hset : ∀ c, c < K → k ≤ c → c ≤ j → ∀ t, t < 16 * words_for (class_avail R m c) →
      class_bits mem2 (class_offset R m c) t
        = (class_bits st.freelist (class_offset R m c) t || decide (t = b0 * 2 ^ (j - c))) := by
    intro c hc h1 h2 t ht
    apply bool_eq_or_of_iff
    rw [hbit c t hc ht]
    simp [h1, h2]
  have hsame : ∀ c, c < K → ¬ (k ≤ c ∧ c ≤ j) → ∀ t, t < 16 * words_for (class_avail R m c) →
      class_bits mem2 (class_offset R m c) t = class_bits st.freelist (class_offset R m c) t := by
    intro c hc hnot t ht
    have := hbit c t hc ht
    have h3 : ¬ (k ≤ c ∧ c ≤ j ∧ t = b0 * 2 ^ (j - c)) := fun h => hnot ⟨h.1, h.2.1⟩
    simp only [h3, or_false] at this
    cases h1 : class_bits mem2 (class_offset R m c) t <;>
      cases h2 : class_bits st.freelist (class_offset R m c) t <;> simp_all
  -- the descendants of the block found were free
  have hdesc : ∀ c y, c ≤ j → c < K → y < 16 * words_for (class_avail R m c) →
      y / 2 ^ (j - c) = b0 → class_bits st.freelist (class_offset R m c) y = false := by
    intro c y hcj hc hy hyb
    cases h : class_bits st.freelist (class_offset R m c) y
    · rfl
    · exfalso
      have h1 := (hinv.bits c y hc hy).1 h
      have h2 := full_up (j - c) h1
      have e : c + (j - c) = j := by omega
      rw [e, hyb] at h2
      exact hnf h2
  have hcount : ∀ c, c < K → free_buddies (class_bits st.freelist (class_offset R m c))
      (16 * words_for (class_avail R m c)) < 32800 := by
    intro c _
    have h1 := free_buddies_le (class_bits st.freelist (class_offset R m c))
      (16 * words_for (class_avail R m c))
    have h2 := words_for_lt (class_avail R m c)
    have h3 := g.avail_lt c
    omega
  apply inv_of g (by rw [hlen, hinv.len]) hok
  · intro c t hc ht
    rw [hbit c t hc ht, hinv.bits c t hc ht, List.cons_append, hfull]
  · intro c hc
    rw [hfb2 c hc, hinv.fb c hc]
    have hcnt := hcount c hc
    by_cases hcj : c = j
    · subst hcj
      rw [if_pos rfl]
      have hs := hset c hc hkj (Nat.le_refl _)
      simp only [Nat.sub_self, pow_zero, mul_one] at hs
      have := (free_buddies_set hn hb0 hf1 hs).1 hf2
      unfold UINT
      omega
    · rw [if_neg hcj]
      by_cases hck : k ≤ c ∧ c < j
      · rw [if_pos hck]
        have hpr := class_bits_in_range g hc (hpos c hck.1 (by omega))
        have hne := words_even (class_avail R m c)
        have e1 : b0 * 2 ^ (j - c) / 2 ^ (j - c) = b0 := Nat.mul_div_cancel _ (Nat.two_pow_pos _)
        have h1 := hdesc c _ (by omega) hc hpr e1
        have h2 := hdesc c _ (by omega) hc (sibling_in_range hne hpr)
          (by rw [sibling_div_two_pow (by omega), e1])
        have hs := hset c hc hck.1 (by omega)
        have := (free_buddies_set hne hpr h1 hs).2 h2
        have hle := free_buddies_le (class_bits mem2 (class_offset R m c))
          (16 * words_for (class_avail R m c))
        have h3 := words_for_lt (class_avail R m c)
        have h4 := g.avail_lt c
        unfold UINT
        omega
      · rw [if_neg hck]
        exact (free_buddies_congr (words_even _) (hsame c hc (by omega))).symm
  · intro c hc
    rw [hal2 c hc, List.countP_cons, hinv.al c hc]
    by_cases hck : c = k
    · subst hck
      simp only [if_true, decide_True]
      rw [Nat.add_mod, Nat.mod_mod, ← Nat.add_mod, Nat.add_assoc]
    · have : ¬ (k = c) := fun e => hck e.symm
      simp only [if_neg hck, this, decide_False, Bool.false_eq_true, if_false, Nat.add_zero]
  · intro b hb
    rw [List.cons_append] at hb
    rcases List.mem_cons.1 hb with h | h
    · rw [h]; exact ⟨by simp; omega, hnew⟩
    · exact hinv.real b h
  · rw [List.cons_append, List.pairwise_cons]
    exact ⟨hov, hinv.excl⟩

end HtMalloc

namespace HtMalloc

/-! ## The paths of mem_alloc -/

theorem mem_alloc_too_big {st : State} {size k : Nat} {d : pooldesc}
    (h1 : size_match_loop st.pool size 0 = some k) (h2 : st.pool[k]? = some d)
    (h3 : d.size = 0) : mem_alloc st size = some (none, st) := by
  unfold mem_alloc
  rw [h1]; dsimp only
  rw [h2]; dsimp only
  rw [if_pos h3]

theorem mem_alloc_fast {st : State} {size k : Nat} {d : pooldesc} {mem : List Nat} {r : Nat}
    (h1 : size_match_loop st.pool size 0 = some k) (h2 : st.pool[k]? = some d)
    (h3 : d.size ≠ 0) (h4 : d.fbcou > 0)
    (h5 : fl_find_buddy st.freelist d.offset d.avail = some (mem, r)) :
    mem_alloc st size = some (some ((d.size : Int) * (((r % UINT : Nat) : Int) - 1)),
      ⟨st.pool.set k { d with fbcou := (d.fbcou + (UINT - 1)) % UINT,
                              alloccou := (d.alloccou + 1) % UINT }, mem⟩) := by
  unfold mem_alloc
  rw [h1]; dsimp only
  rw [h2]; dsimp only
  rw [if_neg h3, if_pos h4, h5]

theorem mem_alloc_exhausted {st : State} {size k i : Nat} {d t : pooldesc}
    (h1 : size_match_loop st.pool size 0 = some k) (h2 : st.pool[k]? = some d)
    (h3 : d.size ≠ 0) (h4 : ¬ d.fbcou > 0)
    (h5 : fbcou_loop (st.pool.drop (k + 1)) (k + 1) = some i) (h6 : st.pool[i]? = some t)
    (h7 : t.size = 0) : mem_alloc st size = some (none, st) := by
  unfold mem_alloc
  rw [h1]; dsimp only
  rw [h2]; dsimp only
  rw [if_neg h3, if_neg h4, h5]; dsimp only
  rw [h6]; dsimp only
  rw [if_pos h7]

theorem mem_alloc_split {st st2 : State} {size k i : Nat} {d t d2 : pooldesc} {mem : List Nat}
    {r buddy2 : Nat}
    (h1 : size_match_loop st.pool size 0 = some k) (h2 : st.pool[k]? = some d)
    (h3 : d.size ≠ 0) (h4 : ¬ d.fbcou > 0)
    (h5 : fbcou_loop (st.pool.drop (k + 1)) (k + 1) = some i) (h6 : st.pool[i]? = some t)
    (h7 : t.size ≠ 0)
    (h8 : fl_find_buddy st.freelist t.offset t.avail = some (mem, r))
    (h9 : split_loop k (i - 1)
      ⟨st.pool.set i { t with fbcou := (t.fbcou + (UINT - 1)) % UINT }, mem⟩ (r % UINT)
        = some (st2, buddy2))
    (h10 : st2.pool[k]? = some d2) :
    mem_alloc st size = some (some ((d2.size : Int) * ((buddy2 : Int) - 1)),
      ⟨st2.pool.set k { d2 with alloccou := (d2.alloccou + 1) % UINT }, st2.freelist⟩) := by
  unfold mem_alloc
  rw [h1]; dsimp only
  rw [h2]; dsimp only
  rw [if_neg h3, if_neg h4, h5]; dsimp only
  rw [h6]; dsimp only
  rw [if_neg h7, h8]; dsimp only
  rw [h9]; dsimp only
  rw [h10]

/-- With a nonzero free-buddy counter the within-class search succeeds. -/
theorem find_buddy_inv {R m K : Nat} {a0 : Nat → Nat} {G A : List Block} {st : State}
    (hinv : Inv R m K a0 G st A) {j : Nat} (hj : j < K) (hfb : fbcou_at st j ≠ 0) :
    ∃ mem1 b0, fl_find_buddy st.freelist (class_offset R m j) (class_avail R m j)
        = some (mem1, b0 + 1) ∧ (b0 + 1) % UINT = b0 + 1 ∧
      b0 < 16 * words_for (class_avail R m j) ∧
      is_free_buddy (class_bits st.freelist (class_offset R m j)) b0 = true ∧
      IsSet st.freelist mem1 (16 * class_offset R m j + b0) := by
  have g := hinv.geom
  have hav := g.avail_ge_two hj
  have hav2 := g.avail_lt j
  have hlen : class_offset R m j + words_for (class_avail R m j) ≤ st.freelist.length := by
    rw [hinv.len]; exact g.offset_succ_le hj
  obtain ⟨mem1, r, h1, h2⟩ := fl_find_buddy_spec hinv.words (by omega : 0 < class_avail R m j)
    (by omega) hlen
  rw [hinv.fb j hj] at hfb
  obtain ⟨i, hi, hfi⟩ := free_buddies_pos (Nat.pos_of_ne_zero hfb)
  rcases h2 with ⟨_, _, h3⟩ | ⟨b0, hb0, hr, hfree, hset, _, _⟩
  · rw [h3 i hi] at hfi; simp at hfi
  · refine ⟨mem1, b0, by rw [h1, hr], ?_, hb0, hfree, hset⟩
    have := words_for_lt (class_avail R m j)
    exact Nat.mod_eq_of_lt (by unfold UINT; omega)

end HtMalloc

namespace HtMalloc

theorem free_buddy_real {R m K : Nat} {a0 : Nat → Nat} {G A : List Block} {st : State}
    (hinv : Inv R m K a0 G st A) {j b0 : Nat} (hj : j < K)
    (hb0 : b0 < 16 * words_for (class_avail R m j))
    (hfree : is_free_buddy (class_bits st.freelist (class_offset R m j)) b0 = true) :
    b0 < class_avail R m j := by
  unfold is_free_buddy at hfree
  simp only [Bool.and_eq_true, Bool.not_eq_true'] at hfree
  by_contra h
  have := (hinv.bits j b0 hj hb0).2 (Or.inl (Nat.le_of_not_lt h))
  rw [hfree.1] at this
  simp at this

theorem ptr_cast (s b : Nat) : (s : Int) * (((b + 1 : Nat) : Int) - 1) = ((b * s : Nat) : Int) := by
  push_cast; ring

/-- One call of `mem_alloc` in a state that satisfies the invariant. -/
theorem mem_alloc_step_aux {R m K : Nat} {a0 : Nat → Nat} {G A : List Block}
    {al fb : Nat → Nat} {mem : List Nat}
    (hinv : Inv R m K a0 G ⟨pool_from R m al fb K 0, mem⟩ A) (size : Nat) :
    ∃ k, size_match_loop (pool_from R m al fb K 0) size 0 = some k ∧ k ≤ K ∧
      (k < K → size ≤ class_size m k) ∧ (∀ j, j < k → class_size m j < size) ∧
      ((mem_alloc ⟨pool_from R m al fb K 0, mem⟩ size
          = some (none, ⟨pool_from R m al fb K 0, mem⟩) ∧
        (k = K ∨ ∀ c, k ≤ c → c < K → fb c = 0)) ∨
       (∃ i st1, mem_alloc ⟨pool_from R m al fb K 0, mem⟩ size
          = some (some ((i * class_size m k : Nat) : Int), st1) ∧
        k < K ∧ (∃ c, k ≤ c ∧ c < K ∧ fb c ≠ 0) ∧ Inv R m K a0 G st1 ((k, i) :: A))) := by
  have g := hinv.geom
  obtain ⟨k, hk, _, hkK, hsz, hbelow⟩ := size_match_loop_spec R m g.m_pos al fb size K 0
  refine ⟨k, hk, by omega, fun h => hsz (by omega), fun j hj => hbelow j (by omega) hj, ?_⟩
  have hfbat : ∀ c, c < K → fbcou_at ⟨pool_from R m al fb K 0, mem⟩ c = fb c :=
    fun c hc => fbcou_at_pool R m K al fb mem hc
  have halat : ∀ c, c < K → alloccou_at ⟨pool_from R m al fb K 0, mem⟩ c = al c :=
    fun c hc => alloccou_at_pool R m K al fb mem hc
  by_cases hkeq : k = K
  · left
    subst hkeq
    exact ⟨@mem_alloc_too_big ⟨pool_from R m al fb k 0, mem⟩ _ _ _ hk
      (pool_from_get_last R m al fb k 0) rfl, Or.inl rfl⟩
  · have hk1 : k < K := by omega
    have hget : (pool_from R m al fb K 0)[k]? = some (class_desc R m al fb k) := by
      have := pool_from_get R m al fb hk1 0
      rwa [Nat.zero_add] at this
    have hsize : (class_desc R m al fb k).size ≠ 0 := by
      have := g.size_pos k
      show class_size m k ≠ 0
      omega
    by_cases hfbk : fb k = 0
    · have hdrop : (pool_from R m al fb K 0).drop (k + 1)
          = pool_from R m al fb (K - (k + 1)) (k + 1) := by
        have := pool_from_drop R m al fb (by omega : k + 1 ≤ K) 0
        rwa [Nat.zero_add] at this
      obtain ⟨j, hj, hj1, hj2, hj3, hj4⟩ := fbcou_loop_spec R m al fb (K - (k + 1)) (k + 1)
      rw [← hdrop] at hj
      have hfbk' : ¬ (class_desc R m al fb k).fbcou > 0 := by
        show ¬ fb k > 0
        omega
      by_cases hjK : j = K
      · left
        subst hjK
        refine ⟨@mem_alloc_exhausted ⟨pool_from R m al fb j 0, mem⟩ _ _ _ _ _ hk hget hsize hfbk' hj
          (pool_from_get_last R m al fb j 0) rfl, Or.inr ?_⟩
        intro c hc1 hc2
        by_cases hck : c = k
        · rw [hck]; exact hfbk
        · exact hj4 c (by omega) hc2
      · right
        have hjlt : j < K := by omega
        have hfbj : fb j ≠ 0 := hj3 (by omega)
        have hgetj : (pool_from R m al fb K 0)[j]? = some (class_desc R m al fb j) := by
          have := pool_from_get R m al fb hjlt 0
          rwa [Nat.zero_add] at this
        have hsizej : (class_desc R m al fb j).size ≠ 0 := by
          have := g.size_pos j
          show class_size m j ≠ 0
          omega
        obtain ⟨mem1, b0, hfind, hmod, hb0, hfree, hset⟩ :=
          find_buddy_inv hinv hjlt (by rw [hfbat j hjlt]; exact hfbj)
        have hb0r := free_buddy_real hinv hjlt hb0 hfree
        obtain ⟨j1, hj1e⟩ : ∃ j1, j = j1 + 1 := ⟨j - 1, by omega⟩
        subst hj1e
        have hpool1 : (pool_from R m al fb K 0).set (j1 + 1)
            { class_desc R m al fb (j1 + 1) with
              fbcou := ((class_desc R m al fb (j1 + 1)).fbcou + (UINT - 1)) % UINT }
            = pool_from R m al (Function.update fb (j1 + 1) ((fb (j1 + 1) + (UINT - 1)) % UINT))
                K 0 := by
          have := pool_from_set R m al fb hjlt 0 (al (j1 + 1)) ((fb (j1 + 1) + (UINT - 1)) % UINT)
          simp only [Nat.zero_add] at this
          rw [Function.update_eq_self] at this
          exact this
        obtain ⟨mem2, hsplit, hlen2, hok2, hbits2⟩ := split_loop_spec g k (j1 + 1 - k) j1 al
          (Function.update fb (j1 + 1) ((fb (j1 + 1) + (UINT - 1)) % UINT)) mem1 b0
          (by omega) hjlt hb0r hset.2.1 (by rw [hset.1]; exact hinv.len)
        have hsplit' : split_loop k (j1 + 1 - 1)
            ⟨(pool_from R m al fb K 0).set (j1 + 1)
              { class_desc R m al fb (j1 + 1) with
                fbcou := ((class_desc R m al fb (j1 + 1)).fbcou + (UINT - 1)) % UINT }, mem1⟩
            ((b0 + 1) % UINT)
            = some (⟨pool_from R m al (fun c => if k ≤ c ∧ c ≤ j1 then
                  (Function.update fb (j1 + 1) ((fb (j1 + 1) + (UINT - 1)) % UINT) c + 1) % UINT
                else Function.update fb (j1 + 1) ((fb (j1 + 1) + (UINT - 1)) % UINT) c) K 0,
                mem2⟩, b0 * 2 ^ (j1 + 1 - k) + 1) := by
          rw [hpool1, hmod, Nat.add_sub_cancel]
          exact hsplit
        have hget2 := pool_from_get R m al (fun c => if k ≤ c ∧ c ≤ j1 then
            (Function.update fb (j1 + 1) ((fb (j1 + 1) + (UINT - 1)) % UINT) c + 1) % UINT
          else Function.update fb (j1 + 1) ((fb (j1 + 1) + (UINT - 1)) % UINT) c) hk1 0
        rw [Nat.zero_add] at hget2
        have hres := @mem_alloc_split ⟨pool_from R m al fb K 0, mem⟩ _ _ _ _ _ _ _ _ _ _ hk hget hsize hfbk' hj
          hgetj hsizej hfind hsplit' hget2
        have hpool2 := pool_from_set R m al (fun c => if k ≤ c ∧ c ≤ j1 then
            (Function.update fb (j1 + 1) ((fb (j1 + 1) + (UINT - 1)) % UINT) c + 1) % UINT
          else Function.update fb (j1 + 1) ((fb (j1 + 1) + (UINT - 1)) % UINT) c) hk1 0
          ((al k + 1) % UINT) (if k ≤ k ∧ k ≤ j1 then
            (Function.update fb (j1 + 1) ((fb (j1 + 1) + (UINT - 1)) % UINT) k + 1) % UINT
          else Function.update fb (j1 + 1) ((fb (j1 + 1) + (UINT - 1)) % UINT) k)
        simp only [Nat.zero_add] at hpool2
        rw [Function.update_eq_self (f := fun c => if k ≤ c ∧ c ≤ j1 then
            (Function.update fb (j1 + 1) ((fb (j1 + 1) + (UINT - 1)) % UINT) c + 1) % UINT
          else Function.update fb (j1 + 1) ((fb (j1 + 1) + (UINT - 1)) % UINT) c)] at hpool2
        refine ⟨b0 * 2 ^ (j1 + 1 - k),
          ⟨pool_from R m (Function.update al k ((al k + 1) % UINT)) (fun c => if k ≤ c ∧ c ≤ j1 then
            (Function.update fb (j1 + 1) ((fb (j1 + 1) + (UINT - 1)) % UINT) c + 1) % UINT
          else Function.update fb (j1 + 1) ((fb (j1 + 1) + (UINT - 1)) % UINT) c) K 0, mem2⟩,
          ?_, hk1, ⟨j1 + 1, by omega, hjlt, hfbj⟩, ?_⟩
        · rw [hres]
          simp only [class_desc]
          rw [hpool2, ptr_cast]
        · apply alloc_inv hinv (by omega : k ≤ j1 + 1) hjlt hb0 hfree (by rw [hlen2, hset.1]) hok2
          · intro x
            rw [hbits2, hset.2.2]
            constructor
            · rintro (h | ⟨c, h1, h2, h3⟩)
              · simp only [Bool.or_eq_true, decide_eq_true_eq] at h
                rcases h with h | h
                · exact Or.inl h
                · exact Or.inr ⟨j1 + 1, by omega, by omega, by rw [h]; simp⟩
              · exact Or.inr ⟨c, h1, by omega, h3⟩
            · rintro (h | ⟨c, h1, h2, h3⟩)
              · left; simp [h]
              · by_cases hc : c = j1 + 1
                · subst hc
                  left
                  simp only [Nat.sub_self, pow_zero, mul_one] at h3
                  simp [h3]
                · exact Or.inr ⟨c, h1, by omega, h3⟩
          · intro c hc
            rw [hfbat c hc]
            by_cases hcj : c = j1 + 1
            · subst hcj
              rw [if_pos rfl, if_neg (by omega)]
              simp
            · rw [if_neg hcj, Function.update_noteq hcj]
              by_cases hck : k ≤ c ∧ c ≤ j1
              · rw [if_pos hck, if_pos (by omega)]
              · rw [if_neg hck, if_neg (by omega)]
          · intro c hc
            rw [halat c hc]
            by_cases hck : c = k
            · subst hck; simp
            · rw [if_neg hck, Function.update_noteq hck]
    · right
      have hfbk' : (class_desc R m al fb k).fbcou > 0 := by
        show fb k > 0
        omega
      obtain ⟨mem1, b0, hfind, hmod, hb0, hfree, hset⟩ :=
        find_buddy_inv hinv hk1 (by rw [hfbat k hk1]; exact hfbk)
      have hres := @mem_alloc_fast ⟨pool_from R m al fb K 0, mem⟩ _ _ _ _ _ hk hget hsize hfbk' hfind
      have hpool1 := pool_from_set R m al fb hk1 0 ((al k + 1) % UINT)
        ((fb k + (UINT - 1)) % UINT)
      simp only [Nat.zero_add] at hpool1
      refine ⟨b0, ⟨pool_from R m (Function.update al k ((al k + 1) % UINT))
        (Function.update fb k ((fb k + (UINT - 1)) % UINT)) K 0, mem1⟩,
        ?_, hk1, ⟨k, by omega, hk1, hfbk⟩, ?_⟩
      · rw [hres, hmod]
        simp only [class_desc]
        rw [hpool1, ptr_cast]
      · have := @alloc_inv _ _ _ _ _ _ _ hinv _ _ _ (Nat.le_refl k) hk1 hb0 hfree mem1 hset.1 hset.2.1
          (by
            intro x
            rw [hset.2.2]
            constructor
            · intro h
              simp only [Bool.or_eq_true, decide_eq_true_eq] at h
              rcases h with h | h
              · exact Or.inl h
              · exact Or.inr ⟨k, by omega, by omega, by rw [h]; simp⟩
            · rintro (h | ⟨c, h1, h2, h3⟩)
              · simp [h]
              · have : c = k := by omega
                subst this
                simp only [Nat.sub_self, pow_zero, mul_one] at h3
                simp [h3])
          (Function.update al k ((al k + 1) % UINT))
          (Function.update fb k ((fb k + (UINT - 1)) % UINT))
          (by
            intro c hc
            rw [hfbat c hc]
            by_cases hck : c = k
            · subst hck; simp
            · rw [if_neg hck, if_neg (by omega), Function.update_noteq hck])
          (by
            intro c hc
            rw [halat c hc]
            by_cases hck : c = k
            · subst hck; simp
            · rw [if_neg hck, Function.update_noteq hck])
        simp only [Nat.sub_self, pow_zero, mul_one] at this
        exact this

end HtMalloc

namespace HtMalloc

/-! ## The loops of mem_free -/

theorem block_number_nat (n s : Nat) (h : n / s < 65536) :
    block_number ((n : Nat) : Int) s = n / s := by
  unfold block_number
  rw [← Int.ofNat_tdiv]
  have : ((n / s : Nat) : Int) % ((UINT : Nat) : Int) = (((n / s) % UINT : Nat) : Int) := by
    rw [Int.ofNat_emod]
  rw [this, Int.toNat_ofNat]
  exact Nat.mod_eq_of_lt (by unfold UINT; exact h)

/-- The block number of an ancestor class. -/
theorem block_number_up {m : Nat} (hm : 0 < m) {k c i : Nat} (hkc : k ≤ c) (hi : i < 65536) :
    block_number ((i * class_size m k : Nat) : Int) (class_size m c) = i / 2 ^ (c - k) := by
  have e : class_size m c = class_size m k * 2 ^ (c - k) := by
    rw [← class_size_add]; congr 1; omega
  have h1 : i * class_size m k / class_size m c = i / 2 ^ (c - k) := by
    rw [e, ← Nat.div_div_eq_div_mul, Nat.mul_div_cancel _ (class_size_pos hm k)]
  rw [block_number_nat _ _ (by rw [h1]; exact Nat.lt_of_le_of_lt (Nat.div_le_self _ _) hi), h1]

/-- The block number at a smaller class: the left-most descendant. -/
theorem block_number_down {m : Nat} (hm : 0 < m) {k c i : Nat} (hck : c ≤ k)
    (hi : i * 2 ^ (k - c) < 65536) :
    block_number ((i * class_size m k : Nat) : Int) (class_size m c) = i * 2 ^ (k - c) := by
  have e : class_size m k = class_size m c * 2 ^ (k - c) := by
    rw [← class_size_add]; congr 1; omega
  have h1 : i * class_size m k / class_size m c = i * 2 ^ (k - c) := by
    rw [e, Nat.mul_comm (class_size m c), ← Nat.mul_assoc,
      Nat.mul_div_cancel _ (class_size_pos hm c)]
  rw [block_number_nat _ _ (by rw [h1]; exact hi), h1]

theorem mem_free_find_spec {R m K : Nat} (g : Geom R m K) (al fb : Nat → Nat) (x : Nat → Nat)
    (poi : Int) {mem : List Nat} (hok : WordsOK mem) (hlen : mem.length = class_offset R m K)
    {k : Nat} (hk : k < K)
    (hx : ∀ c, c ≤ k → block_number poi (class_size m c) = x c)
    (hreal : ∀ c, c ≤ k → x c < class_avail R m c)
    (hzero : ∀ c, c < k → class_bits mem (class_offset R m c) (x c) = false)
    (hone : class_bits mem (class_offset R m k) (x k) = true) :
    ∀ n c, c + n = K → c ≤ k →
      mem_free_find (pool_from R m al fb n c) mem poi c = some (k, true) := by
  intro n
  induction n with
  | zero => intro c h1 h2; omega
  | succ n ih =>
    intro c h1 h2
    have hcK : c < K := by omega
    have hsz := g.size_pos c
    obtain ⟨r, hr1, hr2⟩ := @fl_bit_state_spec _ hok (class_offset R m c) (x c)
      (class_word_lt g hcK (hreal c h2) hlen)
    rw [pool_from, mem_free_find]
    simp only [class_desc]
    rw [if_pos (by omega), hx c h2, hr1]
    dsimp only
    by_cases hck : c = k
    · subst hck
      rw [if_pos (hr2.2 hone)]
    · have : ¬ r ≠ 0 := by
        intro h
        have := hr2.1 h
        rw [hzero c (by omega)] at this
        simp at this
      rw [if_neg this]
      exact ih (c + 1) (by omega) (by omega)

theorem reached_self (sb : Nat → Bool) (k : Nat) : Reached sb k k :=
  ⟨Nat.le_refl _, fun c1 h1 h2 => by omega⟩

theorem reached_iff (sb : Nat → Bool) (k c : Nat) :
    Reached sb k c ↔ (k ≤ c ∧ ∀ c1, k ≤ c1 → c1 < c → sb c1 = false) := by
  unfold Reached
  constructor
  · rintro ⟨h1, h2⟩; exact ⟨h1, fun c1 h3 h4 => h2 c1 h4 h3⟩
  · rintro ⟨h1, h2⟩; exact ⟨h1, fun c1 h3 h4 => h2 c1 h4 h3⟩

theorem reached_succ_iff {sb : Nat → Bool} {c c1 : Nat} (h : sb c = false) :
    Reached sb c c1 ↔ (c1 = c ∨ Reached sb (c + 1) c1) := by
  rw [reached_iff, reached_iff]
  constructor
  · rintro ⟨h1, h2⟩
    by_cases hc : c1 = c
    · exact Or.inl hc
    · exact Or.inr ⟨by omega, fun c2 h3 h4 => h2 c2 (by omega) h4⟩
  · rintro (h1 | ⟨h1, h2⟩)
    · subst h1; exact ⟨Nat.le_refl _, fun c1 h1 h2 => by omega⟩
    · refine ⟨by omega, fun c2 h3 h4 => ?_⟩
      by_cases hc : c2 = c
      · subst hc; exact h
      · exact h2 c2 (by omega) h4

theorem reached_stop_iff {sb : Nat → Bool} {c c1 : Nat} (h : sb c = true) :
    Reached sb c c1 ↔ c1 = c := by
  rw [reached_iff]
  constructor
  · rintro ⟨h1, h2⟩
    by_contra hc
    have := h2 c (Nat.le_refl _) (by omega)
    rw [h] at this; simp at this
  · intro h1; subst h1; exact ⟨Nat.le_refl _, fun c1 h1 h2 => by omega⟩

/-- The coalescing loop of `mem_free`, run from class `c` on: it clears the bit
of the block at every class the walk reaches and adjusts `fbcou` there. -/
theorem mem_free_up_spec {R m K : Nat} (g : Geom R m K) (al : Nat → Nat) (x : Nat → Nat)
    (sb : Nat → Bool) (poi : Int) :
    ∀ n c fb mem, c + n = K → WordsOK mem → mem.length = class_offset R m K →
      (∀ c1, c ≤ c1 → c1 < K → block_number poi (class_size m c1) = x c1) →
      (∀ c1, c1 < K → Reached sb c c1 → x c1 < class_avail R m c1) →
      (∀ c1, c ≤ c1 → c1 < K → x c1 < class_avail R m c1 →
        class_bits mem (class_offset R m c1) (sibling (x c1)) = sb c1) →
      ∃ mem1, mem_free_up (pool_from R m al fb n c) mem poi
          = some (pool_from R m al (fun c1 => if c1 < K ∧ Reached sb c c1 then
              (if sb c1 = true then (fb c1 + 1) % UINT else (fb c1 + (UINT - 1)) % UINT)
            else fb c1) n c, mem1) ∧
        mem1.length = mem.length ∧ WordsOK mem1 ∧
        (∀ y, mem_bit mem1 y = true ↔ (mem_bit mem y = true ∧
          ¬ ∃ c1, c1 < K ∧ Reached sb c c1 ∧ y = 16 * class_offset R m c1 + x c1)) := by
  intro n
  induction n with
  | zero =>
    intro c fb mem hc hok hlen hx hreal hsb
    refine ⟨mem, ?_, rfl, hok, ?_⟩
    · simp [pool_from, mem_free_up, sentinel]
    · intro y
      constructor
      · intro h
        refine ⟨h, ?_⟩
        rintro ⟨c1, h1, h2, _⟩
        have := h2.1
        omega
      · intro h; exact h.1
  | succ n ih =>
    intro c fb mem hc hok hlen hx hreal hsb
    have hcK : c < K := by omega
    have hsz := g.size_pos c
    have hxr := hreal c hcK (reached_self sb c)
    have hxin := class_bits_in_range g hcK hxr
    obtain ⟨mem1, r, hf1, hf2, hf3⟩ := @fl_free_buddy_spec _ hok (class_offset R m c)
      (x c) (class_word_lt g hcK hxr hlen)
    rw [hsb c (Nat.le_refl _) hcK hxr] at hf3
    obtain ⟨hc1, hc2, hc3⟩ := hf2
    rw [pool_from, mem_free_up]
    simp only [class_desc]
    rw [if_pos (by omega), hx c (Nat.le_refl _) hcK, hf1]
    dsimp only
    by_cases hs : sb c = true
    · rw [if_pos (hf3.2 hs)]
      refine ⟨mem1, ?_, hc1, hc2, ?_⟩
      · rw [pool_from]
        have htail : pool_from R m al fb n (c + 1) = pool_from R m al
            (fun c1 => if c1 < K ∧ Reached sb c c1 then
              (if sb c1 = true then (fb c1 + 1) % UINT else (fb c1 + (UINT - 1)) % UINT)
            else fb c1) n (c + 1) := by
          apply pool_from_congr
          · intros; rfl
          · intro c1 h1 _
            rw [if_neg]
            rintro ⟨_, h3⟩
            have := (reached_stop_iff hs).1 h3
            omega
        rw [← htail]
        simp only [class_desc]
        rw [if_pos ⟨hcK, reached_self sb c⟩, if_pos hs]
      · intro y
        rw [hc3]
        simp only [Bool.and_eq_true, Bool.not_eq_true', decide_eq_false_iff_not]
        constructor
        · rintro ⟨h1, h2⟩
          refine ⟨h1, ?_⟩
          rintro ⟨c1, _, h4, h5⟩
          have := (reached_stop_iff hs).1 h4
          subst this
          exact h2 h5
        · rintro ⟨h1, h2⟩
          exact ⟨h1, fun h3 => h2 ⟨c, hcK, reached_self sb c, h3⟩⟩
    · have hs0 : sb c = false := by
        cases h : sb c
        · rfl
        · exact absurd h hs
      have hr0 : ¬ r ≠ 0 := by
        intro h
        exact hs (hf3.1 h)
      rw [if_neg hr0]
      obtain ⟨mem2, h1, h2, h3, h4⟩ := ih (c + 1) fb mem1 (by omega) hc2 (by rw [hc1, hlen])
        (fun c1 h5 h6 => hx c1 (by omega) h6)
        (fun c1 h5 h6 => hreal c1 h5 ((reached_succ_iff hs0).2 (Or.inr h6)))
        (by
          intro c1 h5 h6 h7
          unfold class_bits
          rw [hc3]
          have hne : ¬ (16 * class_offset R m c1 + sibling (x c1)
              = 16 * class_offset R m c + x c) := by
            intro e
            have h8 := class_bits_in_range g h6 h7
            have h9 := sibling_in_range (words_even _) h8
            have := class_pos_inj g hcK h9 hxin e
            omega
          simp only [hne, decide_False, Bool.not_false, Bool.and_true]
          exact hsb c1 (by omega) h6 h7)
      refine ⟨mem2, ?_, by rw [h2, hc1], h3, ?_⟩
      · rw [h1]
        dsimp only
        rw [pool_from]
        have htail : pool_from R m al (fun c1 => if c1 < K ∧ Reached sb (c + 1) c1 then
              (if sb c1 = true then (fb c1 + 1) % UINT else (fb c1 + (UINT - 1)) % UINT)
            else fb c1) n (c + 1) = pool_from R m al
            (fun c1 => if c1 < K ∧ Reached sb c c1 then
              (if sb c1 = true then (fb c1 + 1) % UINT else (fb c1 + (UINT - 1)) % UINT)
            else fb c1) n (c + 1) := by
          apply pool_from_congr
          · intros; rfl
          · intro c1 h5 _
            have : Reached sb c c1 ↔ Reached sb (c + 1) c1 := by
              rw [reached_succ_iff hs0]
              constructor
              · rintro (h | h)
                · omega
                · exact h
              · intro h; exact Or.inr h
            simp only [this]
        rw [htail]
        simp only [class_desc]
        rw [if_pos ⟨hcK, reached_self sb c⟩, if_neg hs]
      · intro y
        rw [h4, hc3]
        simp only [Bool.and_eq_true, Bool.not_eq_true', decide_eq_false_iff_not]
        constructor
        · rintro ⟨⟨h5, h6⟩, h7⟩
          refine ⟨h5, ?_⟩
          rintro ⟨c1, h8, h9, h10⟩
          rcases (reached_succ_iff hs0).1 h9 with h11 | h11
          · subst h11; exact h6 h10
          · exact h7 ⟨c1, h8, h11, h10⟩
        · rintro ⟨h5, h6⟩
          refine ⟨⟨h5, fun h7 => h6 ⟨c, hcK, reached_self sb c, h7⟩⟩, ?_⟩
          rintro ⟨c1, h8, h9, h10⟩
          exact h6 ⟨c1, h8, (reached_succ_iff hs0).2 (Or.inr h9), h10⟩

end HtMalloc

namespace HtMalloc

/-! ## mem_free preserves the invariant -/

theorem mem_free_eq {st : State} {poi : Int} {k : Nat} {d : pooldesc}
    {rest : List pooldesc} {mem : List Nat}
    (h1 : mem_free_find st.pool st.freelist poi 0 = some (k, true))
    (h2 : st.pool[k]? = some d)
    (h3 : mem_free_up
      ((st.pool.set k { d with alloccou := (d.alloccou + (UINT - 1)) % UINT }).drop k)
      st.freelist poi = some (rest, mem)) :
    mem_free st poi = some
      ⟨(st.pool.set k { d with alloccou := (d.alloccou + (UINT - 1)) % UINT }).take k ++ rest,
        mem⟩ := by
  unfold mem_free
  rw [h1]; dsimp only
  rw [h2]; dsimp only
  rw [if_pos rfl, h3]

/-- No allocated block lies strictly inside an allocated block. -/
theorem not_covered_below {A : List Block} (hpw : A.Pairwise (fun a b => ¬ overlaps a b))
    {k i : Nat} (hmem : (k, i) ∈ A) {c : Nat} (hc : c < k) {y : Nat}
    (hy : y / 2 ^ (k - c) = i) : ¬ covered A c y := by
  rintro ⟨b, hb, hcov⟩
  have h1 := covers_up (k - c) hcov
  have e : c + (k - c) = k := by omega
  rw [e, hy] at h1
  have := eq_of_overlaps hpw hb hmem (Or.inl h1)
  have h2 := hcov.1
  rw [this] at h2
  simp only at h2
  omega

theorem reached_real {R m : Nat} {A : List Block} {sb : Nat → Bool} {k i : Nat}
    (hi : i < class_avail R m k)
    (hsb : ∀ c, sb c = false → ¬ full R m A c (sibling (i / 2 ^ (c - k)))) :
    ∀ d, Reached sb k (k + d) → i / 2 ^ d < class_avail R m (k + d) := by
  intro d
  induction d with
  | zero => intro _; simpa using hi
  | succ d ih =>
    intro hr
    rw [reached_iff] at hr
    have h1 : Reached sb k (k + d) := by
      rw [reached_iff]
      exact ⟨by omega, fun c1 h2 h3 => hr.2 c1 h2 (by omega)⟩
    have h2 := ih h1
    have h3 := hsb (k + d) (hr.2 (k + d) (by omega) (by omega))
    rw [Nat.add_sub_cancel_left] at h3
    have h4 : sibling (i / 2 ^ d) < class_avail R m (k + d) := by
      by_contra h
      exact h3 (Or.inl (Nat.le_of_not_lt h))
    have e1 : i / 2 ^ (d + 1) = i / 2 ^ d / 2 := by
      rw [← div_two_pow_add]; simp
    have e2 : k + (d + 1) = (k + d) + 1 := by omega
    rw [e1, e2, class_avail_succ]
    unfold sibling at h4
    split at h4 <;> omega

theorem bool_eq_of_iff {a b : Bool} (h : a = true ↔ b = true) : a = b := by
  cases a <;> cases b <;> simp_all

/-- The invariant after a free: the bits of the freed block and of the
ancestors that the walk reached were cleared. -/
theorem free_inv {R m K : Nat} {a0 : Nat → Nat} {G A1 A2 : List Block} {st : State} {k i : Nat}
    (hinv : Inv R m K a0 G st (A1 ++ (k, i) :: A2)) {sb : Nat → Bool}
    (hsbdef : ∀ c, sb c = true ↔
      full R m (A1 ++ (k, i) :: (A2 ++ G)) c (sibling (i / 2 ^ (c - k))))
    {mem1 : List Nat} (hlen1 : mem1.length = st.freelist.length) (hok1 : WordsOK mem1)
    (hbits1 : ∀ y, mem_bit mem1 y = true ↔ (mem_bit st.freelist y = true ∧
      ¬ ∃ c1, c1 < K ∧ Reached sb k c1 ∧ y = 16 * class_offset R m c1 + i / 2 ^ (c1 - k)))
    {al1 fb1 : Nat → Nat}
    (hfb1 : ∀ c, c < K → fb1 c = if Reached sb k c then
        (if sb c = true then (fbcou_at st c + 1) % UINT else (fbcou_at st c + (UINT - 1)) % UINT)
      else fbcou_at st c)
    (hal1 : ∀ c, c < K → al1 c = if c = k then (alloccou_at st c + (UINT - 1)) % UINT
      else alloccou_at st c) :
    Inv R m K a0 G ⟨pool_from R m al1 fb1 K 0, mem1⟩ (A1 ++ A2) := by
  have g := hinv.geom
  have hassoc : (A1 ++ (k, i) :: A2) ++ G = A1 ++ (k, i) :: (A2 ++ G) := by
    rw [List.append_assoc, List.cons_append]
  have hassoc2 : (A1 ++ A2) ++ G = A1 ++ (A2 ++ G) := List.append_assoc _ _ _
  have hpw := hinv.excl
  rw [hassoc] at hpw
  have hmemb : (k, i) ∈ A1 ++ (k, i) :: (A2 ++ G) :=
    List.mem_append.2 (Or.inr (List.mem_cons_self _ _))
  have hkr := hinv.real (k, i) (by rw [hassoc]; exact hmemb)
  simp only at hkr
  obtain ⟨hkK, hi⟩ := hkr
  have hbits := hinv.bits
  rw [hassoc] at hbits
  obtain ⟨hfa, hfb⟩ := free_block (R := R) (m := m) hpw hi
  have hsbf : ∀ c, sb c = false →
      ¬ full R m (A1 ++ (k, i) :: (A2 ++ G)) c (sibling (i / 2 ^ (c - k))) := by
    intro c h hf
    rw [(hsbdef c).2 hf] at h
    simp at h
  have hreach : ∀ c, c < K → Reached sb k c → i / 2 ^ (c - k) < class_avail R m c := by
    intro c _ hr
    have hkc := hr.1
    have := reached_real hi hsbf (c - k) (by
      have e : k + (c - k) = c := by omega
      rw [e]; exact hr)
    have e : k + (c - k) = c := by omega
    rw [e] at this
    exact this
  have hchain : ∀ c, k ≤ c → c < K →
      (full R m (A1 ++ (A2 ++ G)) c (i / 2 ^ (c - k)) ↔ ¬ Reached sb k c) := by
    intro c hkc _
    rw [hfb c hkc, reached_iff]
    constructor
    · rintro ⟨c1, h1, h2, h3⟩ ⟨_, h4⟩
      have := h4 c1 h1 h2
      rw [(hsbdef c1).2 h3] at this
      simp at this
    · intro h
      by_contra hne
      apply h
      refine ⟨hkc, fun c1 h1 h2 => ?_⟩
      cases h3 : sb c1
      · rfl
      · exact absurd ⟨c1, h1, h2, (hsbdef c1).1 h3⟩ hne
  have hbit1 : ∀ c t, c < K → t < 16 * words_for (class_avail R m c) →
      (class_bits mem1 (class_offset R m c) t = true ↔
        (class_bits st.freelist (class_offset R m c) t = true ∧
          ¬ (Reached sb k c ∧ t = i / 2 ^ (c - k)))) := by
    intro c t hc ht
    unfold class_bits
    rw [hbits1]
    constructor
    · rintro ⟨h1, h2⟩
      exact ⟨h1, fun h3 => h2 ⟨c, hc, h3.1, by rw [h3.2]⟩⟩
    · rintro ⟨h1, h2⟩
      refine ⟨h1, ?_⟩
      rintro ⟨c1, h3, h4, h5⟩
      have := class_pos_inj g h3 ht (class_bits_in_range g h3 (hreach c1 h3 h4)) h5
      obtain ⟨e1, e2⟩ := this
      subst e1
      exact h2 ⟨h4, e2⟩
  apply inv_of g (by rw [hlen1]; exact hinv.len) hok1
  · intro c t hc ht
    rw [hbit1 c t hc ht, hbits c t hc ht, hassoc2]
    by_cases hon : k ≤ c ∧ t = i / 2 ^ (c - k)
    · obtain ⟨hkc, hte⟩ := hon
      rw [hte, hchain c hkc hc]
      have hcov : full R m (A1 ++ (k, i) :: (A2 ++ G)) c (i / 2 ^ (c - k)) :=
        Or.inr ⟨(k, i), hmemb, hkc, rfl⟩
      constructor
      · rintro ⟨_, h2⟩ h3
        exact h2 ⟨h3, rfl⟩
      · intro h
        exact ⟨hcov, fun h3 => h h3.1⟩
    · rw [hfa c t hon]
      constructor
      · intro h; exact h.1
      · intro h
        refine ⟨h, ?_⟩
        rintro ⟨h1, h2⟩
        exact hon ⟨h1.1, h2⟩
  · intro c hc
    have hcnt := free_buddies_le (class_bits st.freelist (class_offset R m c))
      (16 * words_for (class_avail R m c))
    have hw := words_for_lt (class_avail R m c)
    have hav := g.avail_lt c
    have hfbc := hinv.fb c hc
    rw [hfb1 c hc, hfbc]
    by_cases hr : Reached sb k c
    · rw [if_pos hr]
      have hxr := hreach c hc hr
      have hxin := class_bits_in_range g hc hxr
      have hone : class_bits st.freelist (class_offset R m c) (i / 2 ^ (c - k)) = true := by
        rw [hbits c _ hc hxin]
        exact Or.inr ⟨(k, i), hmemb, hr.1, rfl⟩
      have hclr : ∀ t, t < 16 * words_for (class_avail R m c) →
          class_bits mem1 (class_offset R m c) t
            = (class_bits st.freelist (class_offset R m c) t
                && !decide (t = i / 2 ^ (c - k))) := by
        intro t ht
        apply bool_eq_and_of_iff
        rw [hbit1 c t hc ht]
        constructor
        · rintro ⟨h1, h2⟩; exact ⟨h1, fun h3 => h2 ⟨hr, h3⟩⟩
        · rintro ⟨h1, h2⟩; exact ⟨h1, fun h3 => h2 h3.2⟩
      have hcl := free_buddies_clear (words_even _) hxin hone hclr
      have hsib : class_bits st.freelist (class_offset R m c) (sibling (i / 2 ^ (c - k)))
          = sb c := by
        have hin := sibling_in_range (words_even _) hxin
        apply bool_eq_of_iff
        rw [hbits c _ hc hin, hsbdef c]
      rw [hsib] at hcl
      by_cases hs : sb c = true
      · rw [if_pos hs]
        have := hcl.1 hs
        have hle := free_buddies_le (class_bits mem1 (class_offset R m c))
          (16 * words_for (class_avail R m c))
        unfold UINT
        omega
      · rw [if_neg hs]
        have hs0 : sb c = false := by
          cases h : sb c
          · rfl
          · exact absurd h hs
        have := hcl.2 hs0
        unfold UINT
        omega
    · rw [if_neg hr]
      apply (free_buddies_congr (words_even _) _).symm
      intro t ht
      apply bool_eq_of_iff
      rw [hbit1 c t hc ht]
      constructor
      · intro h; exact h.1
      · intro h; exact ⟨h, fun h3 => hr h3.1⟩
  · intro c hc
    have halc := hinv.al c hc
    rw [List.countP_append, List.countP_cons] at halc
    rw [List.countP_append, hal1 c hc, halc]
    by_cases hck : c = k
    · subst hck
      simp only [decide_True, if_true]
      unfold UINT
      omega
    · have : ¬ (k = c) := fun e => hck e.symm
      simp only [this, hck, decide_False, Bool.false_eq_true, if_false, Nat.add_zero]
  · intro b hb
    apply hinv.real b
    rw [hassoc]
    rw [hassoc2] at hb
    rcases List.mem_append.1 hb with h | h
    · exact List.mem_append.2 (Or.inl h)
    · exact List.mem_append.2 (Or.inr (List.mem_cons_of_mem _ h))
  · rw [hassoc2]
    rw [List.pairwise_append] at hpw ⊢
    obtain ⟨h1, h2, h3⟩ := hpw
    exact ⟨h1, (List.pairwise_cons.1 h2).2,
      fun a ha b hb => h3 a ha b (List.mem_cons_of_mem _ hb)⟩

/-- One call of `mem_free` on the pointer of an allocated block, in a state
that satisfies the invariant. -/
theorem mem_free_step_aux {R m K : Nat} {a0 : Nat → Nat} {G A1 A2 : List Block}
    {al fb : Nat → Nat} {mem : List Nat} {k i : Nat}
    (hinv : Inv R m K a0 G ⟨pool_from R m al fb K 0, mem⟩ (A1 ++ (k, i) :: A2)) :
    ∃ st1, mem_free ⟨pool_from R m al fb K 0, mem⟩ ((i * class_size m k : Nat) : Int) = some st1 ∧
      Inv R m K a0 G st1 (A1 ++ A2) := by
  classical
  have g := hinv.geom
  have hassoc : (A1 ++ (k, i) :: A2) ++ G = A1 ++ (k, i) :: (A2 ++ G) := by
    rw [List.append_assoc, List.cons_append]
  have hpw := hinv.excl
  rw [hassoc] at hpw
  have hmemb : (k, i) ∈ A1 ++ (k, i) :: (A2 ++ G) :=
    List.mem_append.2 (Or.inr (List.mem_cons_self _ _))
  have hkr := hinv.real (k, i) (by rw [hassoc]; exact hmemb)
  simp only at hkr
  obtain ⟨hkK, hi⟩ := hkr
  have hbits := hinv.bits
  rw [hassoc] at hbits
  simp only at hbits
  have hi16 : i < 65536 := by have := g.avail_lt k; omega
  have hfbat : ∀ c, c < K → fbcou_at ⟨pool_from R m al fb K 0, mem⟩ c = fb c :=
    fun c hc => fbcou_at_pool R m K al fb mem hc
  have halat : ∀ c, c < K → alloccou_at ⟨pool_from R m al fb K 0, mem⟩ c = al c :=
    fun c hc => alloccou_at_pool R m K al fb mem hc
  -- the block number at every class
  obtain ⟨x, hxdef⟩ : ∃ x : Nat → Nat, ∀ c, x c = if k ≤ c then i / 2 ^ (c - k)
      else i * 2 ^ (k - c) := ⟨_, fun _ => rfl⟩
  have hxup : ∀ c, k ≤ c → x c = i / 2 ^ (c - k) := fun c h => by rw [hxdef, if_pos h]
  have hxdn : ∀ c, c ≤ k → x c = i * 2 ^ (k - c) := by
    intro c h
    by_cases hck : c = k
    · subst hck; rw [hxup c (Nat.le_refl _)]; simp
    · rw [hxdef, if_neg (by omega)]
  have hxk : x k = i := by rw [hxup k (Nat.le_refl _)]; simp
  have hdnreal : ∀ c, c ≤ k → x c < class_avail R m c := by
    intro c hc
    rw [hxdn c hc]
    exact descendant_real R m hc hi (Nat.mul_div_cancel _ (Nat.two_pow_pos _))
  have hx : ∀ c, c < K → block_number ((i * class_size m k : Nat) : Int) (class_size m c) = x c := by
    intro c _
    by_cases hkc : k ≤ c
    · rw [hxup c hkc]; exact block_number_up g.m_pos hkc hi16
    · have h1 := hdnreal c (by omega)
      have h2 := g.avail_lt c
      rw [hxdn c (by omega)] at h1 ⊢
      exact block_number_down g.m_pos (by omega) (by omega)
  -- class discovery
  have hfind := @mem_free_find_spec _ _ _ g al fb x ((i * class_size m k : Nat) : Int)
    mem hinv.words hinv.len _ hkK (fun c hc => hx c (by omega)) hdnreal
    (by
      intro c hc
      cases h : class_bits mem (class_offset R m c) (x c)
      · rfl
      · exfalso
        have h1 := (hbits c (x c) (by omega)
          (class_bits_in_range g (by omega) (hdnreal c (by omega)))).1 h
        rcases h1 with h1 | h1
        · have := hdnreal c (by omega); omega
        · refine not_covered_below hpw hmemb hc ?_ h1
          rw [hxdn c (by omega)]
          exact Nat.mul_div_cancel _ (Nat.two_pow_pos _))
    (by
      rw [hxk]
      exact (hbits k i hkK (class_bits_in_range g hkK hi)).2
        (Or.inr ⟨(k, i), hmemb, covers_self _⟩))
    K 0 (by omega) (by omega)
  have hget : (pool_from R m al fb K 0)[k]? = some (class_desc R m al fb k) := by
    have := pool_from_get R m al fb hkK 0
    rwa [Nat.zero_add] at this
  have hpool1 := pool_from_set R m al fb hkK 0 ((al k + (UINT - 1)) % UINT) (fb k)
  simp only [Nat.zero_add] at hpool1
  rw [Function.update_eq_self] at hpool1
  have hdrop := pool_from_drop R m (Function.update al k ((al k + (UINT - 1)) % UINT)) fb
    (Nat.le_of_lt hkK) 0
  rw [Nat.zero_add] at hdrop
  -- the sibling bits met by the walk
  obtain ⟨sb, hsbdef⟩ : ∃ sb : Nat → Bool, ∀ c, sb c = true ↔
      full R m (A1 ++ (k, i) :: (A2 ++ G)) c (sibling (i / 2 ^ (c - k))) :=
    ⟨fun c => decide (full R m (A1 ++ (k, i) :: (A2 ++ G)) c (sibling (i / 2 ^ (c - k)))),
      fun c => by simp⟩
  have hsbf : ∀ c, sb c = false →
      ¬ full R m (A1 ++ (k, i) :: (A2 ++ G)) c (sibling (i / 2 ^ (c - k))) := by
    intro c h hf
    rw [(hsbdef c).2 hf] at h
    simp at h
  have hreach : ∀ c, c < K → Reached sb k c → x c < class_avail R m c := by
    intro c _ hr
    have hkc := hr.1
    have := reached_real hi hsbf (c - k) (by
      have e : k + (c - k) = c := by omega
      rw [e]; exact hr)
    have e : k + (c - k) = c := by omega
    rw [e] at this
    rw [hxup c hkc]; exact this
  obtain ⟨mem1, hup, hlen1, hok1, hbits1⟩ := mem_free_up_spec g
    (Function.update al k ((al k + (UINT - 1)) % UINT)) x sb ((i * class_size m k : Nat) : Int)
    (K - k) k fb mem (by omega) hinv.words hinv.len (fun c _ hc => hx c hc) hreach
    (by
      intro c hkc hc hr
      have hin := sibling_in_range (words_even _) (class_bits_in_range g hc hr)
      apply bool_eq_of_iff
      rw [hbits c (sibling (x c)) hc hin, hxup c hkc, hsbdef c])
  have hres := @mem_free_eq ⟨pool_from R m al fb K 0, mem⟩ _ _ _
    (pool_from R m (Function.update al k ((al k + (UINT - 1)) % UINT))
      (fun c1 => if c1 < K ∧ Reached sb k c1 then
          (if sb c1 = true then (fb c1 + 1) % UINT else (fb c1 + (UINT - 1)) % UINT)
        else fb c1) (K - k) k)
    mem1 hfind hget
    (by
      simp only [class_desc]
      rw [hpool1, hdrop]
      exact hup)
  have happ := @pool_from_take_append R m (Function.update al k ((al k + (UINT - 1)) % UINT)) fb
    (fun c1 => if c1 < K ∧ Reached sb k c1 then
          (if sb c1 = true then (fb c1 + 1) % UINT else (fb c1 + (UINT - 1)) % UINT)
        else fb c1) _ _ (Nat.le_of_lt hkK)
    (by
      intro c hc
      beta_reduce
      rw [if_neg]
      rintro ⟨_, h⟩
      have := h.1
      omega)
  simp only [class_desc] at hres
  rw [hpool1, happ] at hres
  refine ⟨_, hres, ?_⟩
  apply free_inv hinv hsbdef hlen1 hok1
  · intro y
    rw [hbits1 y]
    constructor
    · rintro ⟨h1, h2⟩
      refine ⟨h1, ?_⟩
      rintro ⟨c1, h3, h4, h5⟩
      exact h2 ⟨c1, h3, h4, by rw [h5, hxup c1 h4.1]⟩
    · rintro ⟨h1, h2⟩
      refine ⟨h1, ?_⟩
      rintro ⟨c1, h3, h4, h5⟩
      exact h2 ⟨c1, h3, h4, by rw [h5, hxup c1 h4.1]⟩
  · intro c hc
    rw [hfbat c hc]
    by_cases hr : Reached sb k c
    · rw [if_pos ⟨hc, hr⟩, if_pos hr]
    · rw [if_neg (fun h => hr h.2), if_neg hr]
  · intro c hc
    rw [halat c hc]
    by_cases hck : c = k
    · subst hck; simp
    · rw [if_neg hck, Function.update_noteq hck]

end HtMalloc

namespace HtMalloc

/-! ## What a successful mem_init tells -/

theorem exp_of_2_loop_fuel_mono :
    ∀ fuel base exponent number r, exp_of_2_loop fuel base exponent number = some r →
      ∀ d, exp_of_2_loop (fuel + d) base exponent number = some r := by
  intro fuel
  induction fuel with
  | zero => intro base exponent number r h; simp [exp_of_2_loop] at h
  | succ fuel ih =>
    intro base exponent number r h d
    have e : fuel + 1 + d = (fuel + d) + 1 := by omega
    rw [e, exp_of_2_loop]
    rw [exp_of_2_loop] at h
    split
    · rename_i h1
      rw [if_pos h1] at h
      exact ih _ _ _ _ h d
    · rename_i h1
      rw [if_neg h1] at h
      exact h

theorem mem_init_pool_fuel_mono (heap : Nat → Nat) :
    ∀ fuel heapsize minsize i offsetcou r,
      mem_init_pool fuel heapsize minsize i offsetcou heap = some r →
      ∀ d, mem_init_pool (fuel + d) heapsize minsize i offsetcou heap = some r := by
  intro fuel
  induction fuel with
  | zero => intro heapsize minsize i offsetcou r h; simp [mem_init_pool] at h
  | succ fuel ih =>
    intro heapsize minsize i offsetcou r h d
    have e : fuel + 1 + d = (fuel + d) + 1 := by omega
    rw [e, mem_init_pool]
    rw [mem_init_pool] at h
    split
    · rename_i h1
      rw [if_pos h1] at h
      dsimp only at h ⊢
      split at h
      · simp at h
      · rename_i rest oc heq
        rw [ih _ _ _ _ _ heq d]
        exact h
    · rename_i h1
      rw [if_neg h1] at h
      exact h

theorem mem_init_fuel_mono {fuel heapsize minsize : Nat} {heap : Nat → Nat} {r : Nat × State}
    (h : mem_init fuel heapsize minsize heap = some r) (d : Nat) :
    mem_init (fuel + d) heapsize minsize heap = some r := by
  unfold mem_init at h ⊢
  split
  · rename_i h1
    rw [if_pos h1] at h; exact h
  · rename_i h1
    rw [if_neg h1] at h
    unfold exp_of_2 at h ⊢
    split at h
    · simp at h
    · rename_i e he
      rw [exp_of_2_loop_fuel_mono _ _ _ _ _ he d]
      dsimp only at h ⊢
      split
      · rename_i h2
        rw [if_pos h2] at h; exact h
      · rename_i h2
        rw [if_neg h2] at h
        split at h
        · simp at h
        · rename_i pool nwords hp
          rw [mem_init_pool_fuel_mono heap _ _ _ _ _ _ hp d]
          exact h

theorem exp_of_2_loop_some {number e : Nat} (he : e ≠ 0) :
    ∀ fuel t, 1 ≤ t → t ≤ 15 → exp_of_2_loop fuel (2 ^ t) t number = some e →
      number = 2 ^ e ∧ 1 ≤ e ∧ e ≤ 15 := by
  intro fuel
  induction fuel with
  | zero => intro t _ _ h; simp [exp_of_2_loop] at h
  | succ fuel ih =>
    intro t h1 h15 h
    rw [exp_of_2_loop] at h
    split at h
    · rename_i hlt
      by_cases ht : t = 15
      · subst ht
        have : (2 ^ 15 * 2) % UINT = 0 := by decide
        rw [this, exp_of_2_loop_zero _ _ _ (by omega)] at h
        simp at h
      · have hle : (2 : Nat) ^ (t + 1) ≤ 2 ^ 15 := Nat.pow_le_pow_right (by norm_num) (by omega)
        have h3 : (2 ^ t * 2) % UINT = 2 ^ (t + 1) := by
          rw [← Nat.pow_succ]
          apply Nat.mod_eq_of_lt
          unfold UINT; norm_num at hle; omega
        have h4 : (t + 1) % UINT = t + 1 := Nat.mod_eq_of_lt (by unfold UINT; omega)
        rw [h3, h4] at h
        exact ih (t + 1) (by omega) (by omega) h
    · split at h
      · simp at h; exact absurd h.symm he
      · rename_i h2 h3
        simp at h
        subst h
        exact ⟨by omega, h1, h15⟩

theorem exp_of_2_some {fuel number e : Nat} (h : exp_of_2 fuel number = some e) (he : e ≠ 0) :
    number = 2 ^ e ∧ 1 ≤ e ∧ e ≤ 15 := by
  unfold exp_of_2 at h
  exact exp_of_2_loop_some he fuel 1 (by omega) (by omega) (by simpa using h)

/-- When no class fits, `mem_init` does not return a byte count. -/
theorem mem_init_no_class {fuel R m : Nat} {heap : Nat → Nat} (h : ¬ m * 2 ≤ R) {B : Nat}
    {st : State} (hs : mem_init fuel R m heap = some (B, st)) : B = 0 := by
  unfold mem_init at hs
  split at hs
  · simp at hs; exact hs.1.symm
  · split at hs
    · simp at hs
    · dsimp only at hs
      split at hs
      · simp at hs; exact hs.1.symm
      · exfalso
        cases fuel with
        | zero => simp [mem_init_pool] at hs
        | succ fuel =>
          rw [mem_init_pool, if_neg h] at hs
          simp [mem_init_fill, sentinel] at hs

/-- When `minsize` is a power of two above 1 and no class fits, `mem_init` has no
defined result: the byte count is computed from `pool[i - 1]` with `i = 0`. -/
theorem mem_init_no_class_none {fuel R m e : Nat} (heap : Nat → Nat) (hm : m ≤ R)
    (h : ¬ m * 2 ≤ R) (he : m = 2 ^ e) (he1 : 1 ≤ e) (he15 : e ≤ 15) :
    mem_init fuel R m heap = none := by
  cases hs : mem_init fuel R m heap with
  | none => rfl
  | some r =>
    exfalso
    unfold mem_init at hs
    rw [if_neg (by omega)] at hs
    split at hs
    · simp at hs
    · rename_i e1 hexp
      have h1 : exp_of_2 (fuel + 16) m = some e1 := by
        unfold exp_of_2 at hexp ⊢
        exact exp_of_2_loop_fuel_mono _ _ _ _ _ hexp 16
      have h2 : exp_of_2 (fuel + 16) m = some e := by
        rw [he]; exact exp_of_2_pow he1 he15 (by omega)
      rw [h2] at h1
      simp only [Option.some.injEq] at h1
      subst h1
      dsimp only at hs
      rw [if_neg (by omega)] at hs
      cases fuel with
      | zero => simp [mem_init_pool] at hs
      | succ fuel =>
        rw [mem_init_pool, if_neg h] at hs
        simp [mem_init_fill, sentinel] at hs

/-- A `mem_init` that returns has found the room for its bookkeeping in the region. -/
theorem mem_init_room {fuel R m K e : Nat} {heap : Nat → Nat} {r : Nat × State}
    (g : Geom R m K) (hK : 1 ≤ K) (hmax : R < 2 * (m * 2 ^ K)) (he : m = 2 ^ e) (he1 : 1 ≤ e)
    (he15 : e ≤ 15) (h : mem_init fuel R m heap = some r) : init_bytes R m K ≤ R := by
  have h16 := mem_init_fuel_mono h 16
  have hm2 := g.m_ge
  have hKle := g.K_le
  have hexp : exp_of_2 (fuel + 16) m = some e := by
    rw [he]; exact exp_of_2_pow he1 he15 (by omega)
  have hpool := mem_init_pool_spec g hmax heap K 0 (fuel + 16) (by omega) (by omega)
  simp only [pow_zero, mul_one] at hpool
  have hoff0 : class_offset R m 0 = 0 := rfl
  rw [hoff0] at hpool
  by_contra hn
  have hfit0 := g.fits 0 (by omega)
  simp only [pow_zero, mul_one] at hfit0
  unfold mem_init at h16
  rw [if_neg (by omega), hexp] at h16
  simp only at h16
  rw [if_neg (by omega), hpool] at h16
  simp only [pool_from_length] at h16
  rw [if_pos (by unfold init_bytes at hn; omega)] at h16
  simp at h16

/-- A successful `mem_init` fixes the geometry and leaves the state in closed form. -/
theorem mem_init_success {fuel R m : Nat} {heap : Nat → Nat} {B : Nat} {st : State}
    (hR : R < 65536) (h : mem_init fuel R m heap = some (B, st)) (hB : B ≠ 0) :
    ∃ K e mem, Geom R m K ∧ 1 ≤ K ∧ R < 2 * (m * 2 ^ K) ∧ m = 2 ^ e ∧ 1 ≤ e ∧
      B = init_bytes R m K ∧
      st = ⟨pool_from R m (init_alloccou heap m B) (init_fbcou R m B) K 0, mem⟩ ∧
      mem.length = class_offset R m K ∧ WordsOK mem ∧
      ∀ k, k < K → ∀ t, t < 16 * words_for (class_avail R m k) →
        (class_bits mem (class_offset R m k) t = true ↔
          (class_avail R m k ≤ t ∨ (t = 0 ∧ B ≤ class_size m k))) := by
  classical
  have hfit : m * 2 ≤ R := by
    by_contra hn
    exact hB (mem_init_no_class hn h)
  -- minsize is a power of two
  obtain ⟨e, he1, he2, he3⟩ : ∃ e, m = 2 ^ e ∧ 1 ≤ e ∧ e ≤ 15 := by
    unfold mem_init at h
    split at h
    · simp at h; exact absurd h.1.symm hB
    · split at h
      · simp at h
      · rename_i e he
        dsimp only at h
        split at h
        · simp at h; exact absurd h.1.symm hB
        · rename_i hne
          exact ⟨e, exp_of_2_some he hne⟩
  have hm2 : 2 ≤ m := by
    rw [he1]
    calc 2 = 2 ^ 1 := by norm_num
      _ ≤ 2 ^ e := Nat.pow_le_pow_right (by norm_num) he2
  -- the number of classes
  have hex : ∃ K, R < 2 * (m * 2 ^ K) := by
    refine ⟨16, ?_⟩
    have : 2 * 2 ^ 16 ≤ m * 2 ^ 16 := Nat.mul_le_mul_right _ hm2
    norm_num at this ⊢
    omega
  have hspec := Nat.find_spec hex
  have hmin := fun k (hk : k < Nat.find hex) => Nat.find_min hex hk
  have g : Geom R m (Nat.find hex) :=
    ⟨hm2, hR, fun k hk => Nat.le_of_not_lt (hmin k hk)⟩
  have hK1 : 1 ≤ Nat.find hex := by
    by_contra hn
    have h0 : Nat.find hex = 0 := by omega
    rw [h0] at hspec
    simp at hspec
    omega
  obtain ⟨mem, hinit, hlen, hok, hbits⟩ := @mem_init_spec _ _ _ _ g hK1 hspec he1 heap
    (fuel + 16) (by omega) (mem_init_room g hK1 hspec he1 he2 he3 h)
  have := mem_init_fuel_mono h 16
  rw [hinit] at this
  simp only [Option.some.injEq, Prod.mk.injEq] at this
  obtain ⟨hBe, hst⟩ := this
  refine ⟨Nat.find hex, e, mem, g, hK1, hspec, he1, he2, hBe.symm, ?_, hlen, hok, ?_⟩
  · rw [← hst, hBe]
  · rw [← hBe]; exact hbits

/-! ## The invariant holds after mem_init -/

theorem ghost_spec (m B : Nat) :
    ∀ n c0, (ghost_from m B n c0 = [] ∧ ∀ c, c0 ≤ c → c < c0 + n → class_size m c < B) ∨
      (∃ c, c0 ≤ c ∧ c < c0 + n ∧ B ≤ class_size m c ∧
        (∀ c1, c0 ≤ c1 → c1 < c → class_size m c1 < B) ∧ ghost_from m B n c0 = [(c, 0)]) := by
  intro n
  induction n with
  | zero =>
    intro c0
    left
    exact ⟨rfl, fun c h1 h2 => by omega⟩
  | succ n ih =>
    intro c0
    by_cases hB : B ≤ class_size m c0
    · right
      refine ⟨c0, by omega, by omega, hB, fun c1 h1 h2 => by omega, ?_⟩
      rw [ghost_from, if_pos hB]
    · rcases ih (c0 + 1) with ⟨h1, h2⟩ | ⟨c, h1, h2, h3, h4, h5⟩
      · left
        refine ⟨by rw [ghost_from, if_neg hB]; exact h1, ?_⟩
        intro c hc1 hc2
        by_cases hc : c = c0
        · subst hc; omega
        · exact h2 c (by omega) (by omega)
      · right
        refine ⟨c, by omega, by omega, h3, ?_, by rw [ghost_from, if_neg hB]; exact h5⟩
        intro c1 hc1 hc2
        by_cases hc : c1 = c0
        · subst hc; omega
        · exact h4 c1 (by omega) hc2

theorem ghost_covered {m B K : Nat} {k t : Nat} (hk : k < K) :
    covered (ghost_from m B K 0) k t ↔ (t = 0 ∧ B ≤ class_size m k) := by
  rcases ghost_spec m B K 0 with ⟨h1, h2⟩ | ⟨c, _, h2, h3, h4, h5⟩
  · rw [h1]
    have := h2 k (by omega) (by omega)
    constructor
    · rintro ⟨b, hb, _⟩; simp at hb
    · rintro ⟨_, h⟩; omega
  · rw [h5]
    constructor
    · rintro ⟨b, hb, hc1, hc2⟩
      simp only [List.mem_singleton] at hb
      subst hb
      simp only [Nat.zero_div] at hc2
      exact ⟨hc2.symm, Nat.le_trans h3 (class_size_mono m hc1)⟩
    · rintro ⟨ht, hB⟩
      refine ⟨(c, 0), List.mem_singleton.2 rfl, ?_, ?_⟩
      · by_contra hn
        have := h4 k (by omega) (by simp at hn; omega)
        omega
      · simp [ht]

theorem ghost_real {R m B K : Nat} (g : Geom R m K) :
    ∀ b, b ∈ ghost_from m B K 0 → b.1 < K ∧ b.2 < class_avail R m b.1 := by
  intro b hb
  rcases ghost_spec m B K 0 with ⟨h1, _⟩ | ⟨c, _, h2, _, _, h5⟩
  · rw [h1] at hb; simp at hb
  · rw [h5] at hb
    simp only [List.mem_singleton] at hb
    subst hb
    have := g.avail_ge_two (by omega : c < K)
    exact ⟨by omega, by simp; omega⟩

theorem ghost_pairwise (m B K : Nat) :
    (ghost_from m B K 0).Pairwise (fun a b => ¬ overlaps a b) := by
  rcases ghost_spec m B K 0 with ⟨h1, _⟩ | ⟨c, _, _, _, _, h5⟩
  · rw [h1]; exact List.Pairwise.nil
  · rw [h5]; exact List.pairwise_singleton _ _

theorem init_alloccou_lt (heap : Nat → Nat) (m B k : Nat) : init_alloccou heap m B k < UINT := by
  unfold init_alloccou UINT
  split
  · split <;> omega
  · exact Nat.mod_lt _ (by norm_num)

/-- The state left by `mem_init` satisfies the invariant, with no block held
by the user and the bookkeeping block held by the allocator. -/
theorem inv_init {R m K B : Nat} (g : Geom R m K) (heap : Nat → Nat) {mem : List Nat}
    (hlen : mem.length = class_offset R m K) (hok : WordsOK mem)
    (hbits : ∀ k, k < K → ∀ t, t < 16 * words_for (class_avail R m k) →
        (class_bits mem (class_offset R m k) t = true ↔
          (class_avail R m k ≤ t ∨ (t = 0 ∧ B ≤ class_size m k)))) :
    Inv R m K (init_alloccou heap m B) (ghost_from m B K 0)
      ⟨pool_from R m (init_alloccou heap m B) (init_fbcou R m B) K 0, mem⟩ [] := by
  apply inv_of g hlen hok
  · intro k t hk ht
    rw [hbits k hk t ht, List.nil_append]
    unfold full
    rw [ghost_covered hk]
  · intro k hk
    have hav := g.avail_ge_two hk
    have hle := words_for_le (class_avail R m k)
    have hn := words_even (class_avail R m k)
    have htr := free_buddies_trailing hn hle
    unfold init_fbcou
    by_cases hB : B ≤ class_size m k
    · rw [if_pos hB]
      have hs : ∀ t, t < 16 * words_for (class_avail R m k) →
          class_bits mem (class_offset R m k) t
            = ((fun t => decide (class_avail R m k ≤ t)) t || decide (t = 0)) := by
        intro t ht
        apply bool_eq_or_of_iff
        rw [hbits k hk t ht]
        simp [hB]
      have h0 : (fun t => decide (class_avail R m k ≤ t)) 0 = false := by
        simp; omega
      have h1 : (fun t => decide (class_avail R m k ≤ t)) (sibling 0) = false := by
        unfold sibling; simp; omega
      have := (free_buddies_set hn (by omega : 0 < 16 * words_for (class_avail R m k)) h0 hs).2 h1
      rw [this, htr]
    · rw [if_neg hB, Nat.add_zero, ← htr]
      apply (free_buddies_congr hn _).symm
      intro t ht
      apply bool_eq_of_iff
      rw [hbits k hk t ht]
      simp [hB]
  · intro k _
    simp only [List.countP_nil, Nat.add_zero]
    exact (Nat.mod_eq_of_lt (init_alloccou_lt heap m B k)).symm
  · intro b hb
    rw [List.nil_append] at hb
    exact ghost_real g b hb
  · rw [List.nil_append]
    exact ghost_pairwise m B K

end HtMalloc

namespace HtMalloc

/-! ## The invariant along every run -/

theorem Inv.exists_form {R m K : Nat} {a0 : Nat → Nat} {G A : List Block} {st : State}
    (h : Inv R m K a0 G st A) :
    ∃ al fb mem, st = ⟨pool_from R m al fb K 0, mem⟩ :=
  ⟨_, _, _, h.state_eq⟩

/-- One call of `mem_alloc` in a state that satisfies the invariant: it returns,
either null with the state unchanged, or the start of block `i` of the class
`k` chosen for `size`, and then the invariant holds with that block added. -/
theorem mem_alloc_step {R m K : Nat} {a0 : Nat → Nat} {G A : List Block} {st : State}
    (hinv : Inv R m K a0 G st A) (size : Nat) :
    ∃ k, size_match_loop st.pool size 0 = some k ∧ k ≤ K ∧
      (k < K → size ≤ class_size m k) ∧ (∀ j, j < k → class_size m j < size) ∧
      ((mem_alloc st size = some (none, st) ∧
        (k = K ∨ ∀ c, k ≤ c → c < K → fbcou_at st c = 0)) ∨
       (∃ i st1, mem_alloc st size = some (some ((i * class_size m k : Nat) : Int), st1) ∧
        k < K ∧ (∃ c, k ≤ c ∧ c < K ∧ fbcou_at st c ≠ 0) ∧ Inv R m K a0 G st1 ((k, i) :: A))) := by
  obtain ⟨al, fb, mem, rfl⟩ := hinv.exists_form
  obtain ⟨k, h1, h2, h3, h4, h5⟩ := mem_alloc_step_aux hinv size
  refine ⟨k, h1, h2, h3, h4, ?_⟩
  rcases h5 with ⟨h6, h7⟩ | ⟨i, st1, h6, h7, ⟨c, c1, c2, c3⟩, h9⟩
  · left
    refine ⟨h6, ?_⟩
    rcases h7 with h7 | h7
    · exact Or.inl h7
    · right
      intro c hc1 hc2
      rw [fbcou_at_pool R m K al fb mem hc2]
      exact h7 c hc1 hc2
  · right
    refine ⟨i, st1, h6, h7, ⟨c, c1, c2, ?_⟩, h9⟩
    rw [fbcou_at_pool R m K al fb mem c2]
    exact c3

/-- One call of `mem_free` on the pointer of an allocated block: it returns and
the invariant holds with that block removed. -/
theorem mem_free_step {R m K : Nat} {a0 : Nat → Nat} {G A1 A2 : List Block} {st : State}
    {k i : Nat} (hinv : Inv R m K a0 G st (A1 ++ (k, i) :: A2)) :
    ∃ st1, mem_free st ((i * class_size m k : Nat) : Int) = some st1 ∧
      Inv R m K a0 G st1 (A1 ++ A2) := by
  obtain ⟨al, fb, mem, rfl⟩ := hinv.exists_form
  exact mem_free_step_aux hinv

/-- Every word index of the bitmap lies in the bit array of some class. -/
theorem word_class {R m K : Nat} (g : Geom R m K) {w : Nat} (hw : w < class_offset R m K) :
    ∃ k, k < K ∧ class_offset R m k ≤ w ∧
      w < class_offset R m k + words_for (class_avail R m k) := by
  induction K with
  | zero => simp [class_offset] at hw
  | succ K ih =>
    rw [class_offset_succ] at hw
    by_cases h : w < class_offset R m K
    · have g1 : Geom R m K := ⟨g.m_ge, g.R_lt, fun k hk => g.fits k (by omega)⟩
      obtain ⟨k, h1, h2, h3⟩ := ih g1 h
      exact ⟨k, by omega, h2, h3⟩
    · exact ⟨K, by omega, by omega, hw⟩

/-- The state is determined by the blocks held. -/
theorem inv_unique {R m K : Nat} {a0 : Nat → Nat} {G A : List Block} {st st1 : State}
    (h : Inv R m K a0 G st A) (h1 : Inv R m K a0 G st1 A) : st = st1 := by
  have g := h.geom
  have hbit : ∀ k t, k < K → t < 16 * words_for (class_avail R m k) →
      class_bits st.freelist (class_offset R m k) t
        = class_bits st1.freelist (class_offset R m k) t := by
    intro k t hk ht
    apply bool_eq_of_iff
    rw [h.bits k t hk ht, h1.bits k t hk ht]
  have hmem : st.freelist = st1.freelist := by
    apply List.ext_getElem?
    intro w
    by_cases hw : w < class_offset R m K
    · obtain ⟨a, ha⟩ := @get_of_lt st.freelist _ (by rw [h.len]; exact hw)
      obtain ⟨b, hb⟩ := @get_of_lt st1.freelist _ (by rw [h1.len]; exact hw)
      rw [ha, hb]
      congr 1
      apply Nat.eq_of_testBit_eq
      intro j
      by_cases hj : j < 16
      · obtain ⟨k, hk, hk1, hk2⟩ := word_class g hw
        have e1 := mem_bit_word ha j hj
        have e2 := mem_bit_word hb j hj
        have := hbit k (16 * (w - class_offset R m k) + j) hk (by omega)
        unfold class_bits at this
        have e3 : 16 * class_offset R m k + (16 * (w - class_offset R m k) + j) = 16 * w + j := by
          omega
        rw [e3] at this
        rw [← e1, ← e2, this]
      · rw [testBit_ge_16 (WordsOK_get h.words ha) (by omega),
          testBit_ge_16 (WordsOK_get h1.words hb) (by omega)]
    · rw [List.getElem?_eq_none (by rw [h.len]; omega),
        List.getElem?_eq_none (by rw [h1.len]; omega)]
  have hpool : st.pool = st1.pool := by
    rw [h.pool_eq, h1.pool_eq]
    apply pool_from_congr
    · intro k _ hk
      rw [h.al k (by omega), h1.al k (by omega)]
    · intro k _ hk
      rw [h.fb k (by omega), h1.fb k (by omega), hmem]
  cases st
  cases st1
  simp only at hmem hpool
  rw [hmem, hpool]

theorem block_ptr_eq {m : Nat} (_hm : 0 < m) {b : Block} {p : Int} {k : Nat}
    (h : block_ptr m b = (p, k)) : b = (k, b.2) ∧ p = ((b.2 * class_size m k : Nat) : Int) := by
  unfold block_ptr at h
  simp only [Prod.mk.injEq] at h
  obtain ⟨h1, h2⟩ := h
  subst h2
  exact ⟨rfl, h1.symm⟩

/-- Along every run from a successful `mem_init` the invariant holds, with the
live pointers being exactly the pointers of the blocks held by the user. -/
theorem reach_inv {fuel R m : Nat} {heap : Nat → Nat} {st : State} {live : List (Int × Nat)}
    (hR : R < 65536) (h : Reach fuel R m heap st live) :
    ∃ K B st0 A, mem_init fuel R m heap = some (B, st0) ∧ B ≠ 0 ∧ 1 ≤ K ∧
      R < 2 * (m * 2 ^ K) ∧ B = init_bytes R m K ∧
      Inv R m K (init_alloccou heap m B) (ghost_from m B K 0) st0 [] ∧
      Inv R m K (init_alloccou heap m B) (ghost_from m B K 0) st A ∧
      live = A.map (block_ptr m) := by
  induction h with
  | @init B st hinit hB =>
    obtain ⟨K, e, mem, g, hK, hmax, _, _, hBe, hst, hlen, hok, hbits⟩ :=
      mem_init_success hR hinit hB
    have hinv := inv_init (B := B) g heap hlen hok hbits
    rw [← hst] at hinv
    exact ⟨K, B, st, [], hinit, hB, hK, hmax, hBe, hinv, hinv, rfl⟩
  | @alloc st st1 live size k p _ halloc hsm ih =>
    obtain ⟨K, B, st0, A, h1, h2, h3, h4, h5, h6, h7, h8⟩ := ih
    obtain ⟨k1, s1, _, _, _, s5⟩ := mem_alloc_step h7 size
    rw [hsm] at s1
    simp only [Option.some.injEq] at s1
    subst s1
    rcases s5 with ⟨s6, _⟩ | ⟨i, st2, s6, _, _, s9⟩
    · rw [halloc] at s6; simp at s6
    · rw [halloc] at s6
      simp only [Option.some.injEq, Prod.mk.injEq] at s6
      obtain ⟨s10, s11⟩ := s6
      subst s11
      refine ⟨K, B, st0, (k, i) :: A, h1, h2, h3, h4, h5, h6, s9, ?_⟩
      rw [List.map_cons, ← h8, s10]
      rfl
  | @alloc_null st st1 live size _ halloc ih =>
    obtain ⟨K, B, st0, A, h1, h2, h3, h4, h5, h6, h7, h8⟩ := ih
    obtain ⟨k1, _, _, _, _, s5⟩ := mem_alloc_step h7 size
    rcases s5 with ⟨s6, _⟩ | ⟨i, st2, s6, _, _, _⟩
    · rw [halloc] at s6
      simp only [Option.some.injEq, Prod.mk.injEq, true_and] at s6
      subst s6
      exact ⟨K, B, st0, A, h1, h2, h3, h4, h5, h6, h7, h8⟩
    · rw [halloc] at s6; simp at s6
  | @free st st1 l1 l2 p k _ hfree ih =>
    obtain ⟨K, B, st0, A, h1, h2, h3, h4, h5, h6, h7, h8⟩ := ih
    obtain ⟨A1, A3, e1, e2, e3⟩ := List.map_eq_append_iff.1 h8.symm
    obtain ⟨b, A2, e4, e5, e6⟩ := List.map_eq_cons_iff.1 e3
    have g := h7.geom
    obtain ⟨e7, e8⟩ := block_ptr_eq g.m_pos e5
    rw [e1, e4, e7] at h7
    obtain ⟨st2, f1, f2⟩ := mem_free_step h7
    rw [← e8, hfree] at f1
    simp only [Option.some.injEq] at f1
    subst f1
    refine ⟨K, B, st0, A1 ++ A2, h1, h2, h3, h4, h5, h6, f2, ?_⟩
    rw [List.map_append, e2, e6]

end HtMalloc

namespace HtMalloc

/-! ## Reading a state that satisfies the invariant -/

theorem Inv.pool_length {R m K : Nat} {a0 : Nat → Nat} {G A : List Block} {st : State}
    (h : Inv R m K a0 G st A) : st.pool.length = K + 1 := by
  rw [h.pool_eq]
  exact pool_from_length R m _ _ K 0

theorem Inv.size_at_eq {R m K : Nat} {a0 : Nat → Nat} {G A : List Block} {st : State}
    (h : Inv R m K a0 G st A) {k : Nat} (hk : k < K) : size_at st k = class_size m k := by
  obtain ⟨al, fb, mem, rfl⟩ := h.exists_form
  exact size_at_pool R m K al fb mem hk

theorem Inv.avail_at_eq {R m K : Nat} {a0 : Nat → Nat} {G A : List Block} {st : State}
    (h : Inv R m K a0 G st A) {k : Nat} (hk : k < K) : avail_at st k = class_avail R m k := by
  obtain ⟨al, fb, mem, rfl⟩ := h.exists_form
  exact avail_at_pool R m K al fb mem hk

theorem Inv.offset_at_eq {R m K : Nat} {a0 : Nat → Nat} {G A : List Block} {st : State}
    (h : Inv R m K a0 G st A) {k : Nat} (hk : k < K) : offset_at st k = class_offset R m k := by
  obtain ⟨al, fb, mem, rfl⟩ := h.exists_form
  exact offset_at_pool R m K al fb mem hk

theorem Inv.sentinel_at {R m K : Nat} {a0 : Nat → Nat} {G A : List Block} {st : State}
    (h : Inv R m K a0 G st A) : st.pool[K]? = some sentinel := by
  rw [h.pool_eq]
  exact pool_from_get_last R m _ _ K 0

/-- A real block lies inside the region. -/
theorem real_block_in_heap {R m k i : Nat} (hm : 0 < m) (h : i < class_avail R m k) :
    i * class_size m k + class_size m k ≤ R := by
  unfold class_avail at h
  unfold class_size
  have hp : 0 < m * 2 ^ k := Nat.mul_pos hm (Nat.two_pow_pos _)
  have h1 : i + 1 ≤ R / (m * 2 ^ k) := h
  rw [Nat.le_div_iff_mul_le hp] at h1
  rw [Nat.add_mul, Nat.one_mul] at h1
  exact h1

/-- Blocks of classes `k ≤ j` of which the smaller does not lie inside the
larger have disjoint byte ranges. -/
theorem disjoint_of_not_covers (m : Nat) {k j x y : Nat} (hkj : k ≤ j)
    (h : x / 2 ^ (j - k) ≠ y) :
    x * class_size m k + class_size m k ≤ y * class_size m j ∨
      y * class_size m j + class_size m j ≤ x * class_size m k := by
  have e : class_size m j = class_size m k * 2 ^ (j - k) := by
    rw [← class_size_add]; congr 1; omega
  have hd : 0 < 2 ^ (j - k) := Nat.two_pow_pos _
  rw [e]
  generalize class_size m k = S
  generalize 2 ^ (j - k) = d at h hd
  rcases Nat.lt_or_gt_of_ne h with h1 | h1
  · left
    rw [Nat.div_lt_iff_lt_mul hd] at h1
    have h2 : (x + 1) * S ≤ y * d * S := Nat.mul_le_mul_right S h1
    calc x * S + S = (x + 1) * S := by ring
      _ ≤ y * d * S := h2
      _ = y * (S * d) := by ring
  · right
    have h2 : y + 1 ≤ x / d := h1
    rw [Nat.le_div_iff_mul_le hd] at h2
    have h3 : (y + 1) * d * S ≤ x * S := Nat.mul_le_mul_right S h2
    calc y * (S * d) + S * d = (y + 1) * d * S := by ring
      _ ≤ x * S := h3

/-- Blocks that do not overlap have disjoint byte ranges. -/
theorem disjoint_of_not_overlaps (m : Nat) {a b : Block} (h : ¬ overlaps a b) :
    a.2 * class_size m a.1 + class_size m a.1 ≤ b.2 * class_size m b.1 ∨
      b.2 * class_size m b.1 + class_size m b.1 ≤ a.2 * class_size m a.1 := by
  unfold overlaps covers at h
  by_cases hab : a.1 ≤ b.1
  · exact disjoint_of_not_covers m hab (fun e => h (Or.inl ⟨hab, e⟩))
  · have hba : b.1 ≤ a.1 := by omega
    exact (disjoint_of_not_covers m hba (fun e => h (Or.inr ⟨hba, e⟩))).symm

/-- The number of bitmap words of a class is `ceil(avail / DATAWIDTH)`. -/
theorem words_for_eq (a : Nat) : words_for a = (a + (DATAWIDTH - 1)) / DATAWIDTH := by
  unfold words_for DATAWIDTH
  split <;> omega

/-- The word offset of a class is the sum of the word counts of the classes below. -/
theorem class_offset_eq_sum (R m k : Nat) :
    class_offset R m k
      = ∑ i ∈ Finset.range k, (class_avail R m i + (DATAWIDTH - 1)) / DATAWIDTH := by
  induction k with
  | zero => rfl
  | succ k ih => rw [class_offset_succ, Finset.sum_range_succ, ih, words_for_eq]

/-- A call of `mem_alloc` that returns null leaves the globals as they were. -/
theorem mem_alloc_null_state {st st1 : State} {size : Nat}
    (h : mem_alloc st size = some (none, st1)) : st1 = st := by
  unfold mem_alloc at h
  split at h
  · cases h
  · split at h
    · cases h
    · split at h
      · simp only [Option.some.injEq, Prod.mk.injEq, true_and] at h
        exact h.symm
      · split at h
        · split at h
          · cases h
          · simp at h
        · split at h
          · cases h
          · split at h
            · cases h
            · split at h
              · simp only [Option.some.injEq, Prod.mk.injEq, true_and] at h
                exact h.symm
              · split at h
                · cases h
                · dsimp only at h
                  split at h
                  · cases h
                  · split at h
                    · cases h
                    · simp at h

/-- In a state that satisfies the invariant the classes are those of the table
and class sizes grow with the index. -/
theorem Inv.class_iff {R m K : Nat} {a0 : Nat → Nat} {G A : List Block} {st : State}
    (h : Inv R m K a0 G st A) (k : Nat) : k + 1 < st.pool.length ↔ k < K := by
  rw [h.pool_length]; omega

/-! ## Evaluations of the worked examples -/

set_option maxRecDepth 100000

theorem mem_init_ex2000 : mem_init 20 2000 16 heap0 = some (104, ex2000) := by decide

theorem mem_alloc_ex2000 : mem_alloc ex2000 16 = some (some 1984, ex2000_one) := by decide

theorem mem_alloc_ex2000_one : mem_alloc ex2000_one 16 = some (some 1920, ex2000_two) := by
  decide

theorem mem_alloc_ex2000_big : mem_alloc ex2000 2000 = some (none, ex2000) := by decide

theorem mem_init_ex100 : mem_init 20 100 2 heap0 = some (78, ex100) := by decide

theorem mem_alloc_ex100 : mem_alloc ex100 32 = some (some 64, ex100_one) := by decide

theorem reach_ex2000 : Reach 20 2000 16 heap0 ex2000 [] :=
  Reach.init mem_init_ex2000 (by decide)

theorem reach_ex2000_two : Reach 20 2000 16 heap0 ex2000_two [(1920, 0), (1984, 0)] :=
  Reach.alloc (Reach.alloc reach_ex2000 mem_alloc_ex2000 (by decide)) mem_alloc_ex2000_one
    (by decide)

end HtMalloc

namespace HtMalloc

/-! ## The contract of the allocator -/

set_option maxRecDepth 100000

/-- Claim C1 (exclusivity). In every state reached from a successful
`mem_init(heapsize, heap, minsize)` by calls of `mem_alloc` and by calls of
`mem_free` on live pointers, any two live allocations occupy disjoint byte
ranges `[off, off + S_k)`, where `S_k` is the size of the class the allocation
was served from; each of these ranges is non-empty and lies inside
`[0, heapsize)`. -/
theorem live_allocations_disjoint {fuel R m : Nat} {heap : Nat → Nat} {st : State}
    {live : List (Int × Nat)} (hR : R < 65536) (h : Reach fuel R m heap st live) :
    live.Pairwise (fun a b =>
        a.1 + (size_at st a.2 : Int) ≤ b.1 ∨ b.1 + (size_at st b.2 : Int) ≤ a.1) ∧
      ∀ a, a ∈ live → 0 ≤ a.1 ∧ 0 < size_at st a.2 ∧ a.1 + (size_at st a.2 : Int) ≤ (R : Int) := by
  obtain ⟨K, B, st0, A, _, _, _, _, _, _, hinv, rfl⟩ := reach_inv hR h
  have hm := hinv.geom.m_pos
  constructor
  · rw [List.pairwise_map]
    have hex := (List.pairwise_append.1 hinv.excl).1
    refine hex.imp_of_mem ?_
    intro a b ha hb hab
    have ra := hinv.real a (List.mem_append_left _ ha)
    have rb := hinv.real b (List.mem_append_left _ hb)
    simp only [block_ptr]
    rw [hinv.size_at_eq ra.1, hinv.size_at_eq rb.1]
    rcases disjoint_of_not_overlaps m hab with h1 | h1
    · left; exact_mod_cast h1
    · right; exact_mod_cast h1
  · intro a ha
    rw [List.mem_map] at ha
    obtain ⟨b, hb, rfl⟩ := ha
    have rb := hinv.real b (List.mem_append_left _ hb)
    simp only [block_ptr]
    rw [hinv.size_at_eq rb.1]
    refine ⟨Int.ofNat_nonneg _, class_size_pos hm _, ?_⟩
    have := real_block_in_heap hm rb.2
    exact_mod_cast this

/-- Two allocations of 16 bytes after `mem_init(2000, heap, 16)`: the blocks
at offsets 1920 and 1984 are disjoint. -/
theorem live_allocations_disjoint_witness :
    (2000 < 65536 ∧ Reach 20 2000 16 heap0 ex2000_two [(1920, 0), (1984, 0)]) ∧
    (([(1920, 0), (1984, 0)] : List (Int × Nat)).Pairwise (fun a b =>
        a.1 + (size_at ex2000_two a.2 : Int) ≤ b.1 ∨
          b.1 + (size_at ex2000_two b.2 : Int) ≤ a.1) ∧
      ∀ a, a ∈ ([(1920, 0), (1984, 0)] : List (Int × Nat)) →
        0 ≤ a.1 ∧ 0 < size_at ex2000_two a.2 ∧
          a.1 + (size_at ex2000_two a.2 : Int) ≤ ((2000 : Nat) : Int)) :=
  ⟨⟨by decide, reach_ex2000_two⟩, live_allocations_disjoint (by decide) reach_ex2000_two⟩

/-- Claim C2, evaluated at `mem_init(100, heap, 2)` followed by `mem_alloc(32)`:
`mem_init` returns 78 bytes of bookkeeping, no class is that large, so no block
is reserved, and `mem_alloc(32)` returns `heapstart + 64`, a pointer into the
bookkeeping prefix `[0, 78)`. -/
theorem bookkeeping_handed_out :
    mem_init 20 100 2 heap0 = some (78, ex100) ∧
      mem_alloc ex100 32 = some (some 64, ex100_one) ∧ (64 : Int) < 78 :=
  ⟨mem_init_ex100, mem_alloc_ex100, by decide⟩

/-- Claim C4. In every state reachable from a successful `mem_init`, a non-null
result of `mem_alloc(s)` is the start of a real block of the chosen class: with
`k` the smallest class whose size is at least `s`, the offset returned is
`i * S_k` for a block index `i < avail[k]`, the block `[i * S_k, (i + 1) * S_k)`
lies inside `[0, heapsize)`, and `S_k` is a multiple of `minsize`. -/
theorem mem_alloc_real_block {fuel R m : Nat} {heap : Nat → Nat} {st st1 : State}
    {live : List (Int × Nat)} {s : Nat} {p : Int} (hR : R < 65536)
    (h : Reach fuel R m heap st live) (ha : mem_alloc st s = some (some p, st1)) :
    ∃ k i, k + 1 < st.pool.length ∧ size_match_loop st.pool s 0 = some k ∧
      s ≤ size_at st k ∧ (∀ j, j < k → size_at st j < s) ∧
      p = ((i * size_at st k : Nat) : Int) ∧ i < avail_at st k ∧
      (i + 1) * size_at st k ≤ R ∧ m ∣ size_at st k := by
  obtain ⟨K, B, st0, A, _, _, _, _, _, _, hinv, _⟩ := reach_inv hR h
  have hm := hinv.geom.m_pos
  obtain ⟨k, h1, h2, h3, h4, h5⟩ := mem_alloc_step hinv s
  rcases h5 with ⟨h6, _⟩ | ⟨i, st2, h6, hk, _, hinv2⟩
  · rw [h6] at ha
    simp at ha
  · rw [h6] at ha
    simp only [Option.some.injEq, Prod.mk.injEq] at ha
    obtain ⟨hp, _⟩ := ha
    have hreal := (hinv2.real (k, i) (by simp)).2
    simp only at hreal
    refine ⟨k, i, (hinv.class_iff k).2 hk, h1, ?_, ?_, ?_, ?_, ?_, ?_⟩
    · rw [hinv.size_at_eq hk]; exact h3 hk
    · intro j hj
      rw [hinv.size_at_eq (by omega)]; exact h4 j hj
    · rw [hinv.size_at_eq hk]; exact hp.symm
    · rw [hinv.avail_at_eq hk]; exact hreal
    · rw [hinv.size_at_eq hk, Nat.add_mul, Nat.one_mul]
      exact real_block_in_heap hm hreal
    · rw [hinv.size_at_eq hk]
      exact Dvd.intro _ rfl

/-- The first `mem_alloc(16)` after `mem_init(2000, heap, 16)` returns the start
of block 124 of class 0. -/
theorem mem_alloc_real_block_witness :
    (2000 < 65536 ∧ Reach 20 2000 16 heap0 ex2000 [] ∧
      mem_alloc ex2000 16 = some (some 1984, ex2000_one)) ∧
    ∃ k i, k + 1 < ex2000.pool.length ∧ size_match_loop ex2000.pool 16 0 = some k ∧
      16 ≤ size_at ex2000 k ∧ (∀ j, j < k → size_at ex2000 j < 16) ∧
      (1984 : Int) = ((i * size_at ex2000 k : Nat) : Int) ∧ i < avail_at ex2000 k ∧
      (i + 1) * size_at ex2000 k ≤ 2000 ∧ 16 ∣ size_at ex2000 k :=
  ⟨⟨by decide, reach_ex2000, mem_alloc_ex2000⟩,
    mem_alloc_real_block (by decide) reach_ex2000 mem_alloc_ex2000⟩

/-- Claim C5. In every state reachable from a successful `mem_init`,
`mem_alloc(s)` returns, and it returns null exactly when either no class has
size at least `s`, or `fbcou` is 0 for the smallest class `k` whose size is at
least `s` and for every class above `k` up to the sentinel; in every other case
the pointer is not null. Every `s` that is at least `heapsize` is in the first
case. -/
theorem mem_alloc_null_iff {fuel R m : Nat} {heap : Nat → Nat} {st : State}
    {live : List (Int × Nat)} (hR : R < 65536) (h : Reach fuel R m heap st live) (s : Nat) :
    ∃ p st1, mem_alloc st s = some (p, st1) ∧
      (p = none ↔
        ((∀ j, j + 1 < st.pool.length → size_at st j < s) ∨
         (∃ k, k + 1 < st.pool.length ∧ s ≤ size_at st k ∧ (∀ j, j < k → size_at st j < s) ∧
            ∀ c, k ≤ c → c + 1 < st.pool.length → fbcou_at st c = 0))) ∧
      (R ≤ s → ∀ j, j + 1 < st.pool.length → size_at st j < s) := by
  obtain ⟨K, B, st0, A, _, _, _, _, _, _, hinv, _⟩ := reach_inv hR h
  have g := hinv.geom
  have hm := g.m_pos
  have hbig : R ≤ s → ∀ j, j + 1 < st.pool.length → size_at st j < s := by
    intro hs j hj
    have hjK := (hinv.class_iff j).1 hj
    rw [hinv.size_at_eq hjK]
    have h1 := g.size_le hjK
    have h2 := g.size_pos j
    omega
  obtain ⟨k, h1, h2, h3, h4, h5⟩ := mem_alloc_step hinv s
  rcases h5 with ⟨h6, h7⟩ | ⟨i, st2, h6, hk, ⟨c, hc1, hc2, hc3⟩, _⟩
  · refine ⟨none, st, h6, ?_, hbig⟩
    refine ⟨fun _ => ?_, fun _ => rfl⟩
    by_cases hkK : k = K
    · left
      intro j hj
      have hjK := (hinv.class_iff j).1 hj
      rw [hinv.size_at_eq hjK]
      exact h4 j (by omega)
    · right
      have hk : k < K := by omega
      refine ⟨k, (hinv.class_iff k).2 hk, ?_, ?_, ?_⟩
      · rw [hinv.size_at_eq hk]; exact h3 hk
      · intro j hj
        rw [hinv.size_at_eq (by omega)]; exact h4 j hj
      · intro c hc1 hc2
        rcases h7 with h7 | h7
        · exact absurd h7 hkK
        · exact h7 c hc1 ((hinv.class_iff c).1 hc2)
  · refine ⟨some _, st2, h6, ?_, hbig⟩
    refine ⟨fun hn => by simp at hn, ?_⟩
    rintro (hno | ⟨k1, hk1, hs1, hlow1, hz⟩)
    · exfalso
      have := hno k ((hinv.class_iff k).2 hk)
      rw [hinv.size_at_eq hk] at this
      have := h3 hk
      omega
    · exfalso
      have hk1K := (hinv.class_iff k1).1 hk1
      rw [hinv.size_at_eq hk1K] at hs1
      have hkk : k1 = k := by
        rcases Nat.lt_trichotomy k1 k with hlt | heq | hgt
        · have := h4 k1 hlt
          omega
        · exact heq
        · have := hlow1 k hgt
          rw [hinv.size_at_eq hk] at this
          have := h3 hk
          omega
      subst hkk
      exact hc3 (hz c hc1 ((hinv.class_iff c).2 hc2))

/-- After `mem_init(2000, heap, 16)` the call `mem_alloc(2000)` returns, and
returns null, as no class has 2000 bytes. -/
theorem mem_alloc_null_iff_witness :
    (2000 < 65536 ∧ Reach 20 2000 16 heap0 ex2000 []) ∧
    ∃ p st1, mem_alloc ex2000 2000 = some (p, st1) ∧
      (p = none ↔
        ((∀ j, j + 1 < ex2000.pool.length → size_at ex2000 j < 2000) ∨
         (∃ k, k + 1 < ex2000.pool.length ∧ 2000 ≤ size_at ex2000 k ∧
            (∀ j, j < k → size_at ex2000 j < 2000) ∧
            ∀ c, k ≤ c → c + 1 < ex2000.pool.length → fbcou_at ex2000 c = 0))) ∧
      (2000 ≤ 2000 → ∀ j, j + 1 < ex2000.pool.length → size_at ex2000 j < 2000) :=
  ⟨⟨by decide, reach_ex2000⟩, mem_alloc_null_iff (by decide) reach_ex2000 2000⟩

/-- Claim C6 (atomicity of allocation failure). For every allocator state and
every size `s`, if `mem_alloc(s)` returns null then the state after the call is
the state before it: no bitmap word and no descriptor field has changed. -/
theorem mem_alloc_null_unchanged (st st1 : State) (s : Nat)
    (h : mem_alloc st s = some (none, st1)) : st1 = st :=
  mem_alloc_null_state h

/-- The null return of `mem_alloc(2000)` after `mem_init(2000, heap, 16)`. -/
theorem mem_alloc_null_unchanged_witness :
    mem_alloc ex2000 2000 = some (none, ex2000) ∧ ex2000 = ex2000 :=
  ⟨mem_alloc_ex2000_big, mem_alloc_null_unchanged ex2000 ex2000 2000 mem_alloc_ex2000_big⟩

/-- Claim C7, evaluated at `mem_init(65535, heap, 40000)`: the call returns no
value, whatever the fuel and whatever the region holds. The loop of `exp_of_2`
doubles `base` from 2 to 32768 and then to 0 (65536 reduced to 16 bits), and
`0 < 40000` holds for ever after, so `mem_init` does not return 0: it does not
return. -/
theorem mem_init_no_return (fuel : Nat) (heap : Nat → Nat) :
    mem_init fuel 65535 40000 heap = none := by
  unfold mem_init
  rw [if_neg (by decide), exp_of_2_big fuel 40000 (by decide)]

/-- Claim C8 as stated fails in three ways, each within its words. At
`minsize = 1 = 2 ^ 0`, `mem_init(2000, heap, 1)` returns 0, while
`(K + 1) * sizeof(descriptor) + N * sizeof(word)` is at least 10 for every `K`
and `N`. At `minsize ≤ R < 2 * minsize`, `mem_init(20, heap, 16)` builds no
class and has no defined result: the byte count is computed from `pool[i - 1]`
with `i = 0`. At `mem_init(4, heap, 2)` one class is built, the table and the
bitmap take 22 bytes and are written past the 4 bytes of the region. -/
theorem mem_init_no_bytes :
    (mem_init 20 2000 1 heap0 = some (0, State.unset) ∧
      ∀ K N : Nat, (K + 1) * SIZEOF_POOLDESC + N * SIZEOF_UINT ≠ 0) ∧
    (∀ (fuel : Nat) (heap : Nat → Nat), mem_init fuel 20 16 heap = none) ∧
    (∀ (fuel : Nat) (heap : Nat → Nat), mem_init fuel 4 2 heap = none) := by
  refine ⟨⟨by decide, ?_⟩, ?_, ?_⟩
  · intro K N
    unfold SIZEOF_POOLDESC SIZEOF_UINT
    omega
  · intro fuel heap
    exact @mem_init_no_class_none fuel 20 16 4 heap (by decide) (by decide) (by decide)
      (by decide) (by decide)
  · intro fuel heap
    cases hs : mem_init fuel 4 2 heap with
    | none => rfl
    | some r =>
      exfalso
      have g : Geom 4 2 1 := ⟨by decide, by decide, fun k hk => by
        have : k = 0 := by omega
        subst this; decide⟩
      have hroom := @mem_init_room fuel 4 2 1 1 heap r g (by decide) (by decide) (by decide)
        (by decide) (by decide) hs
      unfold init_bytes SIZEOF_POOLDESC at hroom
      omega

/-- Claim C8, amended. For every `minsize = 2 ^ e` with `e ≥ 1` and every
16 bit `heapsize` `R ≥ 2 * minsize`, let `K` be the number of size classes (the
`k` with `2 * minsize * 2 ^ k ≤ R`), `N` the sum over the classes of
`ceil(avail_k / DATAWIDTH)` and
`B = (K + 1) * sizeof(descriptor) + N * sizeof(word)`. If the region has room for
the bookkeeping, `B ≤ R`, then `mem_init` returns `B`. -/
theorem mem_init_returns_bytes {fuel R m K e : Nat} (heap : Nat → Nat) (hR : R < 65536)
    (he : m = 2 ^ e) (he1 : 1 ≤ e) (h2 : 2 * m ≤ R)
    (hK : ∀ k, k < K ↔ 2 * (m * 2 ^ k) ≤ R) (hf : 16 ≤ fuel)
    (hroom : (K + 1) * SIZEOF_POOLDESC
      + (∑ k ∈ Finset.range K, (R / (m * 2 ^ k) + (DATAWIDTH - 1)) / DATAWIDTH) * SIZEOF_UINT
        ≤ R) :
    ∃ st, mem_init fuel R m heap = some
      ((K + 1) * SIZEOF_POOLDESC
        + (∑ k ∈ Finset.range K, (R / (m * 2 ^ k) + (DATAWIDTH - 1)) / DATAWIDTH) * SIZEOF_UINT,
       st) := by
  have hm : 2 ≤ m := by
    rw [he]
    calc 2 = 2 ^ 1 := rfl
      _ ≤ 2 ^ e := Nat.pow_le_pow_right (by norm_num) he1
  have g : Geom R m K := ⟨hm, hR, fun k hk => (hK k).1 hk⟩
  have hK1 : 1 ≤ K := by
    have := (hK 0).2 (by simpa using h2)
    omega
  have hmax : R < 2 * (m * 2 ^ K) := by
    by_contra hn
    have := (hK K).2 (by omega)
    omega
  have e1 : init_bytes R m K = (K + 1) * SIZEOF_POOLDESC
        + (∑ k ∈ Finset.range K, (R / (m * 2 ^ k) + (DATAWIDTH - 1)) / DATAWIDTH) * SIZEOF_UINT := by
    unfold init_bytes
    rw [class_offset_eq_sum]
    unfold class_avail
    ring
  obtain ⟨mem, hinit, _⟩ := mem_init_spec g hK1 hmax he heap hf (by rw [e1]; exact hroom)
  rw [← e1]
  exact ⟨_, hinit⟩

/-- The example of the header comment: `mem_init(2000, heap, 16)` builds 6
classes and returns `7 * 10 + 17 * 2 = 104`, which the 2000 bytes have room for. -/
theorem mem_init_returns_bytes_witness :
    (2000 < 65536 ∧ 16 = 2 ^ 4 ∧ 1 ≤ 4 ∧ 2 * 16 ≤ 2000 ∧
      (∀ k, k < 6 ↔ 2 * (16 * 2 ^ k) ≤ 2000) ∧ 16 ≤ 20 ∧
      (6 + 1) * SIZEOF_POOLDESC
        + (∑ k ∈ Finset.range 6, (2000 / (16 * 2 ^ k) + (DATAWIDTH - 1)) / DATAWIDTH)
            * SIZEOF_UINT ≤ 2000) ∧
    ∃ st, mem_init 20 2000 16 heap0 = some
      ((6 + 1) * SIZEOF_POOLDESC
        + (∑ k ∈ Finset.range 6, (2000 / (16 * 2 ^ k) + (DATAWIDTH - 1)) / DATAWIDTH)
            * SIZEOF_UINT,
       st) :=
  have hK : ∀ k, k < 6 ↔ 2 * (16 * 2 ^ k) ≤ 2000 := by
    intro k
    constructor
    · intro hk
      interval_cases k <;> norm_num
    · intro hk
      by_contra hn
      have h1 : 2 ^ 6 ≤ 2 ^ k := Nat.pow_le_pow_right (by norm_num) (by omega)
      norm_num at h1
      omega
  have hroom : (6 + 1) * SIZEOF_POOLDESC
        + (∑ k ∈ Finset.range 6, (2000 / (16 * 2 ^ k) + (DATAWIDTH - 1)) / DATAWIDTH)
            * SIZEOF_UINT ≤ 2000 := by
    simp [Finset.sum_range_succ, SIZEOF_POOLDESC, SIZEOF_UINT, DATAWIDTH]
  ⟨⟨by decide, by decide, by decide, by decide, hK, by decide, hroom⟩,
    @mem_init_returns_bytes 20 2000 16 6 4 heap0 (by decide) (by decide) (by decide)
      (by decide) hK (by decide) hroom⟩

/-- Claim C9. After a successful `mem_init(R, heap, m)` the descriptor table has
exactly one entry for each `k` with `2 * m * 2 ^ k ≤ R`, in increasing `k`, with
`size_k = m * 2 ^ k`, `avail_k = R / size_k` and `offset_k` the sum over `i < k`
of `ceil(avail_i / DATAWIDTH)`, followed by a sentinel entry with size 0 and
`fbcou` 1. -/
theorem mem_init_table {fuel R m B : Nat} {heap : Nat → Nat} {st : State} (hR : R < 65536)
    (h : mem_init fuel R m heap = some (B, st)) (hB : B ≠ 0) :
    ∃ K, st.pool.length = K + 1 ∧ (∀ k, k < K ↔ 2 * m * 2 ^ k ≤ R) ∧
      (∀ k, k < K → size_at st k = m * 2 ^ k ∧ avail_at st k = R / size_at st k ∧
        offset_at st k
          = ∑ i ∈ Finset.range k, (avail_at st i + (DATAWIDTH - 1)) / DATAWIDTH) ∧
      size_at st K = 0 ∧ fbcou_at st K = 1 := by
  obtain ⟨K, e, mem, g, hK, hmax, _, _, hBe, hst, hlen, hok, hbits⟩ := mem_init_success hR h hB
  have hinv := @inv_init R m K B g heap mem hlen hok hbits
  rw [← hst] at hinv
  have hm := g.m_pos
  refine ⟨K, hinv.pool_length, ?_, ?_, ?_, ?_⟩
  · intro k
    constructor
    · intro hk
      have := g.fits k hk
      rw [Nat.mul_assoc]; exact this
    · intro hk
      by_contra hn
      have h1 : class_size m K ≤ class_size m k := class_size_mono m (by omega)
      unfold class_size at h1
      rw [Nat.mul_assoc] at hk
      omega
  · intro k hk
    refine ⟨hinv.size_at_eq hk, ?_, ?_⟩
    · rw [hinv.avail_at_eq hk, hinv.size_at_eq hk]; rfl
    · rw [hinv.offset_at_eq hk, class_offset_eq_sum]
      apply Finset.sum_congr rfl
      intro i hi
      rw [Finset.mem_range] at hi
      rw [hinv.avail_at_eq (by omega)]
  · unfold size_at
    rw [hinv.sentinel_at]; rfl
  · unfold fbcou_at
    rw [hinv.sentinel_at]; rfl

/-- The example of the header comment: `mem_init(2000, heap, 16)` builds the
table `ex2000`, with sizes 16, 32, 64, 128, 256, 512, avails 125, 62, 31, 15,
7, 3 and offsets 0, 8, 12, 14, 15, 16. -/
theorem mem_init_table_witness :
    (2000 < 65536 ∧ mem_init 20 2000 16 heap0 = some (104, ex2000) ∧ 104 ≠ 0) ∧
    ∃ K, ex2000.pool.length = K + 1 ∧ (∀ k, k < K ↔ 2 * 16 * 2 ^ k ≤ 2000) ∧
      (∀ k, k < K → size_at ex2000 k = 16 * 2 ^ k ∧
        avail_at ex2000 k = 2000 / size_at ex2000 k ∧
        offset_at ex2000 k
          = ∑ i ∈ Finset.range k, (avail_at ex2000 i + (DATAWIDTH - 1)) / DATAWIDTH) ∧
      size_at ex2000 K = 0 ∧ fbcou_at ex2000 K = 1 :=
  ⟨⟨by decide, mem_init_ex2000, by decide⟩,
    mem_init_table (by decide) mem_init_ex2000 (by decide)⟩

/-- Claim C10. After a successful `mem_init` that returns `B`, for every class
`k`: the first bit of the bit array of the class is 1 if and only if
`size_k ≥ B`, every other bit with index below `avail_k` is 0, every bit from
index `avail_k` to the end of the last word of the class is 1, and
`fbcou_k = avail_k mod 2 + (1 if size_k ≥ B else 0)`. -/
theorem mem_init_bitmap {fuel R m B : Nat} {heap : Nat → Nat} {st : State} (hR : R < 65536)
    (h : mem_init fuel R m heap = some (B, st)) (hB : B ≠ 0) :
    ∀ k, k + 1 < st.pool.length →
      (class_bit st k 0 = true ↔ B ≤ size_at st k) ∧
      (∀ t, 0 < t → t < avail_at st k → class_bit st k t = false) ∧
      (∀ t, avail_at st k ≤ t →
        t < DATAWIDTH * ((avail_at st k + (DATAWIDTH - 1)) / DATAWIDTH) →
        class_bit st k t = true) ∧
      fbcou_at st k = avail_at st k % 2 + (if B ≤ size_at st k then 1 else 0) := by
  obtain ⟨K, e, mem, g, hK, hmax, _, _, hBe, hst, hlen, hok, hbits⟩ := mem_init_success hR h hB
  have hinv := @inv_init R m K B g heap mem hlen hok hbits
  rw [← hst] at hinv
  have hmem : st.freelist = mem := by rw [hst]
  intro k hk
  have hkK := (hinv.class_iff k).1 hk
  have hav := g.avail_ge_two hkK
  have hle := words_for_le (class_avail R m k)
  have hfb : fbcou_at st k = init_fbcou R m B k := by
    rw [hst]; exact fbcou_at_pool R m K _ _ mem hkK
  unfold class_bit
  rw [hinv.offset_at_eq hkK, hinv.size_at_eq hkK, hinv.avail_at_eq hkK, hmem]
  refine ⟨?_, ?_, ?_, ?_⟩
  · rw [hbits k hkK 0 (by omega)]
    constructor
    · rintro (h1 | ⟨_, h1⟩)
      · omega
      · exact h1
    · intro h1
      exact Or.inr ⟨rfl, h1⟩
  · intro t ht0 ht
    rw [← Bool.not_eq_true, hbits k hkK t (by omega)]
    rintro (h1 | ⟨h1, _⟩) <;> omega
  · intro t ht1 ht2
    rw [← words_for_eq] at ht2
    unfold DATAWIDTH at ht2
    rw [hbits k hkK t ht2]
    exact Or.inl ht1
  · rw [hfb]
    unfold init_fbcou
    split <;> split <;> omega

/-- The example of the header comment: after `mem_init(2000, heap, 16)`, which
returns 104, `fbcou` is 1, 0, 1, 2, 2, 2 and the bitmap words are those of
`ex2000`. -/
theorem mem_init_bitmap_witness :
    (2000 < 65536 ∧ mem_init 20 2000 16 heap0 = some (104, ex2000) ∧ 104 ≠ 0) ∧
    ∀ k, k + 1 < ex2000.pool.length →
      (class_bit ex2000 k 0 = true ↔ 104 ≤ size_at ex2000 k) ∧
      (∀ t, 0 < t → t < avail_at ex2000 k → class_bit ex2000 k t = false) ∧
      (∀ t, avail_at ex2000 k ≤ t →
        t < DATAWIDTH * ((avail_at ex2000 k + (DATAWIDTH - 1)) / DATAWIDTH) →
        class_bit ex2000 k t = true) ∧
      fbcou_at ex2000 k = avail_at ex2000 k % 2 + (if 104 ≤ size_at ex2000 k then 1 else 0) :=
  ⟨⟨by decide, mem_init_ex2000, by decide⟩,
    mem_init_bitmap (by decide) mem_init_ex2000 (by decide)⟩

end HtMalloc

namespace HtMalloc

/-! ## The split path of mem_alloc in detail -/

/-- The split path of `mem_alloc` in a state that satisfies the invariant: the
class `k` chosen for `size` has no free buddy, `j` is the first class above it
that has one. The call reserves the free buddy `b0` found at class `j`, sets the
bit of its left-most descendant at every class from `j - 1` down to `k`, and
returns the start of block `b0` of class `j`. -/
theorem mem_alloc_split_detail {R m K : Nat} {a0 : Nat → Nat} {G A : List Block}
    {al fb : Nat → Nat} {mem : List Nat}
    (hinv : Inv R m K a0 G ⟨pool_from R m al fb K 0, mem⟩ A) (size : Nat) {k j : Nat}
    (hk : size_match_loop (pool_from R m al fb K 0) size 0 = some k) (hkj : k < j)
    (hjK : j < K) (hfbj : fb j ≠ 0) (hz : ∀ c, k ≤ c → c < j → fb c = 0) :
    ∃ mem1 b0 mem2,
      fl_find_buddy mem (class_offset R m j) (class_avail R m j) = some (mem1, b0 + 1) ∧
      b0 < class_avail R m j ∧
      mem_alloc ⟨pool_from R m al fb K 0, mem⟩ size
        = some (some ((b0 * class_size m j : Nat) : Int),
            ⟨pool_from R m (Function.update al k ((al k + 1) % UINT))
              (fun c => if k ≤ c ∧ c + 1 ≤ j then
                  (Function.update fb j ((fb j + (UINT - 1)) % UINT) c + 1) % UINT
                else Function.update fb j ((fb j + (UINT - 1)) % UINT) c) K 0, mem2⟩) ∧
      mem2.length = mem.length ∧ WordsOK mem2 ∧
      ∀ x, (mem_bit mem2 x = true ↔ (mem_bit mem x = true ∨
        ∃ c, k ≤ c ∧ c ≤ j ∧ x = 16 * class_offset R m c + b0 * 2 ^ (j - c))) := by
  have g := hinv.geom
  have hk1 : k < K := by omega
  have hfbat : ∀ c, c < K → fbcou_at ⟨pool_from R m al fb K 0, mem⟩ c = fb c :=
    fun c hc => fbcou_at_pool R m K al fb mem hc
  have hget : (pool_from R m al fb K 0)[k]? = some (class_desc R m al fb k) := by
    have := pool_from_get R m al fb hk1 0
    rwa [Nat.zero_add] at this
  have hsize : (class_desc R m al fb k).size ≠ 0 := by
    have := g.size_pos k
    show class_size m k ≠ 0
    omega
  have hdrop : (pool_from R m al fb K 0).drop (k + 1)
      = pool_from R m al fb (K - (k + 1)) (k + 1) := by
    have := pool_from_drop R m al fb (by omega : k + 1 ≤ K) 0
    rwa [Nat.zero_add] at this
  obtain ⟨j2, hj, hj1, hj2, hj3, hj4⟩ := fbcou_loop_spec R m al fb (K - (k + 1)) (k + 1)
  rw [← hdrop] at hj
  have hjeq : j2 = j := by
    rcases Nat.lt_trichotomy j2 j with h | h | h
    · exact absurd (hz j2 (by omega) h) (hj3 (by omega))
    · exact h
    · exact absurd (hj4 j (by omega) h) hfbj
  subst hjeq
  have hfbk' : ¬ (class_desc R m al fb k).fbcou > 0 := by
    have := hz k (Nat.le_refl _) hkj
    show ¬ fb k > 0
    omega
  have hgetj : (pool_from R m al fb K 0)[j2]? = some (class_desc R m al fb j2) := by
    have := pool_from_get R m al fb hjK 0
    rwa [Nat.zero_add] at this
  have hsizej : (class_desc R m al fb j2).size ≠ 0 := by
    have := g.size_pos j2
    show class_size m j2 ≠ 0
    omega
  obtain ⟨mem1, b0, hfind, hmod, hb0, hfree, hset⟩ :=
    find_buddy_inv hinv hjK (by rw [hfbat j2 hjK]; exact hfbj)
  have hb0r := free_buddy_real hinv hjK hb0 hfree
  obtain ⟨j1, hj1e⟩ : ∃ j1, j2 = j1 + 1 := ⟨j2 - 1, by omega⟩
  subst hj1e
  have hpool1 : (pool_from R m al fb K 0).set (j1 + 1)
      { class_desc R m al fb (j1 + 1) with
        fbcou := ((class_desc R m al fb (j1 + 1)).fbcou + (UINT - 1)) % UINT }
      = pool_from R m al (Function.update fb (j1 + 1) ((fb (j1 + 1) + (UINT - 1)) % UINT))
          K 0 := by
    have := pool_from_set R m al fb hjK 0 (al (j1 + 1)) ((fb (j1 + 1) + (UINT - 1)) % UINT)
    simp only [Nat.zero_add] at this
    rw [Function.update_eq_self] at this
    exact this
  obtain ⟨mem2, hsplit, hlen2, hok2, hbits2⟩ := split_loop_spec g k (j1 + 1 - k) j1 al
    (Function.update fb (j1 + 1) ((fb (j1 + 1) + (UINT - 1)) % UINT)) mem1 b0
    (by omega) hjK hb0r hset.2.1 (by rw [hset.1]; exact hinv.len)
  have hsplit' : split_loop k (j1 + 1 - 1)
      ⟨(pool_from R m al fb K 0).set (j1 + 1)
        { class_desc R m al fb (j1 + 1) with
          fbcou := ((class_desc R m al fb (j1 + 1)).fbcou + (UINT - 1)) % UINT }, mem1⟩
      ((b0 + 1) % UINT)
      = some (⟨pool_from R m al (fun c => if k ≤ c ∧ c ≤ j1 then
            (Function.update fb (j1 + 1) ((fb (j1 + 1) + (UINT - 1)) % UINT) c + 1) % UINT
          else Function.update fb (j1 + 1) ((fb (j1 + 1) + (UINT - 1)) % UINT) c) K 0,
          mem2⟩, b0 * 2 ^ (j1 + 1 - k) + 1) := by
    rw [hpool1, hmod, Nat.add_sub_cancel]
    exact hsplit
  have hget2 := pool_from_get R m al (fun c => if k ≤ c ∧ c ≤ j1 then
      (Function.update fb (j1 + 1) ((fb (j1 + 1) + (UINT - 1)) % UINT) c + 1) % UINT
    else Function.update fb (j1 + 1) ((fb (j1 + 1) + (UINT - 1)) % UINT) c) hk1 0
  rw [Nat.zero_add] at hget2
  have hres := @mem_alloc_split ⟨pool_from R m al fb K 0, mem⟩ _ _ _ _ _ _ _ _ _ _ hk hget hsize
    hfbk' hj hgetj hsizej hfind hsplit' hget2
  have hpool2 := pool_from_set R m al (fun c => if k ≤ c ∧ c ≤ j1 then
      (Function.update fb (j1 + 1) ((fb (j1 + 1) + (UINT - 1)) % UINT) c + 1) % UINT
    else Function.update fb (j1 + 1) ((fb (j1 + 1) + (UINT - 1)) % UINT) c) hk1 0
    ((al k + 1) % UINT) (if k ≤ k ∧ k ≤ j1 then
      (Function.update fb (j1 + 1) ((fb (j1 + 1) + (UINT - 1)) % UINT) k + 1) % UINT
    else Function.update fb (j1 + 1) ((fb (j1 + 1) + (UINT - 1)) % UINT) k)
  simp only [Nat.zero_add] at hpool2
  rw [Function.update_eq_self (f := fun c => if k ≤ c ∧ c ≤ j1 then
      (Function.update fb (j1 + 1) ((fb (j1 + 1) + (UINT - 1)) % UINT) c + 1) % UINT
    else Function.update fb (j1 + 1) ((fb (j1 + 1) + (UINT - 1)) % UINT) c)] at hpool2
  have hfun : (fun c => if k ≤ c ∧ c + 1 ≤ j1 + 1 then
        (Function.update fb (j1 + 1) ((fb (j1 + 1) + (UINT - 1)) % UINT) c + 1) % UINT
      else Function.update fb (j1 + 1) ((fb (j1 + 1) + (UINT - 1)) % UINT) c)
      = (fun c => if k ≤ c ∧ c ≤ j1 then
        (Function.update fb (j1 + 1) ((fb (j1 + 1) + (UINT - 1)) % UINT) c + 1) % UINT
      else Function.update fb (j1 + 1) ((fb (j1 + 1) + (UINT - 1)) % UINT) c) := by
    funext c
    by_cases hc : k ≤ c ∧ c ≤ j1
    · rw [if_pos hc, if_pos ⟨hc.1, by omega⟩]
    · rw [if_neg hc, if_neg (fun h => hc ⟨h.1, by omega⟩)]
  have hptr : ((b0 * class_size m (j1 + 1) : Nat) : Int)
      = ((b0 * 2 ^ (j1 + 1 - k) * class_size m k : Nat) : Int) := by
    have e : class_size m (j1 + 1) = class_size m k * 2 ^ (j1 + 1 - k) := by
      rw [← class_size_add]; congr 1; omega
    rw [e]
    congr 1
    ring
  refine ⟨mem1, b0, mem2, ?_, hb0r, ?_, by rw [hlen2, hset.1], hok2, ?_⟩
  · exact hfind
  · rw [hres, hfun, hptr]
    simp only [class_desc]
    rw [hpool2, ptr_cast]
  · intro x
    rw [hbits2, hset.2.2]
    constructor
    · rintro (h | ⟨c, h1, h2, h3⟩)
      · simp only [Bool.or_eq_true, decide_eq_true_eq] at h
        rcases h with h | h
        · exact Or.inl h
        · exact Or.inr ⟨j1 + 1, by omega, by omega, by rw [h]; simp⟩
      · exact Or.inr ⟨c, h1, by omega, h3⟩
    · rintro (h | ⟨c, h1, h2, h3⟩)
      · left; simp [h]
      · by_cases hc : c = j1 + 1
        · subst hc
          left
          simp only [Nat.sub_self, pow_zero, mul_one] at h3
          simp [h3]
        · exact Or.inr ⟨c, h1, by omega, h3⟩

end HtMalloc

namespace HtMalloc

/-! ## The two loops of mem_free in detail -/

/-- A valid `mem_free` in a state that satisfies the invariant, for the block
`i` of class `k`: the class discovery stops at `k`, the walk clears the bit of
the block at every class it reaches, steps `fbcou` there up or down by the
sibling bit `sb`, and lowers `alloccou[k]`. `x c` is the block number at class
`c`. -/
theorem mem_free_detail {R m K : Nat} {a0 : Nat → Nat} {G A1 A2 : List Block}
    {al fb : Nat → Nat} {mem : List Nat} {k i : Nat}
    (hinv : Inv R m K a0 G ⟨pool_from R m al fb K 0, mem⟩ (A1 ++ (k, i) :: A2)) :
    ∃ (x : Nat → Nat) (sb : Nat → Bool) (mem1 : List Nat),
      k < K ∧ i < class_avail R m k ∧
      (∀ c, c < K →
        block_number ((i * class_size m k : Nat) : Int) (class_size m c) = x c) ∧
      x k = i ∧
      (∀ c, c < k → class_bits mem (class_offset R m c) (x c) = false) ∧
      class_bits mem (class_offset R m k) (x k) = true ∧
      mem_free_find (pool_from R m al fb K 0) mem ((i * class_size m k : Nat) : Int) 0
        = some (k, true) ∧
      (∀ c, c < K → Reached sb k c → x c < class_avail R m c ∧
        sb c = class_bits mem (class_offset R m c) (sibling (x c))) ∧
      mem_free ⟨pool_from R m al fb K 0, mem⟩ ((i * class_size m k : Nat) : Int)
        = some ⟨pool_from R m (Function.update al k ((al k + (UINT - 1)) % UINT))
            (fun c1 => if c1 < K ∧ Reached sb k c1 then
                (if sb c1 = true then (fb c1 + 1) % UINT else (fb c1 + (UINT - 1)) % UINT)
              else fb c1) K 0, mem1⟩ ∧
      mem1.length = mem.length ∧ WordsOK mem1 ∧
      (∀ y, mem_bit mem1 y = true ↔ (mem_bit mem y = true ∧
        ¬ ∃ c1, c1 < K ∧ Reached sb k c1 ∧ y = 16 * class_offset R m c1 + x c1)) := by
  classical
  have g := hinv.geom
  have hassoc : (A1 ++ (k, i) :: A2) ++ G = A1 ++ (k, i) :: (A2 ++ G) := by
    rw [List.append_assoc, List.cons_append]
  have hpw := hinv.excl
  rw [hassoc] at hpw
  have hmemb : (k, i) ∈ A1 ++ (k, i) :: (A2 ++ G) :=
    List.mem_append.2 (Or.inr (List.mem_cons_self _ _))
  have hkr := hinv.real (k, i) (by rw [hassoc]; exact hmemb)
  simp only at hkr
  obtain ⟨hkK, hi⟩ := hkr
  have hbits := hinv.bits
  rw [hassoc] at hbits
  simp only at hbits
  have hi16 : i < 65536 := by have := g.avail_lt k; omega
  have hfbat : ∀ c, c < K → fbcou_at ⟨pool_from R m al fb K 0, mem⟩ c = fb c :=
    fun c hc => fbcou_at_pool R m K al fb mem hc
  have halat : ∀ c, c < K → alloccou_at ⟨pool_from R m al fb K 0, mem⟩ c = al c :=
    fun c hc => alloccou_at_pool R m K al fb mem hc
  -- the block number at every class
  obtain ⟨x, hxdef⟩ : ∃ x : Nat → Nat, ∀ c, x c = if k ≤ c then i / 2 ^ (c - k)
      else i * 2 ^ (k - c) := ⟨_, fun _ => rfl⟩
  have hxup : ∀ c, k ≤ c → x c = i / 2 ^ (c - k) := fun c h => by rw [hxdef, if_pos h]
  have hxdn : ∀ c, c ≤ k → x c = i * 2 ^ (k - c) := by
    intro c h
    by_cases hck : c = k
    · subst hck; rw [hxup c (Nat.le_refl _)]; simp
    · rw [hxdef, if_neg (by omega)]
  have hxk : x k = i := by rw [hxup k (Nat.le_refl _)]; simp
  have hdnreal : ∀ c, c ≤ k → x c < class_avail R m c := by
    intro c hc
    rw [hxdn c hc]
    exact descendant_real R m hc hi (Nat.mul_div_cancel _ (Nat.two_pow_pos _))
  have hx : ∀ c, c < K → block_number ((i * class_size m k : Nat) : Int) (class_size m c) = x c := by
    intro c _
    by_cases hkc : k ≤ c
    · rw [hxup c hkc]; exact block_number_up g.m_pos hkc hi16
    · have h1 := hdnreal c (by omega)
      have h2 := g.avail_lt c
      rw [hxdn c (by omega)] at h1 ⊢
      exact block_number_down g.m_pos (by omega) (by omega)
  -- class discovery
  have hzero : ∀ c, c < k → class_bits mem (class_offset R m c) (x c) = false := by
    intro c hc
    cases h : class_bits mem (class_offset R m c) (x c)
    · rfl
    · exfalso
      have h1 := (hbits c (x c) (by omega)
        (class_bits_in_range g (by omega) (hdnreal c (by omega)))).1 h
      rcases h1 with h1 | h1
      · have := hdnreal c (by omega); omega
      · refine not_covered_below hpw hmemb hc ?_ h1
        rw [hxdn c (by omega)]
        exact Nat.mul_div_cancel _ (Nat.two_pow_pos _)
  have hone : class_bits mem (class_offset R m k) (x k) = true := by
    rw [hxk]
    exact (hbits k i hkK (class_bits_in_range g hkK hi)).2
      (Or.inr ⟨(k, i), hmemb, covers_self _⟩)
  have hfind := @mem_free_find_spec _ _ _ g al fb x ((i * class_size m k : Nat) : Int)
    mem hinv.words hinv.len _ hkK (fun c hc => hx c (by omega)) hdnreal
    hzero hone
    K 0 (by omega) (by omega)
  have hget : (pool_from R m al fb K 0)[k]? = some (class_desc R m al fb k) := by
    have := pool_from_get R m al fb hkK 0
    rwa [Nat.zero_add] at this
  have hpool1 := pool_from_set R m al fb hkK 0 ((al k + (UINT - 1)) % UINT) (fb k)
  simp only [Nat.zero_add] at hpool1
  rw [Function.update_eq_self] at hpool1
  have hdrop := pool_from_drop R m (Function.update al k ((al k + (UINT - 1)) % UINT)) fb
    (Nat.le_of_lt hkK) 0
  rw [Nat.zero_add] at hdrop
  -- the sibling bits met by the walk
  obtain ⟨sb, hsbdef⟩ : ∃ sb : Nat → Bool, ∀ c, sb c = true ↔
      full R m (A1 ++ (k, i) :: (A2 ++ G)) c (sibling (i / 2 ^ (c - k))) :=
    ⟨fun c => decide (full R m (A1 ++ (k, i) :: (A2 ++ G)) c (sibling (i / 2 ^ (c - k)))),
      fun c => by simp⟩
  have hsbf : ∀ c, sb c = false →
      ¬ full R m (A1 ++ (k, i) :: (A2 ++ G)) c (sibling (i / 2 ^ (c - k))) := by
    intro c h hf
    rw [(hsbdef c).2 hf] at h
    simp at h
  have hreach : ∀ c, c < K → Reached sb k c → x c < class_avail R m c := by
    intro c _ hr
    have hkc := hr.1
    have := reached_real hi hsbf (c - k) (by
      have e : k + (c - k) = c := by omega
      rw [e]; exact hr)
    have e : k + (c - k) = c := by omega
    rw [e] at this
    rw [hxup c hkc]; exact this
  have hsbeq : ∀ c, k ≤ c → c < K → x c < class_avail R m c →
      class_bits mem (class_offset R m c) (sibling (x c)) = sb c := by
    intro c hkc hc hr
    have hin := sibling_in_range (words_even _) (class_bits_in_range g hc hr)
    apply bool_eq_of_iff
    rw [hbits c (sibling (x c)) hc hin, hxup c hkc, hsbdef c]
  obtain ⟨mem1, hup, hlen1, hok1, hbits1⟩ := mem_free_up_spec g
    (Function.update al k ((al k + (UINT - 1)) % UINT)) x sb ((i * class_size m k : Nat) : Int)
    (K - k) k fb mem (by omega) hinv.words hinv.len (fun c _ hc => hx c hc) hreach
    hsbeq
  have hres := @mem_free_eq ⟨pool_from R m al fb K 0, mem⟩ _ _ _
    (pool_from R m (Function.update al k ((al k + (UINT - 1)) % UINT))
      (fun c1 => if c1 < K ∧ Reached sb k c1 then
          (if sb c1 = true then (fb c1 + 1) % UINT else (fb c1 + (UINT - 1)) % UINT)
        else fb c1) (K - k) k)
    mem1 hfind hget
    (by
      simp only [class_desc]
      rw [hpool1, hdrop]
      exact hup)
  have happ := @pool_from_take_append R m (Function.update al k ((al k + (UINT - 1)) % UINT)) fb
    (fun c1 => if c1 < K ∧ Reached sb k c1 then
          (if sb c1 = true then (fb c1 + 1) % UINT else (fb c1 + (UINT - 1)) % UINT)
        else fb c1) _ _ (Nat.le_of_lt hkK)
    (by
      intro c hc
      beta_reduce
      rw [if_neg]
      rintro ⟨_, h⟩
      have := h.1
      omega)
  simp only [class_desc] at hres
  rw [hpool1, happ] at hres
  refine ⟨x, sb, mem1, hkK, hi, hx, hxk, hzero, hone, hfind, ?_, hres, hlen1, hok1, hbits1⟩
  intro c hc hr
  have h1 := hreach c hc hr
  exact ⟨h1, (hsbeq c hr.1 hc h1).symm⟩

end HtMalloc

namespace HtMalloc

/-! ## Reading the table at and beyond the sentinel -/

theorem pool_from_getElem_ge (R m : Nat) (al fb al1 fb1 : Nat → Nat) (K : Nat) {c : Nat}
    (hc : K ≤ c) : (pool_from R m al fb K 0)[c]? = (pool_from R m al1 fb1 K 0)[c]? := by
  by_cases h : c = K
  · subst h
    rw [pool_from_get_last, pool_from_get_last]
  · rw [List.getElem?_eq_none (by rw [pool_from_length]; omega),
      List.getElem?_eq_none (by rw [pool_from_length]; omega)]

theorem pool_from_getElem_size (R m : Nat) (al fb al1 fb1 : Nat → Nat) (K c : Nat) :
    ((pool_from R m al fb K 0)[c]?).map (fun d => (d.size, d.offset, d.avail))
      = ((pool_from R m al1 fb1 K 0)[c]?).map (fun d => (d.size, d.offset, d.avail)) := by
  by_cases h : c < K
  · have h1 := pool_from_get R m al fb h 0
    have h2 := pool_from_get R m al1 fb1 h 0
    rw [Nat.zero_add] at h1 h2
    rw [h1, h2]
    rfl
  · rw [pool_from_getElem_ge R m al fb al1 fb1 K (by omega)]

theorem size_at_pool_any (R m : Nat) (al fb al1 fb1 : Nat → Nat) (mem mem1 : List Nat)
    (K c : Nat) :
    size_at ⟨pool_from R m al fb K 0, mem⟩ c = size_at ⟨pool_from R m al1 fb1 K 0, mem1⟩ c ∧
    offset_at ⟨pool_from R m al fb K 0, mem⟩ c
      = offset_at ⟨pool_from R m al1 fb1 K 0, mem1⟩ c ∧
    avail_at ⟨pool_from R m al fb K 0, mem⟩ c
      = avail_at ⟨pool_from R m al1 fb1 K 0, mem1⟩ c := by
  have h := pool_from_getElem_size R m al fb al1 fb1 K c
  unfold size_at offset_at avail_at
  dsimp only
  cases h1 : (pool_from R m al fb K 0)[c]? <;> cases h2 : (pool_from R m al1 fb1 K 0)[c]? <;>
    rw [h1, h2] at h <;> simp at h
  · exact ⟨rfl, rfl, rfl⟩
  · exact h

theorem fbcou_at_pool_ge (R m : Nat) (al fb al1 fb1 : Nat → Nat) (mem mem1 : List Nat)
    (K : Nat) {c : Nat} (hc : K ≤ c) :
    fbcou_at ⟨pool_from R m al fb K 0, mem⟩ c = fbcou_at ⟨pool_from R m al1 fb1 K 0, mem1⟩ c := by
  unfold fbcou_at
  dsimp only
  rw [pool_from_getElem_ge R m al fb al1 fb1 K hc]

theorem alloccou_at_pool_ge (R m : Nat) (al fb al1 fb1 : Nat → Nat) (mem mem1 : List Nat)
    (K : Nat) {c : Nat} (hc : K ≤ c) :
    alloccou_at ⟨pool_from R m al fb K 0, mem⟩ c
      = alloccou_at ⟨pool_from R m al1 fb1 K 0, mem1⟩ c := by
  unfold alloccou_at
  dsimp only
  rw [pool_from_getElem_ge R m al fb al1 fb1 K hc]

/-- In a state that satisfies the invariant a free-buddy counter is far from
wrapping. -/
theorem Inv.fbcou_lt {R m K : Nat} {a0 : Nat → Nat} {G A : List Block} {st : State}
    (h : Inv R m K a0 G st A) {k : Nat} (hk : k < K) : fbcou_at st k + 1 < UINT := by
  rw [h.fb k hk]
  have h1 := free_buddies_le (class_bits st.freelist (class_offset R m k))
    (16 * words_for (class_avail R m k))
  have h2 := words_for_lt (class_avail R m k)
  have h3 := h.geom.avail_lt k
  unfold UINT
  omega

/-- Two walks agree as long as the bits they meet agree. -/
theorem reached_congr {sb sb1 : Nat → Bool} {k K : Nat}
    (h : ∀ c, c < K → Reached sb k c → sb c = sb1 c) :
    ∀ c, c ≤ K → (Reached sb k c ↔ Reached sb1 k c) := by
  have key : ∀ n c, c ≤ n → c ≤ K → (Reached sb k c ↔ Reached sb1 k c) := by
    intro n
    induction n with
    | zero =>
      intro c hc _
      have : c = 0 := by omega
      subst this
      unfold Reached
      constructor
      · rintro ⟨h1, _⟩; exact ⟨h1, fun c1 h2 _ => by omega⟩
      · rintro ⟨h1, _⟩; exact ⟨h1, fun c1 h2 _ => by omega⟩
    | succ n ih =>
      intro c hc hcK
      by_cases hcn : c ≤ n
      · exact ih c hcn hcK
      · have hceq : c = n + 1 := by omega
        subst hceq
        constructor
        · rintro ⟨h1, h2⟩
          refine ⟨h1, fun c1 hc1 hk1 => ?_⟩
          have hr : Reached sb k c1 := ⟨hk1, fun c2 h3 h4 => h2 c2 (by omega) h4⟩
          rw [← h c1 (by omega) hr]
          exact h2 c1 hc1 hk1
        · rintro ⟨h1, h2⟩
          refine ⟨h1, fun c1 hc1 hk1 => ?_⟩
          have hr1 : Reached sb1 k c1 := ⟨hk1, fun c2 h3 h4 => h2 c2 (by omega) h4⟩
          have hr : Reached sb k c1 := (ih c1 (by omega) (by omega)).2 hr1
          rw [h c1 (by omega) hr]
          exact h2 c1 hc1 hk1
  intro c hc
  exact key c c (Nat.le_refl _) hc

end HtMalloc

namespace HtMalloc

/-! ## A valid mem_free in a reachable state -/

/-- A call `mem_free(p)` on a live pointer `p` served from class `k`, in a state
reached from a successful `mem_init`: what the class discovery finds and what
the coalescing walk changes. -/
theorem reach_free_detail {fuel R m : Nat} {heap : Nat → Nat} {st : State}
    {live : List (Int × Nat)} (hR : R < 65536) (h : Reach fuel R m heap st live)
    {p : Int} {k : Nat} (hp : (p, k) ∈ live) :
    k + 1 < st.pool.length ∧
    class_bit st k (block_number p (size_at st k)) = true ∧
    (∀ c, c < k → class_bit st c (block_number p (size_at st c)) = false) ∧
    mem_free_find st.pool st.freelist p 0 = some (k, true) ∧
    ∃ st1, mem_free st p = some st1 ∧
      st1.pool.length = st.pool.length ∧ st1.freelist.length = st.freelist.length ∧
      (∀ c, size_at st1 c = size_at st c ∧ offset_at st1 c = offset_at st c ∧
        avail_at st1 c = avail_at st c) ∧
      (∀ y, mem_bit st1.freelist y = true ↔ (mem_bit st.freelist y = true ∧
        ¬ ∃ c, Visited st p k c ∧ y = 16 * offset_at st c + block_number p (size_at st c))) ∧
      (∀ c, Visited st p k c → k ≤ c ∧ block_number p (size_at st c) < avail_at st c) ∧
      (∀ c, Visited st p k c → sibling_bit st p c = true →
        fbcou_at st1 c = fbcou_at st c + 1) ∧
      (∀ c, Visited st p k c → sibling_bit st p c = false →
        fbcou_at st1 c + 1 = fbcou_at st c) ∧
      (∀ c, ¬ Visited st p k c → fbcou_at st1 c = fbcou_at st c) ∧
      alloccou_at st1 k = (alloccou_at st k + (UINT - 1)) % UINT ∧
      (∀ c, c ≠ k → alloccou_at st1 c = alloccou_at st c) := by
  obtain ⟨K, B, st0, A, _, _, _, _, _, _, hinv, hlive⟩ := reach_inv hR h
  rw [hlive, List.mem_map] at hp
  obtain ⟨b, hbA, hbp⟩ := hp
  have g := hinv.geom
  obtain ⟨hb1, hpeq⟩ := block_ptr_eq g.m_pos hbp
  obtain ⟨A1, A2, hA⟩ := List.append_of_mem hbA
  rw [hb1] at hA
  rw [hA] at hinv
  obtain ⟨al, fb, mem, hst⟩ := hinv.exists_form
  rw [hst] at hinv ⊢
  rw [hpeq]
  obtain ⟨x, sb, mem1, hkK, hi, hx, hxk, hzero, hone, hfind, hsb, hres, hlen1, hok1, hbits1⟩ :=
    mem_free_detail hinv
  have hi16 : b.2 < 65536 := by have := g.avail_lt k; omega
  have hsz : ∀ c, c < K → size_at ⟨pool_from R m al fb K 0, mem⟩ c = class_size m c :=
    fun c hc => size_at_pool R m K al fb mem hc
  have hof : ∀ c, c < K → offset_at ⟨pool_from R m al fb K 0, mem⟩ c = class_offset R m c :=
    fun c hc => offset_at_pool R m K al fb mem hc
  have hav : ∀ c, c < K → avail_at ⟨pool_from R m al fb K 0, mem⟩ c = class_avail R m c :=
    fun c hc => avail_at_pool R m K al fb mem hc
  have hfbat : ∀ c, c < K → fbcou_at ⟨pool_from R m al fb K 0, mem⟩ c = fb c :=
    fun c hc => fbcou_at_pool R m K al fb mem hc
  have halat : ∀ c, c < K → alloccou_at ⟨pool_from R m al fb K 0, mem⟩ c = al c :=
    fun c hc => alloccou_at_pool R m K al fb mem hc
  have hbn : ∀ c, c < K → block_number ((b.2 * class_size m k : Nat) : Int)
      (size_at ⟨pool_from R m al fb K 0, mem⟩ c) = x c := by
    intro c hc
    rw [hsz c hc]
    exact hx c hc
  have hcb : ∀ c t, c < K → class_bit ⟨pool_from R m al fb K 0, mem⟩ c t
      = class_bits mem (class_offset R m c) t := by
    intro c t hc
    unfold class_bit
    rw [hof c hc]
  have hsbit : ∀ c, c < K →
      sibling_bit ⟨pool_from R m al fb K 0, mem⟩ ((b.2 * class_size m k : Nat) : Int) c
        = class_bits mem (class_offset R m c) (sibling (x c)) := by
    intro c hc
    unfold sibling_bit
    rw [hbn c hc, hcb c _ hc]
  have hlenp : (pool_from R m al fb K 0).length = K + 1 := pool_from_length R m al fb K 0
  have hvis : ∀ c, Visited ⟨pool_from R m al fb K 0, mem⟩ ((b.2 * class_size m k : Nat) : Int) k c
      ↔ (c < K ∧ Reached sb k c) := by
    intro c
    unfold Visited
    dsimp only
    rw [hlenp]
    constructor
    · rintro ⟨h1, h2⟩
      have hc : c < K := by omega
      refine ⟨hc, (reached_congr (fun c1 hc1 hr => ?_) c (Nat.le_of_lt hc)).2 h2⟩
      rw [hsbit c1 hc1]
      exact (hsb c1 hc1 hr).2
    · rintro ⟨hc, h2⟩
      refine ⟨by omega, (reached_congr (fun c1 hc1 hr => ?_) c (Nat.le_of_lt hc)).1 h2⟩
      rw [hsbit c1 hc1]
      exact (hsb c1 hc1 hr).2
  have hxup : ∀ c, k ≤ c → c < K → x c = b.2 / 2 ^ (c - k) := by
    intro c hkc hc
    rw [← hx c hc]
    exact block_number_up g.m_pos hkc hi16
  have hbitx : ∀ c, k ≤ c → c < K → x c < class_avail R m c →
      class_bits mem (class_offset R m c) (x c) = true := by
    intro c hkc hc hr
    refine (hinv.bits c (x c) hc (class_bits_in_range g hc hr)).2 (Or.inr ⟨(k, b.2), ?_, hkc, ?_⟩)
    · exact List.mem_append_left _ (List.mem_append_right _ (List.mem_cons_self _ _))
    · exact (hxup c hkc hc).symm
  refine ⟨by rw [hlenp]; omega, ?_, ?_, hfind, _, hres, ?_, hlen1, ?_, ?_, ?_, ?_, ?_, ?_, ?_, ?_⟩
  · rw [hbn k hkK, hcb k _ hkK]; exact hone
  · intro c hc
    rw [hbn c (by omega), hcb c _ (by omega)]; exact hzero c hc
  · rw [pool_from_length, pool_from_length]
  · intro c
    exact size_at_pool_any R m _ _ al fb mem1 mem K c
  · intro y
    rw [hbits1 y]
    constructor
    · rintro ⟨h1, h2⟩
      refine ⟨h1, ?_⟩
      rintro ⟨c, hv, hy⟩
      have hv1 := (hvis c).1 hv
      exact h2 ⟨c, hv1.1, hv1.2, by rw [hy, hof c hv1.1, hbn c hv1.1]⟩
    · rintro ⟨h1, h2⟩
      refine ⟨h1, ?_⟩
      rintro ⟨c, hc, hr, hy⟩
      exact h2 ⟨c, (hvis c).2 ⟨hc, hr⟩, by rw [hy, hof c hc, hbn c hc]⟩
  · intro c hv
    have hv1 := (hvis c).1 hv
    rw [hbn c hv1.1, hav c hv1.1]
    exact ⟨hv1.2.1, (hsb c hv1.1 hv1.2).1⟩
  · intro c hv hs
    have hv1 := (hvis c).1 hv
    rw [hsbit c hv1.1, ← (hsb c hv1.1 hv1.2).2] at hs
    rw [fbcou_at_pool R m K _ _ mem1 hv1.1, hfbat c hv1.1, if_pos hv1, if_pos hs]
    have := hinv.fbcou_lt hv1.1
    rw [hfbat c hv1.1] at this
    exact Nat.mod_eq_of_lt (by omega)
  · intro c hv hs
    have hv1 := (hvis c).1 hv
    have hreal := (hsb c hv1.1 hv1.2).1
    have hs2 := hs
    rw [hsbit c hv1.1] at hs2
    rw [hsbit c hv1.1, ← (hsb c hv1.1 hv1.2).2] at hs
    have hne : ¬ sb c = true := by rw [hs]; simp
    rw [fbcou_at_pool R m K _ _ mem1 hv1.1, hfbat c hv1.1, if_pos hv1, if_neg hne]
    have hlt := hinv.fbcou_lt hv1.1
    have hfree : is_free_buddy (class_bits mem (class_offset R m c)) (sibling (x c)) = true := by
      unfold is_free_buddy
      rw [hs2, sibling_sibling, hbitx c hv1.2.1 hv1.1 hreal]
      rfl
    have hin := sibling_in_range (words_even (class_avail R m c))
      (class_bits_in_range g hv1.1 hreal)
    have hpos := free_buddies_ne_zero hin hfree
    have hfbeq := hinv.fb c hv1.1
    rw [hfbat c hv1.1] at hfbeq hlt
    dsimp only at hfbeq
    rw [← hfbeq] at hpos
    unfold UINT at hlt ⊢
    omega
  · intro c hv
    by_cases hc : c < K
    · rw [fbcou_at_pool R m K _ _ mem1 hc, hfbat c hc,
        if_neg (fun h1 => hv ((hvis c).2 h1))]
    · exact fbcou_at_pool_ge R m _ _ al fb mem1 mem K (by omega)
  · rw [alloccou_at_pool R m K _ _ mem1 hkK, halat k hkK, Function.update_same]
  · intro c hck
    by_cases hc : c < K
    · rw [alloccou_at_pool R m K _ _ mem1 hc, halat c hc, Function.update_noteq hck]
    · exact alloccou_at_pool_ge R m _ _ al fb mem1 mem K (by omega)

end HtMalloc

namespace HtMalloc

/-! ## The free-twin mask and the within-class search, word by word -/

/-- The mask of `freebinary` is the twin mask, already a `uint`. -/
theorem freebinary_eq {w : Nat} (hw : w < 65536) :
    freebinary w = (((w &&& MASK55) <<< 1) ||| ((w &&& MASKaa) >>> 1)) &&& (UINT - 1 - w) := by
  unfold freebinary
  exact Nat.mod_eq_of_lt (twin_mask_lt hw)

theorem freebinary_lt {w : Nat} (hw : w < 65536) : freebinary w < 65536 := by
  rw [freebinary_eq hw]; exact twin_mask_lt hw

/-- The loop of `fl_find_buddy` in terms of the words it reads. -/
theorem fl_find_buddy_loop_words {mem : List Nat} (hok : WordsOK mem) (fl : Nat) :
    ∀ cnt, fl + cnt ≤ mem.length →
      ∃ mem1 r, fl_find_buddy_loop mem fl cnt = some (mem1, r) ∧
        ((r = 0 ∧ mem1 = mem ∧ ∀ c w, c < cnt → mem[fl + c]? = some w → freebinary w = 0) ∨
         (∃ c t w, c < cnt ∧ mem[fl + c]? = some w ∧ freebinary w ≠ 0 ∧
            (∀ c1 w1, c < c1 → c1 < cnt → mem[fl + c1]? = some w1 → freebinary w1 = 0) ∧
            IsLowest (freebinary w) t ∧ t < DATAWIDTH ∧
            mem1 = mem.set (fl + c) (w ||| (1 <<< t)) ∧ r = c * DATAWIDTH + t + 1)) := by
  intro cnt
  induction cnt with
  | zero =>
    intro _
    refine ⟨mem, 0, rfl, Or.inl ⟨rfl, rfl, ?_⟩⟩
    intro c w hc; omega
  | succ cnt ih =>
    intro hlen
    obtain ⟨w, hw⟩ := get_of_lt (by omega : fl + cnt < mem.length)
    have hlt := WordsOK_get hok hw
    have hmask : ((((w &&& MASK55) <<< 1) ||| ((w &&& MASKaa) >>> 1)) &&& (UINT - 1 - w)) % UINT
        = ((((w &&& MASK55) <<< 1) ||| ((w &&& MASKaa) >>> 1)) &&& (UINT - 1 - w)) :=
      Nat.mod_eq_of_lt (twin_mask_lt hlt)
    have hfb := freebinary_eq hlt
    by_cases hm : ((((w &&& MASK55) <<< 1) ||| ((w &&& MASKaa) >>> 1)) &&& (UINT - 1 - w)) = 0
    · obtain ⟨mem1, r, hr, hf⟩ := ih (by omega)
      refine ⟨mem1, r, ?_, ?_⟩
      · rw [fl_find_buddy_loop]
        simp only [hw, hmask, hm, ne_eq, not_true_eq_false, if_false]
        exact hr
      · have hword : ∀ w1, mem[fl + cnt]? = some w1 → freebinary w1 = 0 := by
          intro w1 hw1
          rw [hw] at hw1
          simp only [Option.some.injEq] at hw1
          rw [← hw1, hfb, hm]
        rcases hf with ⟨h0, h1, h2⟩ | ⟨c, t, w2, hc, hw2, hne, hhi, hlow, ht, hset, hr2⟩
        · refine Or.inl ⟨h0, h1, ?_⟩
          intro c w1 hc hw1
          by_cases hcc : c < cnt
          · exact h2 c w1 hcc hw1
          · have : c = cnt := by omega
            subst this
            exact hword w1 hw1
        · refine Or.inr ⟨c, t, w2, by omega, hw2, hne, ?_, hlow, ht, hset, hr2⟩
          intro c1 w1 h1 h2 hw1
          by_cases hcc : c1 < cnt
          · exact hhi c1 w1 h1 hcc hw1
          · have : c1 = cnt := by omega
            subst this
            exact hword w1 hw1
    · obtain ⟨p, hp⟩ := exists_isLowest hm
      have hp16 := isLowest_lt_16 (twin_mask_lt hlt) hp
      have hfirst := first_bit_loop_spec (twin_mask_lt hlt) hp
      refine ⟨mem.set (fl + cnt) ((w ||| (1 <<< p)) % UINT), p + 1 + cnt * DATAWIDTH, ?_, ?_⟩
      · rw [fl_find_buddy_loop]
        simp only [hw, hmask, hm, ne_eq, not_false_eq_true, if_true, hfirst, Nat.add_sub_cancel]
      · refine Or.inr ⟨cnt, p, w, by omega, hw, by rw [hfb]; exact hm, ?_, by rw [hfb]; exact hp,
          by unfold DATAWIDTH; exact hp16, ?_, by omega⟩
        · intro c1 w1 h1 h2; omega
        · have : (w ||| (1 <<< p)) % UINT = w ||| (1 <<< p) :=
            Nat.mod_eq_of_lt (set_bit_lt hlt hp16)
          rw [this]

/-- The C function `fl_find_buddy` in terms of the words it reads. -/
theorem fl_find_buddy_words_aux {mem : List Nat} (hok : WordsOK mem) {fl avail : Nat}
    (ha : 1 ≤ avail) (ha2 : avail < 65536)
    (hlen : fl + (avail + (DATAWIDTH - 1)) / DATAWIDTH ≤ mem.length) :
    ∃ mem1 r, fl_find_buddy mem fl avail = some (mem1, r) ∧
      ((r = 0 ∧ mem1 = mem ∧
          ∀ c w, c < (avail + (DATAWIDTH - 1)) / DATAWIDTH → mem[fl + c]? = some w →
            freebinary w = 0) ∨
       (∃ c t w, c < (avail + (DATAWIDTH - 1)) / DATAWIDTH ∧ mem[fl + c]? = some w ∧
          freebinary w ≠ 0 ∧
          (∀ c1 w1, c < c1 → c1 < (avail + (DATAWIDTH - 1)) / DATAWIDTH →
            mem[fl + c1]? = some w1 → freebinary w1 = 0) ∧
          IsLowest (freebinary w) t ∧ t < DATAWIDTH ∧
          mem1 = mem.set (fl + c) (w ||| (1 <<< t)) ∧ r = c * DATAWIDTH + t + 1)) := by
  have e : ((if avail % DATAWIDTH ≠ 0 then (avail / DATAWIDTH + 1) % UINT else avail / DATAWIDTH)
      + (UINT - 1)) % UINT + 1 = (avail + (DATAWIDTH - 1)) / DATAWIDTH := by
    unfold DATAWIDTH UINT at *
    split <;> omega
  unfold fl_find_buddy
  simp only [e]
  exact fl_find_buddy_loop_words hok fl _ hlen

/-- Bit `i` of the mask of `freebinary`: set when bit `i` of the word is 0 and
its sibling bit is 1. -/
theorem freebinary_testBit {w : Nat} (hw : w < 65536) {i : Nat} (hi : i < 16) :
    (freebinary w).testBit i = (!w.testBit i && w.testBit (sibling i)) := by
  rw [freebinary_eq hw]
  exact twin_mask_testBit hw hi

/-! ## More evaluations of the worked examples -/

set_option maxRecDepth 100000

theorem wordsOK_ex2000 : WordsOK ex2000.freelist := by
  unfold WordsOK
  decide

theorem reach_ex2000_one : Reach 20 2000 16 heap0 ex2000_one [(1984, 0)] :=
  Reach.alloc reach_ex2000 mem_alloc_ex2000 (by decide)

theorem fl_find_buddy_ex2000 :
    fl_find_buddy ex2000.freelist 0 125 = some (ex2000_one.freelist, 125) := by decide

theorem fl_find_buddy_ex2000_one :
    fl_find_buddy ex2000_one.freelist 12 31
      = some ([0, 0, 0, 0, 0, 0, 0, 0xf000, 0, 0, 0, 0xc000, 0, 0xc000, 0x8001, 0xff81, 0xfff9],
          31) := by decide

theorem fl_find_buddy_ex_corrupt :
    fl_find_buddy ex_corrupt.freelist 0 125 = some (ex_corrupt.freelist, 0) := by decide

theorem mem_alloc_ex_corrupt :
    mem_alloc ex_corrupt 16 = some (some (-16), ex_corrupt_one) := by decide

/-! ## How many blocks of a class can be held -/

/-- The blocks of class `k` held by the user are different blocks of the class:
there are at most `avail_k` of them. -/
theorem Inv.count_le {R m K : Nat} {a0 : Nat → Nat} {G A : List Block} {st : State}
    (hinv : Inv R m K a0 G st A) (k : Nat) :
    A.countP (fun b => decide (b.1 = k)) ≤ class_avail R m k := by
  have hA : A.Pairwise (fun a b => ¬ overlaps a b) := (List.pairwise_append.1 hinv.excl).1
  have hreal : ∀ b, b ∈ A → b.2 < class_avail R m b.1 :=
    fun b hb => (hinv.real b (List.mem_append_left _ hb)).2
  rw [List.countP_eq_length_filter]
  have hmem : ∀ b, b ∈ A.filter (fun b => decide (b.1 = k)) → b ∈ A ∧ b.1 = k := by
    intro b hb
    have := List.mem_filter.1 hb
    exact ⟨this.1, by simpa using this.2⟩
  have hFp : (A.filter (fun b => decide (b.1 = k))).Pairwise (fun a b => ¬ overlaps a b) :=
    hA.filter _
  have hnd : ((A.filter (fun b => decide (b.1 = k))).map Prod.snd).Nodup := by
    unfold List.Nodup
    rw [List.pairwise_map]
    refine hFp.imp_of_mem ?_
    intro a b ha hb hab heq
    apply hab
    left
    unfold covers
    rw [(hmem a ha).2, (hmem b hb).2]
    simp [heq]
  have hsub : ((A.filter (fun b => decide (b.1 = k))).map Prod.snd).toFinset
      ⊆ Finset.range (class_avail R m k) := by
    intro x hx
    rw [List.mem_toFinset, List.mem_map] at hx
    obtain ⟨b, hb, rfl⟩ := hx
    rw [Finset.mem_range]
    have h1 := hmem b hb
    have h2 := hreal b h1.1
    rw [h1.2] at h2
    exact h2
  have hcard := Finset.card_le_card hsub
  rw [List.toFinset_card_of_nodup hnd, Finset.card_range, List.length_map] at hcard
  exact hcard

end HtMalloc

namespace HtMalloc

/-! ## Invariants of the reachable states and the behaviour of the operations -/

set_option maxRecDepth 100000

/-- Claim C11 (trailing-bit invariant). In every state reached from a
successful `mem_init` by `mem_alloc` and valid `mem_free` calls, for every class
`k` every bit of the bit array of the class with index at least `avail_k` (up to
the end of the last word of the class) is 1, and a pointer returned by
`mem_alloc` is the start of a block whose index is below `avail_k`. -/
theorem trailing_bits_stay_set {fuel R m : Nat} {heap : Nat → Nat} {st : State}
    {live : List (Int × Nat)} (hR : R < 65536) (h : Reach fuel R m heap st live) :
    (∀ k, k + 1 < st.pool.length → ∀ t, avail_at st k ≤ t →
      t < DATAWIDTH * ((avail_at st k + (DATAWIDTH - 1)) / DATAWIDTH) →
      class_bit st k t = true) ∧
    ∀ s p st1, mem_alloc st s = some (some p, st1) →
      ∃ k i, size_match_loop st.pool s 0 = some k ∧ k + 1 < st.pool.length ∧
        p = ((i * size_at st k : Nat) : Int) ∧ i < avail_at st k := by
  obtain ⟨K, B, st0, A, _, _, _, _, _, _, hinv, _⟩ := reach_inv hR h
  constructor
  · intro k hk t ht1 ht2
    have hkK := (hinv.class_iff k).1 hk
    rw [hinv.avail_at_eq hkK] at ht1 ht2
    rw [← words_for_eq] at ht2
    unfold DATAWIDTH at ht2
    unfold class_bit
    rw [hinv.offset_at_eq hkK]
    exact (hinv.bits k t hkK ht2).2 (Or.inl ht1)
  · intro s p st1 ha
    obtain ⟨k, h1, _, _, _, h5⟩ := mem_alloc_step hinv s
    rcases h5 with ⟨h6, _⟩ | ⟨i, st2, h6, hk, _, hinv2⟩
    · rw [h6] at ha
      simp at ha
    · rw [h6] at ha
      simp only [Option.some.injEq, Prod.mk.injEq] at ha
      have hreal := (hinv2.real (k, i) (by simp)).2
      simp only at hreal
      refine ⟨k, i, h1, (hinv.class_iff k).2 hk, ?_, ?_⟩
      · rw [hinv.size_at_eq hk]; exact ha.1.symm
      · rw [hinv.avail_at_eq hk]; exact hreal

/-- After two allocations of 16 bytes in the example of the header comment the
trailing bits are still set. -/
theorem trailing_bits_stay_set_witness :
    (2000 < 65536 ∧ Reach 20 2000 16 heap0 ex2000_two [(1920, 0), (1984, 0)]) ∧
    ((∀ k, k + 1 < ex2000_two.pool.length → ∀ t, avail_at ex2000_two k ≤ t →
      t < DATAWIDTH * ((avail_at ex2000_two k + (DATAWIDTH - 1)) / DATAWIDTH) →
      class_bit ex2000_two k t = true) ∧
    ∀ s p st1, mem_alloc ex2000_two s = some (some p, st1) →
      ∃ k i, size_match_loop ex2000_two.pool s 0 = some k ∧ k + 1 < ex2000_two.pool.length ∧
        p = ((i * size_at ex2000_two k : Nat) : Int) ∧ i < avail_at ex2000_two k) :=
  ⟨⟨by decide, reach_ex2000_two⟩, trailing_bits_stay_set (by decide) reach_ex2000_two⟩

/-- Claim C12 as stated fails right after `mem_init`, where no user allocation
is live. After `mem_init(2000, heap, 16)` on a zeroed region `alloccou` of class
3 (128 bytes) is 1, as in the table of the header comment: the block reserved
for the bookkeeping is counted. After the same call on a region that holds the
word 7 everywhere, `alloccou` of class 0 is 7: `mem_init` writes `alloccou`
only from the class that holds the bookkeeping on. -/
theorem alloccou_after_init :
    (mem_init 20 2000 16 heap0 = some (104, ex2000) ∧ Reach 20 2000 16 heap0 ex2000 [] ∧
      alloccou_at ex2000 3 = 1) ∧
    (mem_init 20 2000 16 heap7).map (fun r => (r.1, alloccou_at r.2 0)) = some (104, 7) :=
  ⟨⟨mem_init_ex2000, reach_ex2000, by decide⟩, by decide⟩

/-- Claim C12, amended. In every state reached from a successful `mem_init`
that returned `B`, for every class `k`, `alloccou[k]` equals (as a 16 bit word)
its value right after `mem_init` plus the number of live user allocations served
from class `k`. Where `mem_init` leaves a defined value, that is at a class whose
block size is at least `B`, and at a smaller class when the word of the region
that becomes `alloccou[k]` (word `5 * k + 3`) was 0 before the call, the value
right after `mem_init` is 1 at the first class whose block size is at least `B`
(the block reserved for the bookkeeping) and 0 at every other class, and
`alloccou[k]` is exactly that value plus the number of live user allocations
served from class `k`. -/
theorem alloccou_counts {fuel R m B : Nat} {heap : Nat → Nat} {st0 st : State}
    {live : List (Int × Nat)} (hR : R < 65536)
    (h0 : mem_init fuel R m heap = some (B, st0)) (h : Reach fuel R m heap st live) :
    ∀ k, k + 1 < st.pool.length →
      alloccou_at st k
        = (alloccou_at st0 k + live.countP (fun a => decide (a.2 = k))) % UINT ∧
      ((B ≤ size_at st0 k ∨ heap (5 * k + 3) % UINT = 0) →
        alloccou_at st0 k
          = (if B ≤ size_at st0 k ∧ (k = 0 ∨ size_at st0 (k - 1) < B) then 1 else 0) ∧
        alloccou_at st k = alloccou_at st0 k + live.countP (fun a => decide (a.2 = k))) := by
  obtain ⟨K, B1, st1, A, hinit, _, _, _, _, hinv0, hinv, hlive⟩ := reach_inv hR h
  rw [h0] at hinit
  simp only [Option.some.injEq, Prod.mk.injEq] at hinit
  obtain ⟨rfl, rfl⟩ := hinit
  intro k hk
  have hkK := (hinv.class_iff k).1 hk
  have hlt := init_alloccou_lt heap m B k
  have e0 : alloccou_at st0 k = init_alloccou heap m B k := by
    rw [hinv0.al k hkK]
    simp only [List.countP_nil, Nat.add_zero]
    exact Nat.mod_eq_of_lt hlt
  have ecount : live.countP (fun a => decide (a.2 = k))
      = A.countP (fun b => decide (b.1 = k)) := by
    rw [hlive, List.countP_map]
    rfl
  have e1 : alloccou_at st k
      = (alloccou_at st0 k + live.countP (fun a => decide (a.2 = k))) % UINT := by
    rw [hinv.al k hkK, e0, ecount]
  refine ⟨e1, ?_⟩
  intro hdef
  have e2 : alloccou_at st0 k
      = (if B ≤ size_at st0 k ∧ (k = 0 ∨ size_at st0 (k - 1) < B) then 1 else 0) := by
    rw [e0]
    unfold init_alloccou
    by_cases hk0 : k = 0
    · subst hk0
      rw [hinv0.size_at_eq hkK] at hdef ⊢
      rcases hdef with hd | hd
      · simp [hd]
      · by_cases hB : B ≤ class_size m 0
        · simp [hB]
        · simp [hB, hd]
    · rw [hinv0.size_at_eq hkK] at hdef ⊢
      rw [hinv0.size_at_eq (by omega : k - 1 < K)]
      rcases hdef with hd | hd
      · simp [hd]
      · by_cases hB : B ≤ class_size m k
        · simp [hB]
        · simp [hB, hd]
  refine ⟨e2, ?_⟩
  rw [e1]
  apply Nat.mod_eq_of_lt
  have hcnt := hinv.count_le k
  have hav := hinv.geom.avail_lt k
  have h01 : alloccou_at st0 k ≤ 1 := by
    rw [e2]
    split <;> omega
  rw [ecount]
  unfold UINT
  omega

/-- After two allocations of 16 bytes in the example of the header comment, on
a zeroed region, `alloccou` of class 0 is 2 and class 3 still holds the 1 that
`mem_init` wrote. -/
theorem alloccou_counts_witness :
    (2000 < 65536 ∧ mem_init 20 2000 16 heap0 = some (104, ex2000) ∧
      Reach 20 2000 16 heap0 ex2000_two [(1920, 0), (1984, 0)]) ∧
    ∀ k, k + 1 < ex2000_two.pool.length →
      alloccou_at ex2000_two k
        = (alloccou_at ex2000 k
            + ([(1920, 0), (1984, 0)] : List (Int × Nat)).countP (fun a => decide (a.2 = k)))
          % UINT ∧
      ((104 ≤ size_at ex2000 k ∨ heap0 (5 * k + 3) % UINT = 0) →
        alloccou_at ex2000 k
          = (if 104 ≤ size_at ex2000 k ∧ (k = 0 ∨ size_at ex2000 (k - 1) < 104) then 1 else 0) ∧
        alloccou_at ex2000_two k
          = alloccou_at ex2000 k
            + ([(1920, 0), (1984, 0)] : List (Int × Nat)).countP
                (fun a => decide (a.2 = k))) :=
  ⟨⟨by decide, mem_init_ex2000, reach_ex2000_two⟩,
    alloccou_counts (by decide) mem_init_ex2000 reach_ex2000_two⟩

/-- Claim C13 as stated fails right after `mem_init(2000, heap, 16)`: class 1
(32 bytes) has `fbcou = 0`, as in the table of the header comment, while bits 0
and 1 of its bit array, a sibling pair below `avail = 62`, are both 0. -/
theorem fbcou_zero_with_free_pair :
    Reach 20 2000 16 heap0 ex2000 [] ∧ fbcou_at ex2000 1 = 0 ∧
      class_bit ex2000 1 0 = false ∧ class_bit ex2000 1 1 = false ∧ 1 < avail_at ex2000 1 :=
  ⟨reach_ex2000, by decide, by decide, by decide, by decide⟩

/-- Claim C13, amended. In every state reached from a successful `mem_init`,
for every class `k`, `fbcou[k]` is the number of free buddies of the class: the
bits of its bit array that are 0 while their sibling bit is 1. So `fbcou[k]` is
0 exactly when no block of the class is free next to a sibling that is not. -/
theorem fbcou_counts {fuel R m : Nat} {heap : Nat → Nat} {st : State}
    {live : List (Int × Nat)} (hR : R < 65536) (h : Reach fuel R m heap st live) :
    ∀ k, k + 1 < st.pool.length →
      fbcou_at st k
        = free_buddies (class_bit st k)
            (DATAWIDTH * ((avail_at st k + (DATAWIDTH - 1)) / DATAWIDTH)) ∧
      (fbcou_at st k = 0 ↔
        ∀ i, i < avail_at st k →
          ¬ (class_bit st k i = false ∧ class_bit st k (sibling i) = true)) := by
  obtain ⟨K, B, st0, A, _, _, _, _, _, _, hinv, _⟩ := reach_inv hR h
  intro k hk
  have hkK := (hinv.class_iff k).1 hk
  have hcb : class_bit st k = class_bits st.freelist (class_offset R m k) := by
    funext i
    unfold class_bit
    rw [hinv.offset_at_eq hkK]
  have hn : DATAWIDTH * ((avail_at st k + (DATAWIDTH - 1)) / DATAWIDTH)
      = 16 * words_for (class_avail R m k) := by
    rw [hinv.avail_at_eq hkK, ← words_for_eq]
    rfl
  have hfb := hinv.fb k hkK
  rw [hcb, hn, hinv.avail_at_eq hkK]
  refine ⟨hfb, ?_⟩
  constructor
  · intro hzero i hi hfree
    have hpos := @free_buddies_ne_zero (class_bits st.freelist (class_offset R m k))
      (16 * words_for (class_avail R m k)) i (class_bits_in_range hinv.geom hkK hi)
      (by unfold is_free_buddy; rw [hfree.1, hfree.2]; rfl)
    omega
  · intro hnone
    by_contra hne
    rw [hfb] at hne
    obtain ⟨i, hi, hfree⟩ := free_buddies_pos (Nat.pos_of_ne_zero hne)
    have hreal := free_buddy_real hinv hkK hi hfree
    unfold is_free_buddy at hfree
    simp only [Bool.and_eq_true, Bool.not_eq_true'] at hfree
    exact hnone i hreal hfree

/-- After two allocations of 16 bytes in the example of the header comment
`fbcou` still counts the free buddies of every class. -/
theorem fbcou_counts_witness :
    (2000 < 65536 ∧ Reach 20 2000 16 heap0 ex2000_two [(1920, 0), (1984, 0)]) ∧
    ∀ k, k + 1 < ex2000_two.pool.length →
      fbcou_at ex2000_two k
        = free_buddies (class_bit ex2000_two k)
            (DATAWIDTH * ((avail_at ex2000_two k + (DATAWIDTH - 1)) / DATAWIDTH)) ∧
      (fbcou_at ex2000_two k = 0 ↔
        ∀ i, i < avail_at ex2000_two k →
          ¬ (class_bit ex2000_two k i = false ∧ class_bit ex2000_two k (sibling i) = true)) :=
  ⟨⟨by decide, reach_ex2000_two⟩, fbcou_counts (by decide) reach_ex2000_two⟩

/-- Claim C14 (monotone sizing). In every state reached from a successful
`mem_init`, if `mem_alloc(s)` returns a non-null pointer then `mem_alloc(s')`
called in the same state returns a non-null pointer for every `s' ≤ s`, and the
class chosen for `s` has a block size of at least `s`. -/
theorem mem_alloc_monotone {fuel R m : Nat} {heap : Nat → Nat} {st st1 : State}
    {live : List (Int × Nat)} {s s' : Nat} {p : Int} (hR : R < 65536)
    (h : Reach fuel R m heap st live) (hs : s' ≤ s)
    (ha : mem_alloc st s = some (some p, st1)) :
    (∃ q st2, mem_alloc st s' = some (some q, st2)) ∧
    ∃ k, size_match_loop st.pool s 0 = some k ∧ k + 1 < st.pool.length ∧ s ≤ size_at st k := by
  obtain ⟨K, B, st0, A, _, _, _, _, _, _, hinv, _⟩ := reach_inv hR h
  obtain ⟨k, h1, _, h3, _, h5⟩ := mem_alloc_step hinv s
  rcases h5 with ⟨h6, _⟩ | ⟨i, st2, _, hk, ⟨c, hc1, hc2, hc3⟩, _⟩
  · rw [h6] at ha
    simp at ha
  · constructor
    · obtain ⟨k1, _, _, _, g4, g5⟩ := mem_alloc_step hinv s'
      have hk1 : k1 ≤ k := by
        by_contra hn
        have := g4 k (by omega)
        have := h3 hk
        omega
      rcases g5 with ⟨_, g7⟩ | ⟨i1, st3, g6, _⟩
      · exfalso
        rcases g7 with g7 | g7
        · omega
        · exact hc3 (g7 c (by omega) hc2)
      · exact ⟨_, _, g6⟩
    · refine ⟨k, h1, (hinv.class_iff k).2 hk, ?_⟩
      rw [hinv.size_at_eq hk]
      exact h3 hk

/-- In the example of the header comment `mem_alloc(16)` succeeds, so
`mem_alloc(8)` succeeds in the same state. -/
theorem mem_alloc_monotone_witness :
    (2000 < 65536 ∧ Reach 20 2000 16 heap0 ex2000 [] ∧ 8 ≤ 16 ∧
      mem_alloc ex2000 16 = some (some 1984, ex2000_one)) ∧
    ((∃ q st2, mem_alloc ex2000 8 = some (some q, st2)) ∧
    ∃ k, size_match_loop ex2000.pool 16 0 = some k ∧ k + 1 < ex2000.pool.length ∧
      16 ≤ size_at ex2000 k) :=
  ⟨⟨by decide, reach_ex2000, by decide, mem_alloc_ex2000⟩,
    mem_alloc_monotone (by decide) reach_ex2000 (by decide) mem_alloc_ex2000⟩

/-- Claim C15 (split path of `mem_alloc`). In a state reached from a successful
`mem_init`, let `k` be the class chosen for `s`, with `fbcou = 0` at `k` and at
every class between `k` and `j`, let `j > k` be a class (not the sentinel) with
`fbcou[j] > 0`, and let the within-class search at `j` return the 1-indexed
block `b`. Then `b` is a real block, `mem_alloc(s)` returns the offset
`(b - 1) * S_j`, and afterwards: bit `2 ^ (j - c) * (b - 1)` (0-indexed, so the
1-indexed bit `2 ^ (j - c) * (b - 1) + 1`) of every class `c` from `j` down to
`k` has been set and no other bit has changed; `fbcou[j]` is one less, `fbcou[c]`
is one more for `k ≤ c < j`, `alloccou[k]` is one more (as a 16 bit word), and
no other counter and no other field has changed. -/
theorem mem_alloc_split_path {fuel R m : Nat} {heap : Nat → Nat} {st : State}
    {live : List (Int × Nat)} (hR : R < 65536) (h : Reach fuel R m heap st live)
    {s k j b : Nat} {mem1 : List Nat}
    (hk : size_match_loop st.pool s 0 = some k) (hkj : k < j) (hj : j + 1 < st.pool.length)
    (hz : ∀ c, k ≤ c → c < j → fbcou_at st c = 0) (hfbj : 0 < fbcou_at st j)
    (hfind : fl_find_buddy st.freelist (offset_at st j) (avail_at st j) = some (mem1, b)) :
    1 ≤ b ∧ b ≤ avail_at st j ∧
    ∃ st1, mem_alloc st s = some (some (((b - 1) * size_at st j : Nat) : Int), st1) ∧
      st1.pool.length = st.pool.length ∧ st1.freelist.length = st.freelist.length ∧
      (∀ c, size_at st1 c = size_at st c ∧ offset_at st1 c = offset_at st c ∧
        avail_at st1 c = avail_at st c) ∧
      (∀ y, mem_bit st1.freelist y = true ↔ (mem_bit st.freelist y = true ∨
        ∃ c, k ≤ c ∧ c ≤ j ∧ y = 16 * offset_at st c + 2 ^ (j - c) * (b - 1))) ∧
      fbcou_at st1 j + 1 = fbcou_at st j ∧
      (∀ c, k ≤ c → c < j → fbcou_at st1 c = fbcou_at st c + 1) ∧
      (∀ c, ¬ (k ≤ c ∧ c ≤ j) → fbcou_at st1 c = fbcou_at st c) ∧
      alloccou_at st1 k = (alloccou_at st k + 1) % UINT ∧
      (∀ c, c ≠ k → alloccou_at st1 c = alloccou_at st c) := by
  obtain ⟨K, B, st0, A, _, _, _, _, _, _, hinv, _⟩ := reach_inv hR h
  have hjK := (hinv.class_iff j).1 hj
  have hfblt := hinv.fbcou_lt hjK
  obtain ⟨al, fb, mem, hst⟩ := hinv.exists_form
  rw [hst] at hinv hk hz hfbj hfind hfblt ⊢
  have g := hinv.geom
  have hfbat : ∀ c, c < K → fbcou_at ⟨pool_from R m al fb K 0, mem⟩ c = fb c :=
    fun c hc => fbcou_at_pool R m K al fb mem hc
  have halat : ∀ c, c < K → alloccou_at ⟨pool_from R m al fb K 0, mem⟩ c = al c :=
    fun c hc => alloccou_at_pool R m K al fb mem hc
  have hof : ∀ c, c < K → offset_at ⟨pool_from R m al fb K 0, mem⟩ c = class_offset R m c :=
    fun c hc => offset_at_pool R m K al fb mem hc
  rw [hfbat j hjK] at hfbj hfblt
  rw [hof j hjK, avail_at_pool R m K al fb mem hjK] at hfind
  dsimp only at hk hfind
  obtain ⟨mem3, b0, mem2, hfind2, hb0, hres, hlen2, hok2, hbits2⟩ :=
    mem_alloc_split_detail hinv s hk hkj hjK (by omega)
      (fun c h1 h2 => by rw [← hfbat c (by omega)]; exact hz c h1 h2)
  rw [hfind] at hfind2
  simp only [Option.some.injEq, Prod.mk.injEq] at hfind2
  obtain ⟨_, hb⟩ := hfind2
  subst hb
  rw [Nat.add_sub_cancel, avail_at_pool R m K al fb mem hjK, size_at_pool R m K al fb mem hjK]
  refine ⟨by omega, by omega, _, hres, ?_, hlen2, ?_, ?_, ?_, ?_, ?_, ?_, ?_⟩
  · rw [pool_from_length, pool_from_length]
  · intro c
    exact size_at_pool_any R m _ _ al fb mem2 mem K c
  · intro y
    rw [hbits2 y]
    constructor
    · rintro (h1 | ⟨c, h1, h2, h3⟩)
      · exact Or.inl h1
      · exact Or.inr ⟨c, h1, h2, by rw [h3, hof c (by omega), Nat.mul_comm b0]⟩
    · rintro (h1 | ⟨c, h1, h2, h3⟩)
      · exact Or.inl h1
      · exact Or.inr ⟨c, h1, h2, by rw [h3, hof c (by omega), Nat.mul_comm b0]⟩
  · rw [fbcou_at_pool R m K _ _ mem2 hjK, hfbat j hjK, if_neg (by omega),
      Function.update_same]
    unfold UINT at hfblt ⊢
    omega
  · intro c h1 h2
    have hcK : c < K := by omega
    have hzc := hz c h1 h2
    rw [hfbat c hcK] at hzc
    rw [fbcou_at_pool R m K _ _ mem2 hcK, hfbat c hcK, if_pos ⟨h1, by omega⟩,
      Function.update_noteq (by omega), hzc]
    rfl
  · intro c hc
    by_cases hcK : c < K
    · rw [fbcou_at_pool R m K _ _ mem2 hcK, hfbat c hcK, if_neg (fun h1 => hc ⟨h1.1, by omega⟩),
        Function.update_noteq (fun h1 => hc ⟨by omega, by omega⟩)]
    · exact fbcou_at_pool_ge R m _ _ al fb mem2 mem K (by omega)
  · rw [alloccou_at_pool R m K _ _ mem2 (by omega), halat k (by omega), Function.update_same]
  · intro c hck
    by_cases hcK : c < K
    · rw [alloccou_at_pool R m K _ _ mem2 hcK, halat c hcK, Function.update_noteq hck]
    · exact alloccou_at_pool_ge R m _ _ al fb mem2 mem K (by omega)

/-- The second `mem_alloc(16)` of the example: class 0 and class 1 have no free
buddy, class 2 (64 bytes) has one, block 31; the call returns `30 * 64 = 1920`. -/
theorem mem_alloc_split_path_witness :
    (2000 < 65536 ∧ Reach 20 2000 16 heap0 ex2000_one [(1984, 0)] ∧
      size_match_loop ex2000_one.pool 16 0 = some 0 ∧ 0 < 2 ∧ 2 + 1 < ex2000_one.pool.length ∧
      (∀ c, 0 ≤ c → c < 2 → fbcou_at ex2000_one c = 0) ∧ 0 < fbcou_at ex2000_one 2 ∧
      fl_find_buddy ex2000_one.freelist (offset_at ex2000_one 2) (avail_at ex2000_one 2)
        = some ([0, 0, 0, 0, 0, 0, 0, 0xf000, 0, 0, 0, 0xc000, 0, 0xc000, 0x8001, 0xff81,
            0xfff9], 31)) ∧
    (1 ≤ 31 ∧ 31 ≤ avail_at ex2000_one 2 ∧
    ∃ st1, mem_alloc ex2000_one 16
        = some (some (((31 - 1) * size_at ex2000_one 2 : Nat) : Int), st1) ∧
      st1.pool.length = ex2000_one.pool.length ∧
      st1.freelist.length = ex2000_one.freelist.length ∧
      (∀ c, size_at st1 c = size_at ex2000_one c ∧ offset_at st1 c = offset_at ex2000_one c ∧
        avail_at st1 c = avail_at ex2000_one c) ∧
      (∀ y, mem_bit st1.freelist y = true ↔ (mem_bit ex2000_one.freelist y = true ∨
        ∃ c, 0 ≤ c ∧ c ≤ 2 ∧ y = 16 * offset_at ex2000_one c + 2 ^ (2 - c) * (31 - 1))) ∧
      fbcou_at st1 2 + 1 = fbcou_at ex2000_one 2 ∧
      (∀ c, 0 ≤ c → c < 2 → fbcou_at st1 c = fbcou_at ex2000_one c + 1) ∧
      (∀ c, ¬ (0 ≤ c ∧ c ≤ 2) → fbcou_at st1 c = fbcou_at ex2000_one c) ∧
      alloccou_at st1 0 = (alloccou_at ex2000_one 0 + 1) % UINT ∧
      (∀ c, c ≠ 0 → alloccou_at st1 c = alloccou_at ex2000_one c)) :=
  have hz : ∀ c, 0 ≤ c → c < 2 → fbcou_at ex2000_one c = 0 := by
    intro c _ hc
    interval_cases c <;> decide
  ⟨⟨by decide, reach_ex2000_one, by decide, by decide, by decide, hz, by decide,
      fl_find_buddy_ex2000_one⟩,
    mem_alloc_split_path (by decide) reach_ex2000_one (by decide) (by decide) (by decide) hz
      (by decide) fl_find_buddy_ex2000_one⟩

/-- Claim C16 (coalescing in `mem_free`). In a state reached from a successful
`mem_init`, for a live pointer `p` served from class `k`: the class discovery
finds `k`, and `mem_free(p)` walks the classes `c = k, k + 1, ...` up to the
sentinel, as long as the sibling bit it meets is 0. At each class visited it
clears the bit of the block of that class that holds `p`; where the sibling bit
is 1 it increments `fbcou[c]` (and stops), where it is 0 it decrements
`fbcou[c]` (and goes on). `alloccou[k]` is decremented (as a 16 bit word).
Exactly these bits and counters change. -/
theorem mem_free_coalesce {fuel R m : Nat} {heap : Nat → Nat} {st : State}
    {live : List (Int × Nat)} (hR : R < 65536) (h : Reach fuel R m heap st live)
    {p : Int} {k : Nat} (hp : (p, k) ∈ live) :
    mem_free_find st.pool st.freelist p 0 = some (k, true) ∧
    ∃ st1, mem_free st p = some st1 ∧
      st1.pool.length = st.pool.length ∧ st1.freelist.length = st.freelist.length ∧
      (∀ c, size_at st1 c = size_at st c ∧ offset_at st1 c = offset_at st c ∧
        avail_at st1 c = avail_at st c) ∧
      (∀ y, mem_bit st1.freelist y = true ↔ (mem_bit st.freelist y = true ∧
        ¬ ∃ c, Visited st p k c ∧ y = 16 * offset_at st c + block_number p (size_at st c))) ∧
      (∀ c, Visited st p k c → sibling_bit st p c = true →
        fbcou_at st1 c = fbcou_at st c + 1) ∧
      (∀ c, Visited st p k c → sibling_bit st p c = false →
        fbcou_at st1 c + 1 = fbcou_at st c) ∧
      (∀ c, ¬ Visited st p k c → fbcou_at st1 c = fbcou_at st c) ∧
      alloccou_at st1 k = (alloccou_at st k + (UINT - 1)) % UINT ∧
      (∀ c, c ≠ k → alloccou_at st1 c = alloccou_at st c) := by
  obtain ⟨_, _, _, hfind, st1, h1, h2, h3, h4, h5, _, h7, h8, h9, h10, h11⟩ :=
    reach_free_detail hR h hp
  exact ⟨hfind, st1, h1, h2, h3, h4, h5, h7, h8, h9, h10, h11⟩

/-- Freeing the pointer 1920 after the two allocations of the example. -/
theorem mem_free_coalesce_witness :
    (2000 < 65536 ∧ Reach 20 2000 16 heap0 ex2000_two [(1920, 0), (1984, 0)] ∧
      ((1920 : Int), 0) ∈ ([(1920, 0), (1984, 0)] : List (Int × Nat))) ∧
    (mem_free_find ex2000_two.pool ex2000_two.freelist 1920 0 = some (0, true) ∧
    ∃ st1, mem_free ex2000_two 1920 = some st1 ∧
      st1.pool.length = ex2000_two.pool.length ∧
      st1.freelist.length = ex2000_two.freelist.length ∧
      (∀ c, size_at st1 c = size_at ex2000_two c ∧ offset_at st1 c = offset_at ex2000_two c ∧
        avail_at st1 c = avail_at ex2000_two c) ∧
      (∀ y, mem_bit st1.freelist y = true ↔ (mem_bit ex2000_two.freelist y = true ∧
        ¬ ∃ c, Visited ex2000_two 1920 0 c ∧
          y = 16 * offset_at ex2000_two c + block_number 1920 (size_at ex2000_two c))) ∧
      (∀ c, Visited ex2000_two 1920 0 c → sibling_bit ex2000_two 1920 c = true →
        fbcou_at st1 c = fbcou_at ex2000_two c + 1) ∧
      (∀ c, Visited ex2000_two 1920 0 c → sibling_bit ex2000_two 1920 c = false →
        fbcou_at st1 c + 1 = fbcou_at ex2000_two c) ∧
      (∀ c, ¬ Visited ex2000_two 1920 0 c → fbcou_at st1 c = fbcou_at ex2000_two c) ∧
      alloccou_at st1 0 = (alloccou_at ex2000_two 0 + (UINT - 1)) % UINT ∧
      (∀ c, c ≠ 0 → alloccou_at st1 c = alloccou_at ex2000_two c)) :=
  ⟨⟨by decide, reach_ex2000_two, by decide⟩,
    mem_free_coalesce (by decide) reach_ex2000_two (by decide)⟩

/-- Claim C17 (class discovery in `mem_free`). In every state reached from a
successful `mem_init`, for every live pointer `p` served from class `k`, the bit
of the block that holds `p` is 0 at every class below `k` and 1 at class `k`, so
the discovery loop of `mem_free` stops at `k`; `mem_free(p)` decrements
`alloccou[k]` and no other `alloccou`, clears the bit of the block at class `k`,
and changes no bit of a class below `k`. -/
theorem mem_free_class_discovery {fuel R m : Nat} {heap : Nat → Nat} {st : State}
    {live : List (Int × Nat)} (hR : R < 65536) (h : Reach fuel R m heap st live)
    {p : Int} {k : Nat} (hp : (p, k) ∈ live) :
    k + 1 < st.pool.length ∧
    class_bit st k (block_number p (size_at st k)) = true ∧
    (∀ c, c < k → class_bit st c (block_number p (size_at st c)) = false) ∧
    mem_free_find st.pool st.freelist p 0 = some (k, true) ∧
    ∃ st1, mem_free st p = some st1 ∧
      alloccou_at st1 k = (alloccou_at st k + (UINT - 1)) % UINT ∧
      (∀ c, c ≠ k → alloccou_at st1 c = alloccou_at st c) ∧
      mem_bit st1.freelist (16 * offset_at st k + block_number p (size_at st k)) = false ∧
      (∀ y, mem_bit st1.freelist y ≠ mem_bit st.freelist y →
        ∃ c, k ≤ c ∧ c + 1 < st.pool.length ∧
          y = 16 * offset_at st c + block_number p (size_at st c)) := by
  obtain ⟨hk, hone, hzero, hfind, st1, h1, _, _, _, h5, h6, _, _, _, h10, h11⟩ :=
    reach_free_detail hR h hp
  refine ⟨hk, hone, hzero, hfind, st1, h1, h10, h11, ?_, ?_⟩
  · rw [← Bool.not_eq_true, h5]
    rintro ⟨_, h2⟩
    exact h2 ⟨k, ⟨hk, reached_self _ k⟩, rfl⟩
  · intro y hy
    by_cases hex : ∃ c, Visited st p k c ∧
        y = 16 * offset_at st c + block_number p (size_at st c)
    · obtain ⟨c, hv, hyc⟩ := hex
      exact ⟨c, (h6 c hv).1, hv.1, hyc⟩
    · exfalso
      apply hy
      apply bool_eq_of_iff
      rw [h5]
      exact ⟨fun h2 => h2.1, fun h2 => ⟨h2, hex⟩⟩

/-- The class of the pointer 1920 of the example is found to be class 0. -/
theorem mem_free_class_discovery_witness :
    (2000 < 65536 ∧ Reach 20 2000 16 heap0 ex2000_two [(1920, 0), (1984, 0)] ∧
      ((1920 : Int), 0) ∈ ([(1920, 0), (1984, 0)] : List (Int × Nat))) ∧
    (0 + 1 < ex2000_two.pool.length ∧
    class_bit ex2000_two 0 (block_number 1920 (size_at ex2000_two 0)) = true ∧
    (∀ c, c < 0 → class_bit ex2000_two c (block_number 1920 (size_at ex2000_two c)) = false) ∧
    mem_free_find ex2000_two.pool ex2000_two.freelist 1920 0 = some (0, true) ∧
    ∃ st1, mem_free ex2000_two 1920 = some st1 ∧
      alloccou_at st1 0 = (alloccou_at ex2000_two 0 + (UINT - 1)) % UINT ∧
      (∀ c, c ≠ 0 → alloccou_at st1 c = alloccou_at ex2000_two c) ∧
      mem_bit st1.freelist
        (16 * offset_at ex2000_two 0 + block_number 1920 (size_at ex2000_two 0)) = false ∧
      (∀ y, mem_bit st1.freelist y ≠ mem_bit ex2000_two.freelist y →
        ∃ c, 0 ≤ c ∧ c + 1 < ex2000_two.pool.length ∧
          y = 16 * offset_at ex2000_two c + block_number 1920 (size_at ex2000_two c))) :=
  ⟨⟨by decide, reach_ex2000_two, by decide⟩,
    mem_free_class_discovery (by decide) reach_ex2000_two (by decide)⟩

/-- Claim C18 (within-class search). For every array of 16 bit words and every
`avail` from 1 to 65535, with `n = ceil(avail / DATAWIDTH)` words of the array
present from index `fl` on: `fl_find_buddy` returns; if some word `fl[c]`,
`c < n`, has a nonzero free-twin mask, then for the largest such `c` and `t` the
index of the lowest set bit of the mask of that word, it sets bit `t` of `fl[c]`,
changes nothing else and returns `c * DATAWIDTH + t + 1`; if there is no such
word it returns 0 and leaves the array unchanged. -/
theorem fl_find_buddy_words {mem : List Nat} (hok : WordsOK mem) {fl avail : Nat}
    (ha : 1 ≤ avail) (ha2 : avail < 65536)
    (hlen : fl + (avail + (DATAWIDTH - 1)) / DATAWIDTH ≤ mem.length) :
    ∃ mem1 r, fl_find_buddy mem fl avail = some (mem1, r) ∧
      ((r = 0 ∧ mem1 = mem ∧
          ∀ c w, c < (avail + (DATAWIDTH - 1)) / DATAWIDTH → mem[fl + c]? = some w →
            freebinary w = 0) ∨
       (∃ c t w, c < (avail + (DATAWIDTH - 1)) / DATAWIDTH ∧ mem[fl + c]? = some w ∧
          freebinary w ≠ 0 ∧
          (∀ c1 w1, c < c1 → c1 < (avail + (DATAWIDTH - 1)) / DATAWIDTH →
            mem[fl + c1]? = some w1 → freebinary w1 = 0) ∧
          IsLowest (freebinary w) t ∧ t < DATAWIDTH ∧
          mem1 = mem.set (fl + c) (w ||| (1 <<< t)) ∧ r = c * DATAWIDTH + t + 1)) :=
  fl_find_buddy_words_aux hok ha ha2 hlen

/-- On the bit array of class 0 after `mem_init(2000, heap, 16)` the search
returns 125 (word 7, bit 12), so the first `mem_alloc(16)` returns the offset
`124 * 16 = 1984`. -/
theorem fl_find_buddy_words_witness :
    (WordsOK ex2000.freelist ∧ 1 ≤ 125 ∧ 125 < 65536 ∧
      0 + (125 + (DATAWIDTH - 1)) / DATAWIDTH ≤ ex2000.freelist.length ∧
      fl_find_buddy ex2000.freelist 0 125 = some (ex2000_one.freelist, 125) ∧
      mem_alloc ex2000 16 = some (some 1984, ex2000_one)) ∧
    ∃ mem1 r, fl_find_buddy ex2000.freelist 0 125 = some (mem1, r) ∧
      ((r = 0 ∧ mem1 = ex2000.freelist ∧
          ∀ c w, c < (125 + (DATAWIDTH - 1)) / DATAWIDTH → ex2000.freelist[0 + c]? = some w →
            freebinary w = 0) ∨
       (∃ c t w, c < (125 + (DATAWIDTH - 1)) / DATAWIDTH ∧ ex2000.freelist[0 + c]? = some w ∧
          freebinary w ≠ 0 ∧
          (∀ c1 w1, c < c1 → c1 < (125 + (DATAWIDTH - 1)) / DATAWIDTH →
            ex2000.freelist[0 + c1]? = some w1 → freebinary w1 = 0) ∧
          IsLowest (freebinary w) t ∧ t < DATAWIDTH ∧
          mem1 = ex2000.freelist.set (0 + c) (w ||| (1 <<< t)) ∧
          r = c * DATAWIDTH + t + 1)) :=
  ⟨⟨wordsOK_ex2000, by decide, by decide, by decide, fl_find_buddy_ex2000, mem_alloc_ex2000⟩,
    fl_find_buddy_words wordsOK_ex2000 (by decide) (by decide) (by decide)⟩

/-- Claim C19 as stated fails at the word 0: bit 0 and its sibling, bit 1, are
both 0, yet bit 0 of `freebinary(0)` is not set (the mask is 0). -/
theorem freebinary_zero :
    Nat.testBit 0 0 = false ∧ Nat.testBit 0 (sibling 0) = false ∧
      (freebinary 0).testBit 0 = false ∧ freebinary 0 = 0 := by
  decide

/-- Claim C19, amended. For every 16 bit word `w`, bit `i` of the mask
`freebinary(w)` is set if and only if `i < DATAWIDTH`, bit `i` of `w` is 0 and
the sibling bit of `w` (index `i` with its lowest bit flipped) is 1. -/
theorem freebinary_bit {w : Nat} (hw : w < 65536) (i : Nat) :
    (freebinary w).testBit i = true ↔
      (i < DATAWIDTH ∧ w.testBit i = false ∧ w.testBit (sibling i) = true) := by
  by_cases hi : i < 16
  · rw [freebinary_testBit hw hi]
    simp only [Bool.and_eq_true, Bool.not_eq_true']
    constructor
    · rintro ⟨h1, h2⟩; exact ⟨hi, h1, h2⟩
    · rintro ⟨_, h1, h2⟩; exact ⟨h1, h2⟩
  · rw [testBit_ge_16 (freebinary_lt hw) (by omega)]
    constructor
    · intro h; simp at h
    · rintro ⟨h1, _⟩
      unfold DATAWIDTH at h1
      omega

/-- The word 2: bit 0 is 0 and its sibling, bit 1, is 1, and `freebinary(2)` is
1, the mask with bit 0 set. -/
theorem freebinary_bit_witness :
    (2 < 65536 ∧ freebinary 2 = 1) ∧
    ((freebinary 2).testBit 0 = true ↔
      (0 < DATAWIDTH ∧ Nat.testBit 2 0 = false ∧ Nat.testBit 2 (sibling 0) = true)) :=
  ⟨⟨by decide, by decide⟩, freebinary_bit (by decide) 0⟩

/-- Claim C20, evaluated at the state `ex_corrupt`, where `pool[0].fbcou` is 1
while the bit array of class 0 (16 bytes) has no free buddy: the within-class
search returns 0, and `mem_alloc(16)` does not return null. It returns
`heapstart + 16 * (0 - 1)`, the address 16 bytes below the region, after
decrementing `fbcou[0]` to 0 and incrementing `alloccou[0]` to 2. -/
theorem mem_alloc_no_buddy :
    fbcou_at ex_corrupt 0 = 1 ∧
      fl_find_buddy ex_corrupt.freelist (offset_at ex_corrupt 0) (avail_at ex_corrupt 0)
        = some (ex_corrupt.freelist, 0) ∧
      mem_alloc ex_corrupt 16 = some (some (-16), ex_corrupt_one) ∧
      fbcou_at ex_corrupt_one 0 = 0 ∧ alloccou_at ex_corrupt 0 = 1 ∧
      alloccou_at ex_corrupt_one 0 = 2 :=
  ⟨by decide, fl_find_buddy_ex_corrupt, mem_alloc_ex_corrupt, by decide, by decide, by decide⟩

end HtMalloc

namespace HtMalloc

/-! ## The bit of a block and the bits of its descendants -/

/-- In a state that satisfies the invariant, a bit that is 1 at a block of class
`c` is 1 at the ancestor of that block at every class `k ≥ c`, as far as the
ancestor is a real block. -/
theorem Inv.bit_up {R m K : Nat} {a0 : Nat → Nat} {G A : List Block} {st : State}
    (hinv : Inv R m K a0 G st A) {c k i t : Nat} (hck : c ≤ k) (hk : k < K)
    (hi : i < class_avail R m k) (ht : t / 2 ^ (k - c) = i)
    (hbit : class_bits st.freelist (class_offset R m c) t = true) :
    class_bits st.freelist (class_offset R m k) i = true := by
  have g := hinv.geom
  have hc : c < K := by omega
  have htr : t < class_avail R m c := descendant_real R m hck hi ht
  have hfull := (hinv.bits c t hc (class_bits_in_range g hc htr)).1 hbit
  refine (hinv.bits k i hk (class_bits_in_range g hk hi)).2 ?_
  have hup := full_up (k - c) hfull
  have e : c + (k - c) = k := by omega
  rw [e, ht] at hup
  exact hup

/-! ## Two more evaluations of the worked examples -/

set_option maxRecDepth 100000

theorem mem_alloc_ex2000_small : mem_alloc ex2000 8 = some (some 1984, ex2000_one) := by decide

theorem mem_free_ex2000_two_last : mem_free ex2000_two 1920 = some ex2000_one := by decide

end HtMalloc

namespace HtMalloc

/-! ## The free-buddy counter under mem_alloc -/

/-- A call of `mem_alloc` that returns a pointer, in a state that satisfies the
invariant, lowers the free-buddy counter of exactly one class by one, and that
counter was not 0. -/
theorem alloc_fbcou_step {R m K : Nat} {a0 : Nat → Nat} {G A : List Block}
    {al fb : Nat → Nat} {mem : List Nat}
    (hinv : Inv R m K a0 G ⟨pool_from R m al fb K 0, mem⟩ A) {size : Nat} {p : Int}
    {st1 : State} (ha : mem_alloc ⟨pool_from R m al fb K 0, mem⟩ size = some (some p, st1)) :
    ∃ j, j < K ∧ 0 < fb j ∧ fbcou_at st1 j + 1 = fb j := by
  have g := hinv.geom
  have hfbat : ∀ c, c < K → fbcou_at ⟨pool_from R m al fb K 0, mem⟩ c = fb c :=
    fun c hc => fbcou_at_pool R m K al fb mem hc
  obtain ⟨k, hk, _, _, _, h5⟩ := mem_alloc_step_aux hinv size
  rcases h5 with ⟨h6, _⟩ | ⟨i, st2, _, hk1, ⟨c, hc1, hc2, hc3⟩, _⟩
  · rw [h6] at ha
    simp at ha
  · by_cases hfbk : fb k = 0
    · obtain ⟨j, _, hj1, hj2, hj3, hj4⟩ := fbcou_loop_spec R m al fb (K - (k + 1)) (k + 1)
      have hck : c ≠ k := fun e => hc3 (by rw [e]; exact hfbk)
      have hjc : j ≤ c := by
        by_contra hn
        exact hc3 (hj4 c (by omega) (by omega))
      have hjK : j < K := by omega
      have hfbj : fb j ≠ 0 := hj3 (by omega)
      have hz : ∀ c1, k ≤ c1 → c1 < j → fb c1 = 0 := by
        intro c1 h1 h2
        by_cases e : c1 = k
        · rw [e]; exact hfbk
        · exact hj4 c1 (by omega) h2
      obtain ⟨_, _, mem2, _, _, hres, _⟩ :=
        mem_alloc_split_detail hinv size hk (by omega : k < j) hjK hfbj hz
      rw [hres] at ha
      simp only [Option.some.injEq, Prod.mk.injEq] at ha
      obtain ⟨_, hst⟩ := ha
      have hlt := hinv.fbcou_lt hjK
      rw [hfbat j hjK] at hlt
      refine ⟨j, hjK, Nat.pos_of_ne_zero hfbj, ?_⟩
      rw [← hst, fbcou_at_pool R m K _ _ mem2 hjK, if_neg (by omega), Function.update_same]
      unfold UINT at hlt ⊢
      omega
    · have hget : (pool_from R m al fb K 0)[k]? = some (class_desc R m al fb k) := by
        have := pool_from_get R m al fb hk1 0
        rwa [Nat.zero_add] at this
      have hsize : (class_desc R m al fb k).size ≠ 0 := by
        have := g.size_pos k
        show class_size m k ≠ 0
        omega
      have hfbk' : (class_desc R m al fb k).fbcou > 0 := by
        show fb k > 0
        omega
      obtain ⟨mem1, b0, hfind, _, _, _, _⟩ :=
        find_buddy_inv hinv hk1 (by rw [hfbat k hk1]; exact hfbk)
      have hres := @mem_alloc_fast ⟨pool_from R m al fb K 0, mem⟩ _ _ _ _ _ hk hget hsize hfbk'
        hfind
      have hpool1 := pool_from_set R m al fb hk1 0 ((al k + 1) % UINT)
        ((fb k + (UINT - 1)) % UINT)
      simp only [Nat.zero_add] at hpool1
      simp only [class_desc] at hres
      rw [hpool1] at hres
      rw [hres] at ha
      simp only [Option.some.injEq, Prod.mk.injEq] at ha
      obtain ⟨_, hst⟩ := ha
      have hlt := hinv.fbcou_lt hk1
      rw [hfbat k hk1] at hlt
      refine ⟨k, hk1, by omega, ?_⟩
      rw [← hst, fbcou_at_pool R m K _ _ mem1 hk1, Function.update_same]
      unfold UINT at hlt ⊢
      omega

/-! ## Further invariants of the reachable states -/

set_option maxRecDepth 100000

/-- Claim C21 (parent-reserved invariant). In every state reached from a
successful `mem_init` by `mem_alloc` and valid `mem_free` calls, for every class
`k + 1` above the smallest and every block index `i < avail`, if a child bit of
that block at class `k` (index `2 * i` or `2 * i + 1`) is 1 then bit `i` at class
`k + 1` is 1. More generally a real block whose bit is 0 has only 0 bits at its
descendants in every smaller class. -/
theorem parent_reserved {fuel R m : Nat} {heap : Nat → Nat} {st : State}
    {live : List (Int × Nat)} (hR : R < 65536) (h : Reach fuel R m heap st live) :
    (∀ k i, k + 2 < st.pool.length → i < avail_at st (k + 1) →
      (class_bit st k (2 * i) = true ∨ class_bit st k (2 * i + 1) = true) →
      class_bit st (k + 1) i = true) ∧
    (∀ c k i t, c ≤ k → k + 1 < st.pool.length → i < avail_at st k →
      t / 2 ^ (k - c) = i → class_bit st k i = false → class_bit st c t = false) := by
  obtain ⟨K, B, st0, A, _, _, _, _, _, _, hinv, _⟩ := reach_inv hR h
  have hup : ∀ c k i t, c ≤ k → k + 1 < st.pool.length → i < avail_at st k →
      t / 2 ^ (k - c) = i → class_bit st c t = true → class_bit st k i = true := by
    intro c k i t hck hk hi ht hbit
    have hkK := (hinv.class_iff k).1 hk
    rw [hinv.avail_at_eq hkK] at hi
    unfold class_bit at hbit ⊢
    rw [hinv.offset_at_eq hkK]
    rw [hinv.offset_at_eq (by omega : c < K)] at hbit
    exact hinv.bit_up hck hkK hi ht hbit
  constructor
  · intro k i hk hi hbit
    rcases hbit with hbit | hbit
    · exact hup k (k + 1) i (2 * i) (by omega) (by omega) hi
        (by rw [Nat.add_sub_cancel_left, pow_one]; omega) hbit
    · exact hup k (k + 1) i (2 * i + 1) (by omega) (by omega) hi
        (by rw [Nat.add_sub_cancel_left, pow_one]; omega) hbit
  · intro c k i t hck hk hi ht hzero
    cases hb : class_bit st c t
    · rfl
    · have := hup c k i t hck hk hi ht hb
      rw [hzero] at this
      exact absurd this (by simp)

/-- After two allocations of 16 bytes in the example of the header comment every
set bit has its parent bit set. -/
theorem parent_reserved_witness :
    (2000 < 65536 ∧ Reach 20 2000 16 heap0 ex2000_two [(1920, 0), (1984, 0)]) ∧
    ((∀ k i, k + 2 < ex2000_two.pool.length → i < avail_at ex2000_two (k + 1) →
      (class_bit ex2000_two k (2 * i) = true ∨ class_bit ex2000_two k (2 * i + 1) = true) →
      class_bit ex2000_two (k + 1) i = true) ∧
    (∀ c k i t, c ≤ k → k + 1 < ex2000_two.pool.length → i < avail_at ex2000_two k →
      t / 2 ^ (k - c) = i → class_bit ex2000_two k i = false →
      class_bit ex2000_two c t = false)) :=
  ⟨⟨by decide, reach_ex2000_two⟩, parent_reserved (by decide) reach_ex2000_two⟩

/-- Claim C22 (sentinel invariant). In every state reached from a successful
`mem_init` by `mem_alloc` and valid `mem_free` calls, the table ends with the
sentinel at index `K`, which still has size 0 and `fbcou` 1, while every class
below it has a nonzero size. So for every size the class selection of
`mem_alloc` stops at an index `k ≤ K`, the scan
`for (i = size_match + 1; pool[i].fbcou == 0; i++)` started from a class `k < K`
stops at an index `i ≤ K` without reading a descriptor beyond the sentinel, and
`mem_alloc` returns. -/
theorem sentinel_kept {fuel R m : Nat} {heap : Nat → Nat} {st : State}
    {live : List (Int × Nat)} (hR : R < 65536) (h : Reach fuel R m heap st live) :
    ∃ K, st.pool.length = K + 1 ∧ size_at st K = 0 ∧ fbcou_at st K = 1 ∧
      (∀ k, k < K → size_at st k ≠ 0) ∧
      ∀ s, ∃ k, size_match_loop st.pool s 0 = some k ∧ k ≤ K ∧
        (k < K → ∃ i, fbcou_loop (st.pool.drop (k + 1)) (k + 1) = some i ∧ k < i ∧ i ≤ K) ∧
        ∃ p st1, mem_alloc st s = some (p, st1) := by
  obtain ⟨K, B, st0, A, _, _, _, _, _, _, hinv, _⟩ := reach_inv hR h
  have g := hinv.geom
  refine ⟨K, hinv.pool_length, ?_, ?_, ?_, ?_⟩
  · unfold size_at
    rw [hinv.sentinel_at]; rfl
  · unfold fbcou_at
    rw [hinv.sentinel_at]; rfl
  · intro k hk
    rw [hinv.size_at_eq hk]
    have := g.size_pos k
    omega
  · intro s
    obtain ⟨k, h1, h2, _, _, h5⟩ := mem_alloc_step hinv s
    refine ⟨k, h1, h2, ?_, ?_⟩
    · intro hk
      obtain ⟨al, fb, mem, hst⟩ := hinv.exists_form
      rw [hst]
      dsimp only
      have hdrop : (pool_from R m al fb K 0).drop (k + 1)
          = pool_from R m al fb (K - (k + 1)) (k + 1) := by
        have := pool_from_drop R m al fb (by omega : k + 1 ≤ K) 0
        rwa [Nat.zero_add] at this
      obtain ⟨j, hj, hj1, hj2, _, _⟩ := fbcou_loop_spec R m al fb (K - (k + 1)) (k + 1)
      rw [← hdrop] at hj
      exact ⟨j, hj, by omega, by omega⟩
    · rcases h5 with ⟨h6, _⟩ | ⟨i, st2, h6, _⟩
      · exact ⟨_, _, h6⟩
      · exact ⟨_, _, h6⟩

/-- After two allocations of 16 bytes in the example of the header comment the
sentinel is still at index 6. -/
theorem sentinel_kept_witness :
    (2000 < 65536 ∧ Reach 20 2000 16 heap0 ex2000_two [(1920, 0), (1984, 0)]) ∧
    ∃ K, ex2000_two.pool.length = K + 1 ∧ size_at ex2000_two K = 0 ∧
      fbcou_at ex2000_two K = 1 ∧ (∀ k, k < K → size_at ex2000_two k ≠ 0) ∧
      ∀ s, ∃ k, size_match_loop ex2000_two.pool s 0 = some k ∧ k ≤ K ∧
        (k < K → ∃ i, fbcou_loop (ex2000_two.pool.drop (k + 1)) (k + 1) = some i ∧ k < i ∧
          i ≤ K) ∧
        ∃ p st1, mem_alloc ex2000_two s = some (p, st1) :=
  ⟨⟨by decide, reach_ex2000_two⟩, sentinel_kept (by decide) reach_ex2000_two⟩

/-- Claim C23 (exact free-buddy count). In every state reached from a
successful `mem_init` by `mem_alloc` and valid `mem_free` calls, for every class
`k`, `fbcou[k]` is the number of bits of the bit array of the class that are 0
while their sibling bit is 1, and it is far from the top of the 16 bit range.
When `fbcou[k] > 0` the within-class search succeeds: it returns the 1-indexed
number `b + 1` of a real block `b` whose bit was 0 with a sibling bit 1, and has
set that bit. The counter never underflows: a `mem_alloc` that returns a pointer
lowers the counter of one class, which was not 0, and a valid `mem_free` lowers
`fbcou[c]` only at the visited classes where the sibling bit is 0, where
`fbcou[c]` is not 0. -/
theorem fbcou_exact {fuel R m : Nat} {heap : Nat → Nat} {st : State}
    {live : List (Int × Nat)} (hR : R < 65536) (h : Reach fuel R m heap st live) :
    (∀ k, k + 1 < st.pool.length →
      fbcou_at st k
        = free_buddies (class_bit st k)
            (DATAWIDTH * ((avail_at st k + (DATAWIDTH - 1)) / DATAWIDTH)) ∧
      fbcou_at st k + 1 < UINT ∧
      (0 < fbcou_at st k →
        ∃ mem1 b, fl_find_buddy st.freelist (offset_at st k) (avail_at st k)
            = some (mem1, b + 1) ∧
          b < avail_at st k ∧ class_bit st k b = false ∧ class_bit st k (sibling b) = true ∧
          IsSet st.freelist mem1 (16 * offset_at st k + b))) ∧
    (∀ s p st1, mem_alloc st s = some (some p, st1) →
      ∃ j, j + 1 < st.pool.length ∧ 0 < fbcou_at st j ∧ fbcou_at st1 j + 1 = fbcou_at st j) ∧
    (∀ p k, (p, k) ∈ live → ∀ c, Visited st p k c → sibling_bit st p c = false →
      0 < fbcou_at st c) := by
  obtain ⟨K, B, st0, A, _, _, _, _, _, _, hinv, _⟩ := reach_inv hR h
  refine ⟨?_, ?_, ?_⟩
  · intro k hk
    have hkK := (hinv.class_iff k).1 hk
    have hcb : class_bit st k = class_bits st.freelist (class_offset R m k) := by
      funext i
      unfold class_bit
      rw [hinv.offset_at_eq hkK]
    have hn : DATAWIDTH * ((avail_at st k + (DATAWIDTH - 1)) / DATAWIDTH)
        = 16 * words_for (class_avail R m k) := by
      rw [hinv.avail_at_eq hkK, ← words_for_eq]
      rfl
    refine ⟨?_, hinv.fbcou_lt hkK, ?_⟩
    · rw [hcb, hn]
      exact hinv.fb k hkK
    · intro hpos
      obtain ⟨mem1, b0, hfind, _, hb0, hfree, hset⟩ := find_buddy_inv hinv hkK (by omega)
      have hreal := free_buddy_real hinv hkK hb0 hfree
      unfold is_free_buddy at hfree
      simp only [Bool.and_eq_true, Bool.not_eq_true'] at hfree
      rw [hcb, hinv.offset_at_eq hkK, hinv.avail_at_eq hkK]
      exact ⟨mem1, b0, hfind, hreal, hfree.1, hfree.2, hset⟩
  · intro s p st1 ha
    obtain ⟨al, fb, mem, hst⟩ := hinv.exists_form
    rw [hst] at hinv ha ⊢
    obtain ⟨j, hjK, hpos, hdec⟩ := alloc_fbcou_step hinv ha
    refine ⟨j, by rw [pool_from_length]; omega, ?_, ?_⟩
    · rw [fbcou_at_pool R m K al fb mem hjK]; exact hpos
    · rw [fbcou_at_pool R m K al fb mem hjK]; exact hdec
  · intro p k hp c hv hs
    obtain ⟨_, _, _, _, st1, _, _, _, _, _, _, _, h8, _⟩ := reach_free_detail hR h hp
    have := h8 c hv hs
    omega

/-- After two allocations of 16 bytes in the example of the header comment
`fbcou` is the exact count of the free buddies of every class. -/
theorem fbcou_exact_witness :
    (2000 < 65536 ∧ Reach 20 2000 16 heap0 ex2000_two [(1920, 0), (1984, 0)]) ∧
    ((∀ k, k + 1 < ex2000_two.pool.length →
      fbcou_at ex2000_two k
        = free_buddies (class_bit ex2000_two k)
            (DATAWIDTH * ((avail_at ex2000_two k + (DATAWIDTH - 1)) / DATAWIDTH)) ∧
      fbcou_at ex2000_two k + 1 < UINT ∧
      (0 < fbcou_at ex2000_two k →
        ∃ mem1 b, fl_find_buddy ex2000_two.freelist (offset_at ex2000_two k)
            (avail_at ex2000_two k) = some (mem1, b + 1) ∧
          b < avail_at ex2000_two k ∧ class_bit ex2000_two k b = false ∧
          class_bit ex2000_two k (sibling b) = true ∧
          IsSet ex2000_two.freelist mem1 (16 * offset_at ex2000_two k + b))) ∧
    (∀ s p st1, mem_alloc ex2000_two s = some (some p, st1) →
      ∃ j, j + 1 < ex2000_two.pool.length ∧ 0 < fbcou_at ex2000_two j ∧
        fbcou_at st1 j + 1 = fbcou_at ex2000_two j) ∧
    (∀ p k, (p, k) ∈ ([(1920, 0), (1984, 0)] : List (Int × Nat)) →
      ∀ c, Visited ex2000_two p k c → sibling_bit ex2000_two p c = false →
      0 < fbcou_at ex2000_two c)) :=
  ⟨⟨by decide, reach_ex2000_two⟩, fbcou_exact (by decide) reach_ex2000_two⟩

/-- Claim C24 (alloc-then-free is the identity). In every state reached from a
successful `mem_init` by `mem_alloc` and valid `mem_free` calls, if
`mem_alloc(s)` returns a non-null pointer `p` (by the fast path or by the split
path), then `mem_free(p)` called right afterwards returns and leaves the state
that preceded the `mem_alloc`: every bitmap word and every descriptor field has
its former value. -/
theorem alloc_then_free {fuel R m : Nat} {heap : Nat → Nat} {st st1 : State}
    {live : List (Int × Nat)} {s : Nat} {p : Int} (hR : R < 65536)
    (h : Reach fuel R m heap st live) (ha : mem_alloc st s = some (some p, st1)) :
    mem_free st1 p = some st := by
  obtain ⟨K, B, st0, A, _, _, _, _, _, _, hinv, _⟩ := reach_inv hR h
  obtain ⟨k, _, _, _, _, h5⟩ := mem_alloc_step hinv s
  rcases h5 with ⟨h6, _⟩ | ⟨i, st2, h6, _, _, hinv2⟩
  · rw [h6] at ha
    simp at ha
  · rw [h6] at ha
    simp only [Option.some.injEq, Prod.mk.injEq] at ha
    obtain ⟨hp, hst⟩ := ha
    rw [← hp, ← hst]
    have hinv3 : Inv R m K (init_alloccou heap m B) (ghost_from m B K 0) st2
        ([] ++ (k, i) :: A) := hinv2
    obtain ⟨st3, hfree, hinv4⟩ := mem_free_step hinv3
    rw [hfree]
    have : st3 = st := inv_unique hinv4 hinv
    rw [this]

/-- The second `mem_alloc(16)` of the example takes the split path and returns
1920; `mem_free(1920)` right afterwards gives back the state before it. -/
theorem alloc_then_free_witness :
    (2000 < 65536 ∧ Reach 20 2000 16 heap0 ex2000_one [(1984, 0)] ∧
      mem_alloc ex2000_one 16 = some (some 1920, ex2000_two)) ∧
    mem_free ex2000_two 1920 = some ex2000_one :=
  ⟨⟨by decide, reach_ex2000_one, mem_alloc_ex2000_one⟩,
    alloc_then_free (by decide) reach_ex2000_one mem_alloc_ex2000_one⟩

end HtMalloc
